import Mathlib

/-!
# Verification development for the `ppu` MPC runtime

Shallow embedding of the semi2k conversion kernels
(`ppu/mpc/semi2k/conversion.h`) together with the symbolic cost model they are
written in, and theorems about them.
-/

namespace PPU

/-! ## Cost expressions (`ppu/mpc/util/cexpr.h`) -/

/-- Modelled from the spec: the header `ppu/mpc/util/cexpr.h` declaring `util::CExpr` is not
among the sources. The spec describes a cost expression as a symbolic integer-valued formula in
the two free variables `K` (ring bit-width) and `N` (party count) with constructors for constants,
`K`, `N`, `log2`, addition and multiplication; `conversion.h` also subtracts (`N() - 1`). -/
inductive CExpr where
  | Const (v : Int)
  | K
  | N
  | Log (e : CExpr)
  | Add (a b : CExpr)
  | Sub (a b : CExpr)
  | Mul (a b : CExpr)
  deriving Repr, DecidableEq

instance : Add CExpr := ⟨CExpr.Add⟩
instance : Sub CExpr := ⟨CExpr.Sub⟩
instance : Mul CExpr := ⟨CExpr.Mul⟩
/-- Integer literals of the C++ source (`+ 1`, `2 *`) are lifted to constant expressions. -/
instance (n : Nat) : OfNat CExpr n := ⟨CExpr.Const n⟩

namespace CExpr

/-- Modelled from the spec: evaluation of a cost expression at concrete `K` and `N`. The spec
leaves the rounding rule of `log2` open ("floors or ceils, pick one"), so the integer logarithm
is the parameter `lg`; it is applied to the non-negative part of its argument. -/
def eval (lg : Nat → Nat) (k n : Nat) : CExpr → Int
  | Const v => v
  | K => k
  | N => n
  | Log e => lg (eval lg k n e).toNat
  | Add a b => eval lg k n a + eval lg k n b
  | Sub a b => eval lg k n a - eval lg k n b
  | Mul a b => eval lg k n a * eval lg k n b

end CExpr

/-- Modelled from the spec: helper for the floor rounding rule, halving `v` at most `fuel`
times. -/
def log2FloorAux : Nat → Nat → Nat
  | 0, _ => 0
  | fuel + 1, v => if v ≤ 1 then 0 else log2FloorAux fuel (v / 2) + 1

/-- Modelled from the spec: `log2` rounded down (`log2Floor 0 = 0`). -/
def log2Floor (v : Nat) : Nat := log2FloorAux v v

/-- Modelled from the spec: `log2` rounded up (`log2Ceil 0 = log2Ceil 1 = 0`). -/
def log2Ceil (v : Nat) : Nat := if v ≤ 1 then 0 else log2Floor (v - 1) + 1

/-! ## The semi2k kernels (`ppu/mpc/semi2k/conversion.h`) -/

/-- The dispatch name `AddBB::kName`. -/
def AddBB.kName : String := "AddBB"

open CExpr in
/-- The round count `AddBB::latency`. -/
def AddBB.latency : CExpr := Log K + 1

open CExpr in
/-- The communication volume `AddBB::comm`. -/
def AddBB.comm : CExpr := Log K * K

/-- The dispatch name `A2B::kName`. -/
def A2B.kName : String := "A2B"

open CExpr in
/-- The round count `A2B::latency`: adder circuit times tree-reduce over the parties. -/
def A2B.latency : CExpr := (Log K + 1) * Log N

open CExpr in
/-- The communication volume `A2B::comm`: adder circuit, times AND gate for N parties, times
reduce; the product associates to the left as in C++. -/
def A2B.comm : CExpr := (2 * Log K + 1) * 2 * K * (N - 1) * (N - 1)

/-- The dispatch name `B2A::kName`. -/
def B2A.kName : String := "B2A"

open CExpr in
/-- The round count `B2A::latency`. -/
def B2A.latency : CExpr := Const 0

open CExpr in
/-- The communication volume `B2A::comm`. -/
def B2A.comm : CExpr := Const 0

/-- The dispatch name `B2A_Randbit::kName`; the source gives it the string "B2A". -/
def B2A_Randbit.kName : String := "B2A"

open CExpr in
/-- The round count `B2A_Randbit::latency`. -/
def B2A_Randbit.latency : CExpr := Const 1

open CExpr in
/-- The communication volume `B2A_Randbit::comm`: open the bit-masked value. -/
def B2A_Randbit.comm : CExpr := K * (N - 1)

/-- The kernel names in declaration order of `conversion.h`. -/
def kernelNames : List String :=
  [AddBB.kName, A2B.kName, B2A.kName, B2A_Randbit.kName]


/-! ## Secret shares and the Beaver source -/

/-- Modelled from the spec: a secret-shared ring value as the parties see it jointly, one ring
element per party; entry `i` is the share held by the party of rank `i`. The buffer type
`ArrayRef` is not among the sources, and the kernels act on it element by element. -/
abbrev Shares := List Nat

/-- Modelled from the spec: XOR of the shares of all parties, the value an opening of a boolean
sharing delivers to every party. -/
def xorAll : Shares → Nat
  | [] => 0
  | v :: vs => v ^^^ xorAll vs

/-- Modelled from the spec: reconstruction of a boolean (XOR) sharing in the ring of `K`-bit
values. -/
def reconstructB (K : Nat) (x : Shares) : Nat := xorAll x % 2 ^ K

/-- Modelled from the spec: reconstruction of an arithmetic (additive) sharing in the ring of
`K`-bit values. -/
def reconstructA (K : Nat) (x : Shares) : Nat := x.sum % 2 ^ K

/-- Modelled from the spec: XOR of two boolean sharings, computed by every party on its own
shares. -/
def xorBB (x y : Shares) : Shares := List.zipWith (· ^^^ ·) x y

/-- Modelled from the spec: left shift of a `K`-bit ring element; bits shifted past position `K`
are dropped. -/
def lshift (K v s : Nat) : Nat := (v <<< s) % 2 ^ K

/-- Modelled from the spec: left shift of a boolean sharing, computed by every party on its own
share. -/
def lshiftB (K : Nat) (x : Shares) (s : Nat) : Shares := x.map (fun v => lshift K v s)

/-- Modelled from the spec: a Beaver triple `(a, b, c)` over boolean shares, each component
shared among the parties; the Beaver interface (`ppu/mpc/beaver`) is not among the sources. -/
structure Triple where
  a : Shares
  b : Shares
  c : Shares
  deriving Repr, DecidableEq

/-- Modelled from the spec: the triple relation `c = a * b` under the boolean sharing of `N`
parties, where the product of the ring of bits is bitwise AND. -/
def Triple.Valid (K N : Nat) (t : Triple) : Prop :=
  t.a.length = N ∧ t.b.length = N ∧ t.c.length = N ∧
    xorAll t.c % 2 ^ K = (xorAll t.a &&& xorAll t.b) % 2 ^ K

instance (K N : Nat) (t : Triple) : Decidable (t.Valid K N) := by
  unfold Triple.Valid; infer_instance

/-- Modelled from the spec: the Beaver source held by the state, as the triples it has yet to
issue; a triple leaves the source when it is issued. -/
abbrev Beaver := List Triple

/-- Modelled from the spec: the party of rank 0 XORs the public value `v` into its share. -/
def xorAtRank0 (v : Nat) : Shares → Shares
  | [] => []
  | z0 :: zs => (z0 ^^^ v) :: zs

/-- Modelled from the spec: one round of secure multiplication with an issued triple. The parties
open `d = x ^ a` and `e = y ^ b`; each party then sets `z = c ^ (d & b) ^ (e & a)` on its own
shares and the party of rank 0 also adds `d & e`. -/
def andGate (t : Triple) (x y : Shares) : Shares :=
  let d := xorAll (xorBB x t.a)
  let e := xorAll (xorBB y t.b)
  xorAtRank0 (d &&& e)
    (xorBB t.c (xorBB (t.b.map (fun v => d &&& v)) (t.a.map (fun v => e &&& v))))

/-- Modelled from the spec: AND of two boolean sharings, consuming one triple of the source; an
exhausted source is a precondition violation. -/
def andBB (bv : Beaver) (x y : Shares) : Option (Shares × Beaver) :=
  match bv with
  | [] => none
  | t :: rest => some (andGate t x y, rest)

/-- Modelled from the spec: the levels of the adder circuit. Level `i` combines every position
with the one `2 ^ i` places below it, `g := g ^ (p & (g << 2^i))` and `p := p & (p << 2^i)`, with
two AND gates evaluated in the same round. -/
def ksLoop (K : Nat) : Nat → Nat → Beaver → Shares → Shares → Option (Shares × Shares × Beaver)
  | 0, _, bv, g, p => some (g, p, bv)
  | l + 1, i, bv, g, p =>
    match andBB bv p (lshiftB K g (2 ^ i)) with
    | none => none
    | some (pg, bv1) =>
      match andBB bv1 p (lshiftB K p (2 ^ i)) with
      | none => none
      | some (pp, bv2) => ksLoop K l (i + 1) bv2 (xorBB g pg) pp

/-- Modelled from the spec: `AddBB::proc`, whose body is not among the sources. The adder
circuit over boolean shares is the Kogge-Stone circuit named by the cost comments of
`conversion.h` ("KS-adder-circuit", `2 * Log(K) + 1` AND gates in `Log(K) + 1` rounds): one
round for the generate bits `x & y`, then `log2(K)` levels (rounded up, which suffices for
every `K`) of two AND gates each, and the sum is `x ^ y ^ (g << 1)`. -/
def AddBB.proc (K : Nat) (bv : Beaver) (x y : Shares) : Option (Shares × Beaver) :=
  match andBB bv x y with
  | none => none
  | some (g0, bv0) =>
    match ksLoop K (log2Ceil K) 0 bv0 g0 (xorBB x y) with
    | none => none
    | some (g, _, bv1) => some (xorBB (xorBB x y) (lshiftB K g 1), bv1)

/-- Carry out of the bit window `[lo, lo + d)` of two operands with bits `a` and `b`, for a zero
carry into the window (the group-generate signal of a carry-lookahead adder). -/
def gen (a b : Nat → Bool) (lo : Nat) : Nat → Bool
  | 0 => false
  | d + 1 => (a (lo + d) && b (lo + d)) || ((a (lo + d) ^^ b (lo + d)) && gen a b lo d)

/-- The bit window `[lo, lo + d)` passes a carry through (the group-propagate signal). -/
def prp (a b : Nat → Bool) (lo : Nat) : Nat → Bool
  | 0 => true
  | d + 1 => (a (lo + d) ^^ b (lo + d)) && prp a b lo d

/-- State of the adder circuit after the levels of span `s`: bit `j` of the shared `g` is the
generate signal of the `s` positions ending at `j` (fewer at the low end), and bit `j` of the
shared `p` is their propagate signal (zero when fewer than `s` positions exist). -/
def KSInv (K : Nat) (a b : Nat → Bool) (s : Nat) (g p : Shares) : Prop :=
  ∀ j, j < K →
    (xorAll g).testBit j = gen a b (j + 1 - min s (j + 1)) (min s (j + 1)) ∧
    (xorAll p).testBit j = (decide (s ≤ j + 1) && prp a b (j + 1 - s) s)

/-! ## Conversions between arithmetic and boolean sharings -/

/-- Modelled from the spec: the local first step of `A2B`. The party of rank `i` turns its
arithmetic share into a boolean sharing of that share, in which every other party holds `0`;
`before` counts the parties of lower rank. -/
def reshare : Nat → Shares → List Shares
  | _, [] => []
  | before, v :: vs =>
    (List.replicate before 0 ++ v :: List.replicate vs.length 0) :: reshare (before + 1) vs

/-- Modelled from the spec: one level of the reduction tree, adding adjacent sharings with the
adder circuit; an unpaired last sharing moves up unchanged. -/
def reduceLevel (K : Nat) : Beaver → List Shares → Option (List Shares × Beaver)
  | bv, u :: v :: rest =>
    match AddBB.proc K bv u v with
    | none => none
    | some (s, bv1) =>
      match reduceLevel K bv1 rest with
      | none => none
      | some (ss, bv2) => some (s :: ss, bv2)
  | bv, [u] => some ([u], bv)
  | bv, [] => some ([], bv)

/-- Modelled from the spec: the reduction tree over the parties, `levels` deep. -/
def treeReduce (K : Nat) : Nat → Beaver → List Shares → Option (List Shares × Beaver)
  | 0, bv, xs => some (xs, bv)
  | levels + 1, bv, xs =>
    match reduceLevel K bv xs with
    | none => none
    | some (ys, bv1) => treeReduce K levels bv1 ys

/-- Modelled from the spec: `A2B::proc`, whose body is not among the sources. Each party's
arithmetic share becomes a boolean sharing, and the `N` sharings are summed by a tree of adder
circuits of depth `log2(N)` (rounded up). -/
def A2B.proc (K : Nat) (bv : Beaver) (x : Shares) : Option (Shares × Beaver) :=
  match treeReduce K (log2Ceil x.length) bv (reshare 0 x) with
  | some ([out], bv1) => some (out, bv1)
  | _ => none

/-- Modelled from the spec: the random bits a boolean-to-arithmetic conversion masks with; entry
`j` is the arithmetic sharing among the parties of the random bit for position `j`. -/
abbrev RandBits := List Shares

/-- Modelled from the spec: there is one random bit per ring position, each is shared among
the `N` parties and reconstructs to `0` or `1`. -/
def RandBits.Valid (K N : Nat) (r : RandBits) : Prop :=
  r.length = K ∧ ∀ s ∈ r, s.length = N ∧ reconstructA K s ≤ 1

instance (K N : Nat) (r : RandBits) : Decidable (RandBits.Valid K N r) := by
  unfold RandBits.Valid; infer_instance

/-- Modelled from the spec: the boolean sharing of the mask. For the bits from position `j` on,
each party takes the lowest bit of its arithmetic share of a random bit as its boolean share of
that bit. -/
def maskShares (N : Nat) : Nat → RandBits → Shares
  | _, [] => List.replicate N 0
  | j, r :: rs => xorBB (r.map (fun v => (v % 2) <<< j)) (maskShares N (j + 1) rs)

/-- Modelled from the spec: negation of an arithmetic sharing in the `K`-bit ring, computed by
every party on its own share. -/
def negA (K : Nat) (x : Shares) : Shares := x.map (fun v => (2 ^ K - v % 2 ^ K) % 2 ^ K)

/-- Modelled from the spec: the party of rank 0 adds the public value `v` to its share. -/
def addAtRank0 (K v : Nat) : Shares → Shares
  | [] => []
  | z0 :: zs => ((z0 + v) % 2 ^ K) :: zs

/-- Modelled from the spec: addition of two arithmetic sharings in the `K`-bit ring, computed by
every party on its own shares. -/
def addAA (K : Nat) (x y : Shares) : Shares := List.zipWith (fun u v => (u + v) % 2 ^ K) x y

/-- Modelled from the spec: arithmetic sharing of one plaintext bit, from the arithmetic sharing
`r` of its random bit and the opened masked bit `c`: the bit is `r` when `c = 0` and `1 - r`
when `c = 1`. -/
def bitShare (K : Nat) (c : Bool) (r : Shares) : Shares :=
  if c then addAtRank0 K 1 (negA K r) else r

/-- Modelled from the spec: the local last step of a boolean-to-arithmetic conversion, from the
opened masked value `c`: the arithmetic sharings of the plaintext bits from position `j` on are
weighted by their powers of two and summed. -/
def unmaskBits (K N c : Nat) : Nat → RandBits → Shares
  | _, [] => List.replicate N 0
  | j, r :: rs =>
    addAA K ((bitShare K (c.testBit j) r).map (fun v => 2 ^ j * v)) (unmaskBits K N c (j + 1) rs)

/-- Modelled from the spec: the conversion material `B2A` assumes to be available: the random
bits and the masked value opened earlier. -/
structure B2AMaterial where
  randbits : RandBits
  opened : Nat
  deriving Repr, DecidableEq

/-- Modelled from the spec: the material fits the boolean sharing `x` when its random bits are
well formed and its opened value is `x` masked with them. -/
def B2AMaterial.Valid (K N : Nat) (m : B2AMaterial) (x : Shares) : Prop :=
  RandBits.Valid K N m.randbits ∧
    m.opened % 2 ^ K = xorAll (xorBB x (maskShares N 0 m.randbits)) % 2 ^ K

instance (K N : Nat) (m : B2AMaterial) (x : Shares) : Decidable (m.Valid K N x) := by
  unfold B2AMaterial.Valid; infer_instance

/-- Modelled from the spec: `B2A::proc`, whose body is not among the sources. With the
conversion material precomputed the parties exchange nothing: every party derives its arithmetic
share from the opened masked value and its shares of the random bits. -/
def B2A.proc (K : Nat) (m : B2AMaterial) (x : Shares) : Shares :=
  unmaskBits K x.length m.opened 0 m.randbits

/-- Modelled from the spec: `B2A_Randbit::proc`, whose body is not among the sources. The
parties mask `x` with fresh random bits, open the masked value in one round, and unmask
locally. -/
def B2A_Randbit.proc (K : Nat) (r : RandBits) (x : Shares) : Shares :=
  unmaskBits K x.length (xorAll (xorBB x (maskShares x.length 0 r)) % 2 ^ K) 0 r

/-- Number of AND gates, hence of Beaver triples, of one adder circuit: the count
`2 * log2(K) + 1` that `A2B::comm` attributes to the adder. -/
def andGates (K : Nat) : Nat := 2 * log2Ceil K + 1

/-- Sum of the plaintexts of a list of boolean sharings. -/
def sumB (K : Nat) (xs : List Shares) : Nat := (xs.map (reconstructB K)).sum

/-! ## Concrete protocol material used to exercise the theorems -/

/-- Five valid triples for two parties over 4-bit values. -/
def beaver4 : Beaver :=
  [⟨[5, 3], [9, 12], [7, 3]⟩, ⟨[1, 14], [6, 6], [2, 2]⟩, ⟨[8, 7], [11, 0], [13, 6]⟩,
   ⟨[4, 4], [10, 3], [5, 5]⟩, ⟨[15, 2], [9, 4], [0, 13]⟩]

/-- Four random bits `1, 1, 0, 1` shared arithmetically between two parties modulo `2 ^ 4`. -/
def randbits4 : RandBits := [[3, 14], [7, 10], [5, 11], [15, 2]]

/-- Fourteen valid triples for three parties over 8-bit values. -/
def beaver8 : Beaver :=
  List.replicate 7 ⟨[5, 3, 1], [9, 12, 2], [7, 2, 2]⟩ ++
    List.replicate 7 ⟨[200, 17, 66], [31, 128, 77], [90, 64, 136]⟩

/-- Eight random bits shared arithmetically among three parties modulo `2 ^ 8`. -/
def randbits8 : RandBits :=
  [[3, 14, 240], [7, 10, 239], [5, 11, 240], [15, 2, 240],
   [100, 100, 56], [200, 50, 7], [1, 1, 254], [0, 0, 1]]

/-! ## Protocol state (`ppu/mpc/semi2k/object.h`) -/

/-- Modelled from the spec: the Beaver source `BeaverTfp`, whose header
`ppu/mpc/beaver/beaver_tfp.h` is not among the sources. The source is bound to the communication
context it was built with and holds the triples requested for the session that it has yet to
issue. -/
structure BeaverTfp (Ctx : Type) where
  lctx : Ctx
  pending : Beaver

/-- Modelled from the spec: the constructor `BeaverTfp(lctx)`; `supply` stands for the triples
requested from the dealer for the session. -/
def BeaverTfp.new {Ctx : Type} (supply : Beaver) (lctx : Ctx) : BeaverTfp Ctx :=
  ⟨lctx, supply⟩

/-- The class `Semi2kState`: its only member is `std::unique_ptr<Beaver> beaver_`, an owned
pointer that is either null (`none`) or holds one Beaver source. -/
structure Semi2kState (Ctx : Type) where
  beaver_ : Option (BeaverTfp Ctx)

/-- The state name `Semi2kState::kName`. -/
def Semi2kState.kName : String := "Semi2kState"

/-- The constructor `Semi2kState(lctx)`, which runs
`beaver_ = std::make_unique<BeaverTfp>(lctx)`; `supply` is handed on to the modelled Beaver
constructor. -/
def Semi2kState.new {Ctx : Type} (supply : Beaver) (lctx : Ctx) : Semi2kState Ctx :=
  ⟨some (BeaverTfp.new supply lctx)⟩

/-- The accessor `Semi2kState::beaver()`, which returns `beaver_.get()`; it is not a const
member, so it is given the state and hands the state back. -/
def Semi2kState.beaver {Ctx : Type} (s : Semi2kState Ctx) :
    Option (BeaverTfp Ctx) × Semi2kState Ctx :=
  (s.beaver_, s)

/-- Calls `beaver()` on the state `n` times in a row and collects what the calls return. -/
def Semi2kState.beaverCalls {Ctx : Type} :
    Nat → Semi2kState Ctx → List (Option (BeaverTfp Ctx)) × Semi2kState Ctx
  | 0, s => ([], s)
  | n + 1, s =>
    let r := s.beaver
    let rs := Semi2kState.beaverCalls n r.2
    (r.1 :: rs.1, rs.2)

/-- Modelled from the spec: one multiplication of a kernel that draws its triple from
`State.beaver()`. The source issues its next triple, which leaves the source; a null or
exhausted source is a precondition violation. -/
def Semi2kState.mul {Ctx : Type} (s : Semi2kState Ctx) (x y : Shares) :
    Option (Shares × Semi2kState Ctx) :=
  match s.beaver.1 with
  | none => none
  | some b =>
    match andBB b.pending x y with
    | none => none
    | some (z, rest) => some (z, ⟨some ⟨b.lctx, rest⟩⟩)

/-- Modelled from the spec: a run of multiplications on the same state, in program order. -/
def Semi2kState.mulMany {Ctx : Type} :
    Semi2kState Ctx → List (Shares × Shares) → Option (List Shares × Semi2kState Ctx)
  | s, [] => some ([], s)
  | s, op :: ops =>
    match s.mul op.1 op.2 with
    | none => none
    | some (z, s1) =>
      match Semi2kState.mulMany s1 ops with
      | none => none
      | some (zs, s2) => some (z :: zs, s2)

/-! ## Link collectives (`ppu/link/algorithm/scatter.h`) -/

/-- Modelled from the spec: a buffer of bytes exchanged over the link (`ppu/core/buffer.h` is
not among the sources). -/
abbrev Buffer := List Nat

/-- Modelled from the spec: a message in flight on the link, keyed by the sending rank, the
receiving rank and a tag. -/
structure Message where
  src : Nat
  dst : Nat
  tag : String
  payload : Buffer
  deriving Repr, DecidableEq

/-- Modelled from the spec: the messages in flight among the parties of one Communication
Context, oldest first. -/
abbrev Net := List Message

/-- Modelled from the spec: the message `m` travels on the channel from `src` to `dst` under
`tag`. -/
def Message.onChannel (src dst : Nat) (tag : String) (m : Message) : Bool :=
  m.src == src && m.dst == dst && m.tag == tag

/-- Modelled from the spec: point-to-point send. -/
def Net.send (net : Net) (m : Message) : Net := net ++ [m]

/-- Modelled from the spec: point-to-point receive of the oldest message on the channel from
`src` to `dst` under `tag`; `none` when no such message is in flight (the call would block). -/
def Net.recv (src dst : Nat) (tag : String) : Net → Option (Buffer × Net)
  | [] => none
  | m :: rest =>
    if m.onChannel src dst tag then some (m.payload, rest)
    else
      match Net.recv src dst tag rest with
      | none => none
      | some (b, rest1) => some (b, m :: rest1)

/-- Modelled from the spec: the sends of the root in `Scatter`: one buffer to every rank from
`idx` on, except to the root itself. -/
def scatterSends (root : Nat) (tag : String) : Nat → List Buffer → Net → Net
  | _, [], net => net
  | idx, b :: bs, net =>
    scatterSends root tag (idx + 1) bs (if idx = root then net else net.send ⟨root, idx, tag, b⟩)

/-- Modelled from the spec: `Scatter(ctx, inputs, root, tag)` as called by the party of rank
`rank` in a context of `world` parties; only its declaration is among the sources. The root
must supply one buffer per rank, sends every other rank its buffer and returns its own; every
other party receives its buffer from the root. -/
def Scatter (world rank : Nat) (net : Net) (inputs : List Buffer) (root : Nat) (tag : String) :
    Option (Buffer × Net) :=
  if rank = root then
    if inputs.length = world then
      match inputs[root]? with
      | none => none
      | some b => some (b, scatterSends root tag 0 inputs net)
    else none
  else Net.recv root rank tag net

/-- Modelled from the spec: the parties of ranks `rs` call `Scatter` one after the other, none
of them being the root; the buffers they return are collected in call order. -/
def scatterCalls (world root : Nat) (tag : String) : List Nat → Net → Option (List Buffer × Net)
  | [], net => some ([], net)
  | r :: rs, net =>
    match Scatter world r net [] root tag with
    | none => none
    | some (b, net1) =>
      match scatterCalls world root tag rs net1 with
      | none => none
      | some (bs, net2) => some (b :: bs, net2)

/-- The payloads in flight on the channel from `src` to `dst` under `tag`, oldest first. -/
def Net.chan (src dst : Nat) (tag : String) (net : Net) : List Buffer :=
  (net.filter (Message.onChannel src dst tag)).map Message.payload

/-! ## Exceptions and enforce macros (`ppu/utils/exception.h`) -/

/-- The operand types `T1`, `T2` of a comparison as the checker functions use them: their six
C++ comparison operators and the text `fmt::format` prints for a value. -/
structure Comparable (α β : Type) where
  eq : α → β → Bool
  ne : α → β → Bool
  gt : α → β → Bool
  ge : α → β → Bool
  lt : α → β → Bool
  le : α → β → Bool
  fmtL : α → String
  fmtR : β → String

/-- The class `enforce_detail::EnforceFailMessage`: a pointer to a message, null (`none`) for
`EnforceOK`. -/
structure EnforceFailMessage where
  msg_ : Option String
  deriving Repr, DecidableEq

/-- The conversion from `EnforceOK`: `msg_(nullptr)`. -/
def EnforceOK : EnforceFailMessage := ⟨none⟩

/-- The member `EnforceFailMessage::Bad`: `msg_ != nullptr`. -/
def EnforceFailMessage.Bad (r : EnforceFailMessage) : Bool := r.msg_.isSome

/-- The member `EnforceFailMessage::GetMessageAndFree(extra)`: the message alone when `extra`
is empty, and the message, a dot and `extra` otherwise. It is only called on a bad message. -/
def EnforceFailMessage.GetMessageAndFree (r : EnforceFailMessage) (extra : String) : String :=
  if extra.isEmpty then r.msg_.getD "" else r.msg_.getD "" ++ "." ++ extra

/-- The body of `BINARY_COMP_HELPER(name, op)`: `EnforceOK` when `x op y`, and the two values
joined by " vs " otherwise. -/
def binaryCompHelper {α β : Type} (c : Comparable α β) (op : α → β → Bool) (x : α) (y : β) :
    EnforceFailMessage :=
  if op x y then EnforceOK else ⟨some (c.fmtL x ++ " vs " ++ c.fmtR y)⟩

/-- The checker `Equals`, `BINARY_COMP_HELPER(Equals, ==)`. -/
def Equals {α β : Type} (c : Comparable α β) (x : α) (y : β) : EnforceFailMessage :=
  binaryCompHelper c c.eq x y

/-- The checker `NotEquals`, `BINARY_COMP_HELPER(NotEquals, !=)`. -/
def NotEquals {α β : Type} (c : Comparable α β) (x : α) (y : β) : EnforceFailMessage :=
  binaryCompHelper c c.ne x y

/-- The checker `Greater`, `BINARY_COMP_HELPER(Greater, >)`. -/
def Greater {α β : Type} (c : Comparable α β) (x : α) (y : β) : EnforceFailMessage :=
  binaryCompHelper c c.gt x y

/-- The checker `GreaterEquals`, `BINARY_COMP_HELPER(GreaterEquals, >=)`. -/
def GreaterEquals {α β : Type} (c : Comparable α β) (x : α) (y : β) : EnforceFailMessage :=
  binaryCompHelper c c.ge x y

/-- The checker `Less`, `BINARY_COMP_HELPER(Less, <)`. -/
def Less {α β : Type} (c : Comparable α β) (x : α) (y : β) : EnforceFailMessage :=
  binaryCompHelper c c.lt x y

/-- The checker `LessEquals`, `BINARY_COMP_HELPER(LessEquals, <=)`. -/
def LessEquals {α β : Type} (c : Comparable α β) (x : α) (y : β) : EnforceFailMessage :=
  binaryCompHelper c c.le x y

/-- The class `EnforceNotMet`: the message of its `Exception` base and the full message that
`what()` returns. -/
structure EnforceNotMet where
  msg_ : String
  full_msg_ : String
  deriving Repr, DecidableEq

/-- The constructor `EnforceNotMet(file, line, condition, msg)`: the base is default
constructed and the full message is "[Enforce fail at file:line] condition. msg". -/
def EnforceNotMet.new (file : String) (line : Nat) (condition msg : String) : EnforceNotMet :=
  ⟨"", "[Enforce fail at " ++ file ++ ":" ++ toString line ++ "] " ++ condition ++ ". " ++ msg⟩

/-- The member `EnforceNotMet::what`. -/
def EnforceNotMet.what (e : EnforceNotMet) : String := e.full_msg_

/-- The macro `PPU_ENFORCE_THAT_IMPL(condition, expr, ...)` expanded at `file:line`; `extra` is
what `internal::Format` makes of the variadic arguments, the empty string when there are
none. -/
def PPU_ENFORCE_THAT_IMPL (file : String) (line : Nat) (condition : EnforceFailMessage)
    (expr : String) (extra : String) : Except EnforceNotMet Unit :=
  if condition.Bad then
    Except.error (EnforceNotMet.new file line expr (condition.GetMessageAndFree extra))
  else Except.ok ()

/-- The macro `PPU_ENFORCE_EQ(x, y, ...)`; `sx` and `sy` are the source texts of the two
operands. -/
def PPU_ENFORCE_EQ {α β : Type} (c : Comparable α β) (file : String) (line : Nat)
    (sx sy : String) (x : α) (y : β) (extra : String) : Except EnforceNotMet Unit :=
  PPU_ENFORCE_THAT_IMPL file line (Equals c x y) (sx ++ " == " ++ sy) extra

/-- The macro `PPU_ENFORCE_NE(x, y, ...)`. -/
def PPU_ENFORCE_NE {α β : Type} (c : Comparable α β) (file : String) (line : Nat)
    (sx sy : String) (x : α) (y : β) (extra : String) : Except EnforceNotMet Unit :=
  PPU_ENFORCE_THAT_IMPL file line (NotEquals c x y) (sx ++ " != " ++ sy) extra

/-- The macro `PPU_ENFORCE_LE(x, y, ...)`. -/
def PPU_ENFORCE_LE {α β : Type} (c : Comparable α β) (file : String) (line : Nat)
    (sx sy : String) (x : α) (y : β) (extra : String) : Except EnforceNotMet Unit :=
  PPU_ENFORCE_THAT_IMPL file line (LessEquals c x y) (sx ++ " <= " ++ sy) extra

/-- The macro `PPU_ENFORCE_LT(x, y, ...)`. -/
def PPU_ENFORCE_LT {α β : Type} (c : Comparable α β) (file : String) (line : Nat)
    (sx sy : String) (x : α) (y : β) (extra : String) : Except EnforceNotMet Unit :=
  PPU_ENFORCE_THAT_IMPL file line (Less c x y) (sx ++ " < " ++ sy) extra

/-- The macro `PPU_ENFORCE_GE(x, y, ...)`. -/
def PPU_ENFORCE_GE {α β : Type} (c : Comparable α β) (file : String) (line : Nat)
    (sx sy : String) (x : α) (y : β) (extra : String) : Except EnforceNotMet Unit :=
  PPU_ENFORCE_THAT_IMPL file line (GreaterEquals c x y) (sx ++ " >= " ++ sy) extra

/-- The macro `PPU_ENFORCE_GT(x, y, ...)`. -/
def PPU_ENFORCE_GT {α β : Type} (c : Comparable α β) (file : String) (line : Nat)
    (sx sy : String) (x : α) (y : β) (extra : String) : Except EnforceNotMet Unit :=
  PPU_ENFORCE_THAT_IMPL file line (Greater c x y) (sx ++ " > " ++ sy) extra

/-- The six binary enforce macros. -/
inductive EnforceMacro where
  | EQ | NE | LT | LE | GT | GE
  deriving Repr, DecidableEq

/-- The operator a binary enforce macro checks. -/
def EnforceMacro.op {α β : Type} (c : Comparable α β) : EnforceMacro → α → β → Bool
  | EQ => c.eq | NE => c.ne | LT => c.lt | LE => c.le | GT => c.gt | GE => c.ge

/-- The condition text a binary enforce macro builds from the source texts of its operands,
as in `#x " == " #y`. -/
def EnforceMacro.cond (sx sy : String) : EnforceMacro → String
  | EQ => sx ++ " == " ++ sy
  | NE => sx ++ " != " ++ sy
  | LT => sx ++ " < " ++ sy
  | LE => sx ++ " <= " ++ sy
  | GT => sx ++ " > " ++ sy
  | GE => sx ++ " >= " ++ sy

/-- Expansion of the binary enforce macro `m`. -/
def EnforceMacro.run {α β : Type} (c : Comparable α β) (m : EnforceMacro) (file : String)
    (line : Nat) (sx sy : String) (x : α) (y : β) (extra : String) :
    Except EnforceNotMet Unit :=
  match m with
  | EQ => PPU_ENFORCE_EQ c file line sx sy x y extra
  | NE => PPU_ENFORCE_NE c file line sx sy x y extra
  | LT => PPU_ENFORCE_LT c file line sx sy x y extra
  | LE => PPU_ENFORCE_LE c file line sx sy x y extra
  | GT => PPU_ENFORCE_GT c file line sx sy x y extra
  | GE => PPU_ENFORCE_GE c file line sx sy x y extra

/-- The comparison operators and decimal formatting of `int` operands. -/
def intComparable : Comparable Int Int :=
  ⟨fun x y => decide (x = y), fun x y => decide (x ≠ y), fun x y => decide (x > y),
   fun x y => decide (x ≥ y), fun x y => decide (x < y), fun x y => decide (x ≤ y),
   toString, toString⟩

/-- The exception classes declared in `exception.h`. -/
inductive ErrorType where
  | Exception
  | RuntimeError
  | LogicError
  | NotImplementedError
  | IoError
  | NetworkError
  | EnforceNotMet
  deriving Repr, DecidableEq

/-- The direct base class of an exception class among the classes of `exception.h`;
`Exception` itself derives from `std::exception` only. -/
def ErrorType.base : ErrorType → Option ErrorType
  | Exception => none
  | RuntimeError => some Exception
  | LogicError => some Exception
  | NotImplementedError => some Exception
  | IoError => some RuntimeError
  | NetworkError => some IoError
  | EnforceNotMet => some Exception

/-- Walks at most `fuel` steps up the base classes of `e` looking for `h`. -/
def ErrorType.isAWithin : Nat → ErrorType → ErrorType → Bool
  | 0, e, h => decide (e = h)
  | fuel + 1, e, h =>
    decide (e = h) ||
      match e.base with
      | none => false
      | some b => ErrorType.isAWithin fuel b h

/-- An exception of class `e` is a `h`: `h` is `e` or one of its base classes (the hierarchy is
three levels deep). -/
def ErrorType.isA (e h : ErrorType) : Bool := ErrorType.isAWithin 3 e h

/-- A `catch (const h&)` handler catches a thrown exception of class `e`. -/
def catches (h e : ErrorType) : Bool := e.isA h

/-- The throwing macros of `exception.h`. -/
inductive ThrowMacro where
  | PPU_THROW
  | PPU_THROW_LOGIC_ERROR
  | PPU_THROW_IO_ERROR
  | PPU_THROW_NETWORK_ERROR
  | PPU_ENFORCE
  deriving Repr, DecidableEq

/-- The class of the exception a throwing macro raises (`PPU_ENFORCE` when its condition
fails). -/
def ThrowMacro.raises : ThrowMacro → ErrorType
  | PPU_THROW => ErrorType.RuntimeError
  | PPU_THROW_LOGIC_ERROR => ErrorType.LogicError
  | PPU_THROW_IO_ERROR => ErrorType.IoError
  | PPU_THROW_NETWORK_ERROR => ErrorType.NetworkError
  | PPU_ENFORCE => ErrorType.EnforceNotMet

/-! ## Shape utilities (`ppu/core/shape_util.h`, exercised by `shape_util_test.cc`) -/

/-- Modelled from the spec: the copy loop of `DeduceDotShape`, which appends every dimension of
a shape except the one at position `skip`; `i` is the position of the head of the list. -/
def copyDimsExcept (skip : Nat) : Nat → List Int → List Int
  | _, [] => []
  | i, d :: ds =>
    if i = skip then copyDimsExcept skip (i + 1) ds else d :: copyDimsExcept skip (i + 1) ds

/-- Modelled from the spec: `DeduceDotShape(lhs, rhs)`; `ppu/core/shape_util.h` is not among
the sources and the cases are those the instances of `shape_util_test.cc` name. A scalar operand
yields the other operand's shape, two vectors yield the shape `[1]`, and otherwise the last
dimension of `lhs` is contracted with the second-to-last dimension of `rhs` (with its only
dimension when `rhs` is a vector). -/
def DeduceDotShape (lhs rhs : List Int) : List Int :=
  if lhs.isEmpty then rhs
  else if rhs.isEmpty then lhs
  else if lhs.length = 1 ∧ rhs.length = 1 then [1]
  else
    copyDimsExcept (lhs.length - 1) 0 lhs
      ++ copyDimsExcept (if 1 < rhs.length then rhs.length - 2 else 0) 0 rhs

/-- Modelled from the spec: the loop of `flattenIndex(idx, shape)`, which walks from the last
dimension to the first, adding `idx[i] * stride` and then multiplying the stride by
`shape[i]`; the two lists are the index and the shape in reverse order. -/
def flattenIndexLoop : List Int → List Int → Int → Int → Int
  | i :: is, s :: ss, stride, acc => flattenIndexLoop is ss (stride * s) (acc + i * stride)
  | _, _, _, acc => acc

/-- Modelled from the spec: `flattenIndex(idx, shape)` without strides, the linear offset of
`idx` in a row-major array of the given shape; `ppu/core/shape_util.h` is not among the
sources. -/
def flattenIndex (idx shape : List Int) : Int :=
  flattenIndexLoop idx.reverse shape.reverse 1 0

/-- Modelled from the spec: the loop of `flattenIndex(idx, shape, strides)`, which adds
`idx[i] * strides[i]` for every dimension. -/
def flattenIndexStridedLoop : List Int → List Int → Int → Int
  | i :: is, st :: sts, acc => flattenIndexStridedLoop is sts (acc + i * st)
  | _, _, acc => acc

/-- Modelled from the spec: `flattenIndex(idx, shape, strides)`, the overload with explicit
strides; `ppu/core/shape_util.h` is not among the sources. -/
def flattenIndexStrided (idx _shape strides : List Int) : Int :=
  flattenIndexStridedLoop idx strides 0

/-- The row-major offset as a closed formula: the sum over `i` of `idx[i]` times the product
of `shape[j]` for `j > i`. -/
def rowMajorOffset (idx shape : List Int) : Int :=
  ((List.range idx.length).map (fun i => idx.getD i 0 * (shape.drop (i + 1)).prod)).sum

/-- The strided offset as a closed formula: the sum over `i` of `idx[i] * strides[i]`. -/
def stridedOffset (idx strides : List Int) : Int :=
  ((List.range idx.length).map (fun i => idx.getD i 0 * strides.getD i 0)).sum

/-- Row-major offset by recursion from the first dimension. -/
def rowMajorRec : List Int → List Int → Int
  | i :: is, _ :: ss => i * ss.prod + rowMajorRec is ss
  | _, _ => 0

/-- Value of the index digits in reverse order, lowest dimension first. -/
def hornerRev : List Int → List Int → Int
  | i :: is, s :: ss => i + s * hornerRev is ss
  | _, _ => 0

/-- The instances of `DeduceDotShapeTestInstances` in `shape_util_test.cc`, as
`(lhs, rhs, expected)`. -/
def dotShapeInstances : List (List Int × List Int × List Int) :=
  [([], [], []),
   ([2, 3, 4], [], [2, 3, 4]),
   ([], [2, 3, 4], [2, 3, 4]),
   ([3], [3], [1]),
   ([3], [3, 2], [2]),
   ([3, 2], [2], [3]),
   ([2, 3], [3, 4], [2, 4]),
   ([3], [2, 3, 4], [2, 4]),
   ([2, 3, 4], [4], [2, 3]),
   ([2, 3, 3], [3, 4], [2, 3, 4]),
   ([2, 3, 4], [3, 4, 5], [2, 3, 3, 5]),
   ([2, 3, 4, 5], [3, 4, 5, 6], [2, 3, 4, 3, 4, 6])]

/-! ## Byte container views (`ppu/utils/byte_container_view.h`, exercised by
`byte_container_view_test.cc`) -/

/-- Modelled from the spec: the bytes of the address space a view points into, by address. -/
abbrev Memory := Nat → Nat

/-- Modelled from the spec: `utils::ByteContainerView`, a pointer to the first byte and a
size; `ppu/utils/byte_container_view.h` is not among the sources. -/
structure ByteContainerView where
  data : Nat
  size : Nat
  deriving Repr, DecidableEq

/-- Modelled from the spec: the bytes a view covers, in order. -/
def ByteContainerView.bytes (mem : Memory) (v : ByteContainerView) : List Nat :=
  (List.range v.size).map (fun i => mem (v.data + i))

/-- Modelled from the spec: byte-by-byte comparison of `n` bytes at `p` with `n` bytes at
`q`. -/
def bytesEqual (mem : Memory) : Nat → Nat → Nat → Bool
  | _, _, 0 => true
  | p, q, n + 1 => mem p == mem q && bytesEqual mem (p + 1) (q + 1) n

/-- Modelled from the spec: `ByteContainerView::operator==`, equal sizes and equal bytes. -/
def ByteContainerView.operatorEq (mem : Memory) (v w : ByteContainerView) : Bool :=
  v.size == w.size && bytesEqual mem v.data w.data v.size

/-- Modelled from the spec: `ByteContainerView::operator!=`. -/
def ByteContainerView.operatorNe (mem : Memory) (v w : ByteContainerView) : Bool :=
  !(v.operatorEq mem w)

/-- Memory holding the given bytes from address 0 on, and zero elsewhere. -/
def memOfList (bs : List Nat) : Memory := fun a => bs.getD a 0

/-- The bytes of the test string `kData1`. -/
def kData1 : List Nat :=
  "Mary had a little lamb, its fleece was white as snow".toList.map Char.toNat

/-- The bytes of the test string `kData2`. -/
def kData2 : List Nat :=
  "Mary had a big pig, and it had no fleece".toList.map Char.toNat

/-- Memory of the test: `kData1` and `kData2`, each followed by its terminating NUL. -/
def testMemory : Memory := memOfList (kData1 ++ [0] ++ kData2 ++ [0])

/-- Modelled from the spec: the constructor `ByteContainerView(data, size)` from a pointer and a
size. -/
def ByteContainerView.fromBuffer (data size : Nat) : ByteContainerView := ⟨data, size⟩

/-- Modelled from the spec: an `absl::string_view`, a pointer and a length. -/
structure StringView where
  data : Nat
  size : Nat
  deriving Repr, DecidableEq

/-- Modelled from the spec: the constructor of a view from a `string_view`. -/
def ByteContainerView.fromStringView (sv : StringView) : ByteContainerView :=
  ⟨sv.data, sv.size⟩

/-- Modelled from the spec: `strlen`, the number of bytes before the first NUL from address
`p` on; the scan is cut off after `limit` bytes. -/
def strlen (mem : Memory) : Nat → Nat → Nat
  | 0, _ => 0
  | limit + 1, p => if mem p = 0 then 0 else strlen mem limit (p + 1) + 1

/-- Modelled from the spec: the constructor of a view from a C string, which covers the bytes
before the terminating NUL. -/
def ByteContainerView.fromCString (mem : Memory) (limit p : Nat) : ByteContainerView :=
  ⟨p, strlen mem limit p⟩

/-- Modelled from the spec: the constructor of a view from a fixed array of `n` bytes at
address `p`, which covers every element of the array. -/
def ByteContainerView.fromArray (p n : Nat) : ByteContainerView := ⟨p, n⟩

/-- Modelled from the spec: a byte container (`std::vector<uint8_t>`, `std::string`, ...) as
the view constructor uses it, through `data()` and `size()`. -/
structure ByteContainer where
  data : Nat
  size : Nat
  deriving Repr, DecidableEq

/-- Modelled from the spec: the constructor of a view from a byte container. -/
def ByteContainerView.fromContainer (c : ByteContainer) : ByteContainerView :=
  ⟨c.data, c.size⟩

/-- Modelled from the spec: `ByteContainerView::empty`. -/
def ByteContainerView.empty (v : ByteContainerView) : Bool := v.size == 0

/-- The bytes of the test array `kData` of `ConstexprConstructors`, with its terminating NUL. -/
def kDataArray : List Nat := "cool test data".toList.map Char.toNat ++ [0]

/-! ## Pseudo-random generator (`ppu/crypto/pseudo_random_generator.h`, exercised by
`pseudo_random_generator_test.cc`) -/

/-- Modelled from the spec: the symmetric cipher behind `FillAesRandom`, an external primitive:
for a cipher type, a seed used as key, an initial vector and a counter it yields the bytes of
one encrypted 128-bit block. -/
abbrev BlockCipher := Nat → Nat → Nat → Nat → List Nat

/-- Modelled from the spec: the first `n` bytes of a block, padded with zero bytes when the
cipher yields fewer. -/
def blockBytes (n : Nat) (block : List Nat) : List Nat :=
  (List.range n).map (fun i => block.getD i 0 % 256)

/-- Modelled from the spec: the loop of `FillAesRandom`. While bytes remain to be filled the
block of the current counter is encrypted, the counter advances by one and up to 16 bytes of the
block are copied out; `fuel` bounds the number of rounds. -/
def fillLoop (aes : BlockCipher) (type seed iv : Nat) : Nat → Nat → Nat → Nat × List Nat
  | 0, count, _ => (count, [])
  | fuel + 1, count, remaining =>
    if remaining = 0 then (count, [])
    else
      let r := fillLoop aes type seed iv fuel (count + 1) (remaining - min 16 remaining)
      (r.1, blockBytes (min 16 remaining) (aes type seed iv count) ++ r.2)

/-- Modelled from the spec: cuts a byte string into `n` elements of `size` bytes each. -/
def chunkBytes (size : Nat) : Nat → List Nat → List (List Nat)
  | 0, _ => []
  | n + 1, bytes => bytes.take size :: chunkBytes size n (bytes.drop size)

/-- Modelled from the spec: `FillAesRandom(type, seed, iv, count, out)` for an output span of
`outSize` elements of `sizeofT` bytes each; `ppu/crypto/pseudo_random_generator.h` is not among
the sources. It returns the advanced counter together with the elements written to `out`. -/
def FillAesRandom (aes : BlockCipher) (sizeofT type seed iv count outSize : Nat) :
    Nat × List (List Nat) :=
  let r := fillLoop aes type seed iv (sizeofT * outSize) count (sizeofT * outSize)
  (r.1, chunkBytes sizeofT outSize r.2)

/-- Modelled from the spec: the class `PseudoRandomGenerator<T, BATCH_SIZE>`: the seed, the
block counter, the buffered batch and the number of buffered elements already handed out. -/
structure PseudoRandomGenerator where
  seed_ : Nat
  counter_ : Nat
  buf_ : List (List Nat)
  num_consumed_ : Nat
  deriving Repr, DecidableEq

/-- Modelled from the spec: the parameters of a generator that are fixed at compile time or by
the build: the cipher, the size of `T` in bytes, the batch size, the cipher type and the
initial vector. -/
structure PrgConfig where
  aes : BlockCipher
  sizeofT : Nat
  batchSize : Nat
  type : Nat
  iv : Nat

/-- Modelled from the spec: the constructor `PseudoRandomGenerator(seed)`: the counter is reset
and the buffer counts as used up. -/
def PseudoRandomGenerator.new (cfg : PrgConfig) (seed : Nat) : PseudoRandomGenerator :=
  ⟨seed, 0, [], cfg.batchSize⟩

/-- Modelled from the spec: `PseudoRandomGenerator::operator()`: a used-up buffer is refilled
with one batch from `FillAesRandom`, then the next buffered element is handed out. -/
def PseudoRandomGenerator.next (cfg : PrgConfig) (g : PseudoRandomGenerator) :
    List Nat × PseudoRandomGenerator :=
  if g.num_consumed_ = cfg.batchSize then
    let r := FillAesRandom cfg.aes cfg.sizeofT cfg.type g.seed_ cfg.iv g.counter_ cfg.batchSize
    (r.2.getD 0 [], ⟨g.seed_, r.1, r.2, 1⟩)
  else (g.buf_.getD g.num_consumed_ [], ⟨g.seed_, g.counter_, g.buf_, g.num_consumed_ + 1⟩)

/-- Modelled from the spec: the values of `n` successive calls of a generator. -/
def PseudoRandomGenerator.outputs (cfg : PrgConfig) :
    Nat → PseudoRandomGenerator → List (List Nat) × PseudoRandomGenerator
  | 0, g => ([], g)
  | n + 1, g =>
    let r := g.next cfg
    let rs := PseudoRandomGenerator.outputs cfg n r.2
    (r.1 :: rs.1, rs.2)

/-- Modelled from the spec: two generators called in turn, as in `DeterministicWithSameSeed`;
the result lists the pairs of values the two return at each position. -/
def prgPairs (cfg : PrgConfig) :
    Nat → PseudoRandomGenerator → PseudoRandomGenerator → List (List Nat × List Nat)
  | 0, _, _ => []
  | n + 1, g1, g2 =>
    let r1 := g1.next cfg
    let r2 := g2.next cfg
    (r1.1, r2.1) :: prgPairs cfg n r1.2 r2.2

/-- Number of cipher blocks one batch consumes. -/
def batchBlocks (cfg : PrgConfig) : Nat := (cfg.sizeofT * cfg.batchSize + 15) / 16

/-- The element at position `i` of the output sequence of a generator with the given seed, as a
function of the seed and the position alone: element `i % batchSize` of the batch filled from
the counter `(i / batchSize) * batchBlocks`. -/
def prgElement (cfg : PrgConfig) (seed i : Nat) : List Nat :=
  (FillAesRandom cfg.aes cfg.sizeofT cfg.type seed cfg.iv
    ((i / cfg.batchSize) * batchBlocks cfg) cfg.batchSize).2.getD (i % cfg.batchSize) []

/-- A toy block cipher used to exercise the theorems: byte `j` of the block for counter `c` is
`seed + 7 * c + j` (reduced to a byte when copied out). -/
def toyCipher : BlockCipher := fun _ seed _ c => (List.range 16).map (fun j => seed + 7 * c + j)

/-- Configuration of `PseudoRandomGenerator<int>` over the toy cipher with a batch of 4. -/
def toyPrgInt : PrgConfig := ⟨toyCipher, 4, 4, 0, 0⟩

/-- The buffered batch number `q` of a generator with the given seed. -/
def prgBatch (cfg : PrgConfig) (seed q : Nat) : List (List Nat) :=
  (FillAesRandom cfg.aes cfg.sizeofT cfg.type seed cfg.iv (q * batchBlocks cfg)
    cfg.batchSize).2

/-- The state of a generator that has handed out `s` elements of its batch number `q`. -/
def prgStateAt (cfg : PrgConfig) (seed q s : Nat) : PseudoRandomGenerator :=
  ⟨seed, (q + 1) * batchBlocks cfg, prgBatch cfg seed q, s⟩

/-! ## Thread count configuration (`ppu/utils/parallel_common.cc`) -/

/-- The exceptions derived from `std::exception` that can reach the handler of
`get_env_num_threads`: the two `std::stoi` throws and `EnforceNotMet`. -/
inductive StdException where
  | invalid_argument (what : String)
  | out_of_range (what : String)
  | enforceNotMet (e : EnforceNotMet)
  deriving Repr, DecidableEq

/-- The member `what()` of a caught exception. -/
def StdException.what : StdException → String
  | invalid_argument w => w
  | out_of_range w => w
  | enforceNotMet e => e.what

/-- The constructor `EnforceNotMet(file, line, condition, msg, stacks, dep)` used by
`PPU_ENFORCE`: the base keeps `msg` and the full message is built as in the short form; the
stack trace is left out. -/
def EnforceNotMet.newTraced (file : String) (line : Nat) (condition msg : String) :
    EnforceNotMet :=
  ⟨msg, "[Enforce fail at " ++ file ++ ":" ++ toString line ++ "] " ++ condition ++ ". " ++ msg⟩

/-- The macro `PPU_ENFORCE(condition, ...)` expanded at `file:line`: it throws `EnforceNotMet`
when the condition is false; `condText` is the source text of the condition and `msg` what
`internal::Format` makes of the remaining arguments. -/
def PPU_ENFORCE (file : String) (line : Nat) (condition : Bool) (condText msg : String) :
    Except EnforceNotMet Unit :=
  if !condition then Except.error (EnforceNotMet.newTraced file line condText msg)
  else Except.ok ()

/-- The value of a string literal used as a condition: the literal decays to a pointer that is
never null, so the condition is true whatever the text. -/
def stringLiteralAsCondition (_literal : String) : Bool := true

/-- The digits at the head of a character list, as a number, with the count of digits read. -/
def readDigits : List Char → Nat → Nat → Nat × Nat
  | [], acc, n => (acc, n)
  | c :: cs, acc, n =>
    if c.isDigit then readDigits cs (acc * 10 + (c.toNat - 48)) (n + 1) else (acc, n)

/-- The integer `std::stoi` parses in base 10: leading white space, an optional sign and at
least one digit; `none` when there is no digit to convert. -/
def parseDecimal (s : String) : Option Int :=
  match s.toList.dropWhile Char.isWhitespace with
  | '-' :: cs => let r := readDigits cs 0 0; if r.2 = 0 then none else some (-(r.1 : Int))
  | '+' :: cs => let r := readDigits cs 0 0; if r.2 = 0 then none else some (r.1 : Int)
  | cs => let r := readDigits cs 0 0; if r.2 = 0 then none else some (r.1 : Int)

/-- The library function `std::stoi`: it throws `std::invalid_argument` when nothing can be
converted and `std::out_of_range` when the value does not fit an `int`. -/
def stdStoi (s : String) : Except StdException Int :=
  match parseDecimal s with
  | none => Except.error (StdException.invalid_argument "stoi")
  | some v =>
    if -2 ^ 31 ≤ v ∧ v < 2 ^ 31 then Except.ok v
    else Except.error (StdException.out_of_range "stoi")

/-- The body of the `try` block of `get_env_num_threads`: `none` when the variable is unset,
the parsed thread count when it is a positive integer, and the exception thrown otherwise. -/
def get_env_num_threads_try (stoi : String → Except StdException Int)
    (getenv : String → Option String) (var_name : String) : Except StdException (Option Nat) :=
  match getenv var_name with
  | some value =>
    match stoi value with
    | Except.error e => Except.error e
    | Except.ok nthreads =>
      match PPU_ENFORCE "ppu/utils/parallel_common.cc" 14 (decide (nthreads > 0))
          "nthreads > 0" "" with
      | Except.error e => Except.error (StdException.enforceNotMet e)
      | Except.ok _ => Except.ok (some nthreads.toNat)
  | none => Except.ok none

/-- The function `get_env_num_threads(var_name, def_value)`. The handler for `std::exception`
runs `PPU_ENFORCE("Invalid ... variable value: ...", var_name, e.what())`, whose condition is
the string literal; `format` stands for `fmt::format` applied to the remaining arguments. -/
def get_env_num_threads (stoi : String → Except StdException Int)
    (format : String → List String → String) (getenv : String → Option String)
    (var_name : String) (def_value : Nat) : Except EnforceNotMet Nat :=
  match get_env_num_threads_try stoi getenv var_name with
  | Except.ok (some nthreads) => Except.ok nthreads
  | Except.ok none => Except.ok def_value
  | Except.error e =>
    match PPU_ENFORCE "ppu/utils/parallel_common.cc" 18
        (stringLiteralAsCondition "Invalid \x7b\x7d variable value: \x7b\x7d")
        "\"Invalid \x7b\x7d variable value: \x7b\x7d\"" (format var_name [e.what]) with
    | Except.error e2 => Except.error e2
    | Except.ok _ => Except.ok def_value

/-- The conversion of a `size_t` to the `int` a function returns: the value modulo `2 ^ 32`,
read as a signed number. -/
def sizeToInt (v : Nat) : Int :=
  if v % 2 ^ 32 < 2 ^ 31 then (v % 2 ^ 32 : Nat) else ((v % 2 ^ 32 : Nat) : Int) - 2 ^ 32

/-- The function `intraop_default_num_threads()`; `defaultNumThreads` stands for
`ThreadPool::DefaultNumThreads()`, whose header is not among the sources. -/
def intraop_default_num_threads (stoi : String → Except StdException Int)
    (format : String → List String → String) (getenv : String → Option String)
    (defaultNumThreads : Nat) : Except EnforceNotMet Int :=
  match get_env_num_threads stoi format getenv "OMP_NUM_THREADS" 0 with
  | Except.error e => Except.error e
  | Except.ok nthreads =>
    Except.ok (sizeToInt (if nthreads = 0 then defaultNumThreads else nthreads))

/-- An environment in which only `OMP_NUM_THREADS` is set, to `value`. -/
def envWith (value : String) : String → Option String :=
  fun name => if name = "OMP_NUM_THREADS" then some value else none

/-- An environment in which no variable is set. -/
def envEmpty : String → Option String := fun _ => none

/-- A stand-in for `fmt::format` that joins its arguments. -/
def joinFormat : String → List String → String := fun f args => f ++ String.join args

/-! ## Digital envelope (`ppu/crypto/digital_envelope.cc`) -/

/-- The cryptographic primitives the digital envelope calls, all outside this file: the
configuration of `PseudoRandomGenerator<uint8_t>`, SM2 and RSA encryption and decryption with a
PEM key, SM4 MAC-then-encrypt, and AES-128-GCM, which yields a ciphertext and a MAC. A call that
throws yields `none`. -/
structure EnvelopeCrypto where
  prg : PrgConfig
  sm2Encrypt : List Nat → List Nat → Option (List Nat)
  sm2Decrypt : List Nat → List Nat → Option (List Nat)
  sm4MteEncrypt : List Nat → List Nat → List Nat → Option (List Nat)
  sm4MteDecrypt : List Nat → List Nat → List Nat → Option (List Nat)
  rsaEncrypt : List Nat → List Nat → Option (List Nat)
  rsaDecrypt : List Nat → List Nat → Option (List Nat)
  gcmEncrypt : List Nat → List Nat → List Nat → List Nat → Option (List Nat × List Nat)
  gcmDecrypt : List Nat → List Nat → List Nat → List Nat → List Nat → Option (List Nat)

/-- The function `GenRandKey(key_size)`: `rd` is the one value drawn from
`std::random_device`, which seeds a `PseudoRandomGenerator<uint8_t>` whose first `key_size`
outputs are the key. -/
def GenRandKey (cfg : PrgConfig) (rd key_size : Nat) : List Nat :=
  ((PseudoRandomGenerator.new cfg rd).outputs cfg key_size).1.map (fun e => e.getD 0 0)

/-- Writing `bytes` into an output span of `n` bytes: the span keeps its size, bytes beyond it
are dropped and bytes that are not written stay zero. -/
def writeSpan (n : Nat) (bytes : List Nat) : List Nat :=
  (List.range n).map (fun i => bytes.getD i 0)

/-- The function `SmEnvSeal(pub_key, iv, plaintext, encrypted_key, ciphertext)`; the two output
vectors are returned as a pair. -/
def SmEnvSeal (c : EnvelopeCrypto) (rd : Nat) (pub_key iv plaintext : List Nat) :
    Option (List Nat × List Nat) :=
  let symmetric_key := GenRandKey c.prg rd 16
  match c.sm4MteEncrypt symmetric_key iv plaintext with
  | none => none
  | some ciphertext =>
    match c.sm2Encrypt pub_key symmetric_key with
    | none => none
    | some encrypted_key => some (encrypted_key, ciphertext)

/-- The function `SmEnvOpen(pri_key, iv, encrypted_key, ciphertext, plaintext)`. -/
def SmEnvOpen (c : EnvelopeCrypto) (pri_key iv encrypted_key ciphertext : List Nat) :
    Option (List Nat) :=
  match c.sm2Decrypt pri_key encrypted_key with
  | none => none
  | some symmetric_key => c.sm4MteDecrypt symmetric_key iv ciphertext

/-- The function `RsaEnvSeal(pub_key, iv, plaintext, encrypted_key, ciphertext, mac)`: the
ciphertext is resized to the plaintext's size and the MAC to 16 bytes before AES-128-GCM writes
into them; the three output vectors are returned as a triple. -/
def RsaEnvSeal (c : EnvelopeCrypto) (rd : Nat) (pub_key iv plaintext : List Nat) :
    Option (List Nat × List Nat × List Nat) :=
  let symmetric_key := GenRandKey c.prg rd 16
  match c.gcmEncrypt symmetric_key iv plaintext [] with
  | none => none
  | some out =>
    let ciphertext := writeSpan plaintext.length out.1
    let mac := writeSpan 16 out.2
    match c.rsaEncrypt pub_key symmetric_key with
    | none => none
    | some encrypted_key => some (encrypted_key, ciphertext, mac)

/-- The function `RsaEnvOpen(pri_key, iv, encrypted_key, ciphertext, mac, plaintext)`: the
plaintext is resized to the ciphertext's size before AES-128-GCM writes into it. -/
def RsaEnvOpen (c : EnvelopeCrypto) (pri_key iv encrypted_key ciphertext mac : List Nat) :
    Option (List Nat) :=
  match c.rsaDecrypt pri_key encrypted_key with
  | none => none
  | some symmetric_key =>
    match c.gcmDecrypt symmetric_key iv ciphertext [] mac with
    | none => none
    | some plain => some (writeSpan ciphertext.length plain)

/-- Configuration of `PseudoRandomGenerator<uint8_t>` over the toy cipher with a batch of 4. -/
def toyPrgUint8 : PrgConfig := ⟨toyCipher, 1, 4, 0, 0⟩

/-- Toy primitives used to exercise the theorems: every encryption reverses its input, every
decryption reverses it back, and the toy GCM appends a MAC of 16 zero bytes. -/
def toyCrypto : EnvelopeCrypto :=
  ⟨toyPrgUint8, fun _ k => some k.reverse, fun _ ek => some ek.reverse,
   fun _ _ p => some p.reverse, fun _ _ ct => some ct.reverse,
   fun _ k => some k.reverse, fun _ ek => some ek.reverse,
   fun _ _ p _ => some (p.reverse, List.replicate 16 0), fun _ _ ct _ _ => some ct.reverse⟩

/-! ## SM2 signature verification (`ppu/crypto/sm2_signing.cc`) -/

/-- The OpenSSL calls `Sm2Verifier::Verify` makes, as functions of the objects they read and
update: allocation yields `none` for a null pointer, and the three digest calls return their
`int` result, the first two together with the updated digest context. -/
structure Sm2OpenSSL (PKey PCtx MCtx : Type) where
  EVP_PKEY_CTX_new : PKey → Option PCtx
  EVP_PKEY_CTX_set1_id : PCtx → List Nat → PCtx
  EVP_MD_CTX_new : Option MCtx
  EVP_MD_CTX_set_pkey_ctx : MCtx → PCtx → MCtx
  EVP_DigestVerifyInit : MCtx → PKey → Int × MCtx
  EVP_DigestVerifyUpdate : MCtx → List Nat → Int × MCtx
  EVP_DigestVerifyFinal : MCtx → List Nat → Int
  SM2_ID_DEFAULT : List Nat

/-- The class `Sm2Verifier`, which holds the public key `pkey_`. -/
structure Sm2Verifier (PKey : Type) where
  pkey_ : PKey

/-- The member `Sm2Verifier::Verify(message, signature, id)`: each `PPU_ENFORCE` on a pointer
throws when the pointer is null and each `PPU_ENFORCE_GT(call, 0)` throws when the call does
not return a positive value; the function returns normally after the last check. -/
def Sm2Verifier.Verify {PKey PCtx MCtx : Type} (ssl : Sm2OpenSSL PKey PCtx MCtx)
    (v : Sm2Verifier PKey) (message signature id : List Nat) : Except EnforceNotMet Unit :=
  match ssl.EVP_PKEY_CTX_new v.pkey_ with
  | none => PPU_ENFORCE "ppu/crypto/sm2_signing.cc" 144 false "p_ctx != nullptr" ""
  | some p_ctx =>
    let p_ctx1 := ssl.EVP_PKEY_CTX_set1_id p_ctx id
    match ssl.EVP_MD_CTX_new with
    | none => PPU_ENFORCE "ppu/crypto/sm2_signing.cc" 148 false "m_ctx != nullptr" ""
    | some m_ctx =>
      let m_ctx1 := ssl.EVP_MD_CTX_set_pkey_ctx m_ctx p_ctx1
      let r1 := ssl.EVP_DigestVerifyInit m_ctx1 v.pkey_
      match PPU_ENFORCE_GT intComparable "ppu/crypto/sm2_signing.cc" 152
          "EVP_DigestVerifyInit(m_ctx, nullptr, EVP_sm3(), nullptr, pkey_.get())" "0"
          r1.1 0 "" with
      | Except.error e => Except.error e
      | Except.ok _ =>
        let r2 := ssl.EVP_DigestVerifyUpdate r1.2 message
        match PPU_ENFORCE_GT intComparable "ppu/crypto/sm2_signing.cc" 154
            "EVP_DigestVerifyUpdate(m_ctx, message.data(), message.size())" "0"
            r2.1 0 "" with
        | Except.error e => Except.error e
        | Except.ok _ =>
          PPU_ENFORCE_GT intComparable "ppu/crypto/sm2_signing.cc" 156
            "EVP_DigestVerifyFinal(m_ctx, signature.data(), signature.size())" "0"
            (ssl.EVP_DigestVerifyFinal r2.2 signature) 0 ""

/-- The member `Sm2Verifier::Verify(message, signature)`, which passes the default SM2 id. -/
def Sm2Verifier.VerifyDefaultId {PKey PCtx MCtx : Type} (ssl : Sm2OpenSSL PKey PCtx MCtx)
    (v : Sm2Verifier PKey) (message signature : List Nat) : Except EnforceNotMet Unit :=
  v.Verify ssl message signature ssl.SM2_ID_DEFAULT

/-- A toy OpenSSL used to exercise the theorems: contexts are byte lists, allocation succeeds,
and the final check returns `1` when the signature is the message reversed and `0` otherwise. -/
def toySsl : Sm2OpenSSL Unit (List Nat) (List Nat) :=
  ⟨fun _ => some [], fun _ id => id, some [], fun m _ => m, fun m _ => (1, m),
   fun m msg => (1, m ++ msg), fun m sig => if sig = m.reverse then 1 else 0,
   "1234567812345678".toList.map Char.toNat⟩

/-! ## Cheetah primitives (`ppu/crypto/ot/silent/primitives.h`) -/

/-- The party constant `emp::ALICE` of the external `emp` library. -/
def emp.ALICE : Int := 1

/-- The party constant `emp::BOB` of the external `emp` library. -/
def emp.BOB : Int := 2

/-- The class `CheetahPrimitives`, reduced to the party it computes and hands to its
`SilentOTPack`. -/
structure CheetahPrimitives where
  cheetah_party_ : Int
  silent_ot_party : Int
  deriving Repr, DecidableEq

/-- The constructor `CheetahPrimitives(lctx)`, given the rank `lctx->Rank()`: the party is
`ALICE` for rank 0 and `BOB` otherwise, and the silent OT pack is set up with that party. -/
def CheetahPrimitives.new (rank : Nat) : CheetahPrimitives :=
  let cheetah_party := if rank = 0 then emp.ALICE else emp.BOB
  ⟨cheetah_party, cheetah_party⟩

/-! ## Evaluation lemmas for cost expressions -/

namespace CExpr

@[simp] theorem eval_Const (lg : Nat → Nat) (k n : Nat) (v : Int) :
    (Const v).eval lg k n = v := rfl

@[simp] theorem eval_one (lg : Nat → Nat) (k n : Nat) :
    (1 : CExpr).eval lg k n = 1 := rfl

@[simp] theorem eval_two (lg : Nat → Nat) (k n : Nat) :
    (2 : CExpr).eval lg k n = 2 := rfl

@[simp] theorem eval_K (lg : Nat → Nat) (k n : Nat) : K.eval lg k n = k := rfl

@[simp] theorem eval_N (lg : Nat → Nat) (k n : Nat) : N.eval lg k n = n := rfl

@[simp] theorem eval_Log (lg : Nat → Nat) (k n : Nat) (e : CExpr) :
    (Log e).eval lg k n = lg (e.eval lg k n).toNat := rfl

@[simp] theorem eval_add (lg : Nat → Nat) (k n : Nat) (a b : CExpr) :
    (a + b).eval lg k n = a.eval lg k n + b.eval lg k n := rfl

@[simp] theorem eval_sub (lg : Nat → Nat) (k n : Nat) (a b : CExpr) :
    (a - b).eval lg k n = a.eval lg k n - b.eval lg k n := rfl

@[simp] theorem eval_mul (lg : Nat → Nat) (k n : Nat) (a b : CExpr) :
    (a * b).eval lg k n = a.eval lg k n * b.eval lg k n := rfl

end CExpr

/-! ## Facts about the rounding rules -/

theorem log2FloorAux_spec (fuel : Nat) :
    ∀ v, 0 < v → v ≤ fuel →
      2 ^ log2FloorAux fuel v ≤ v ∧ v < 2 ^ (log2FloorAux fuel v + 1) := by
  induction fuel with
  | zero => intro v h0 h; omega
  | succ f ih =>
    intro v h0 h
    unfold log2FloorAux
    by_cases h1 : v ≤ 1
    · simp only [h1, if_true]
      constructor <;> simp <;> omega
    · simp only [h1, if_false]
      have hv : 0 < v / 2 := by omega
      have hf : v / 2 ≤ f := by omega
      obtain ⟨ha, hb⟩ := ih (v / 2) hv hf
      constructor
      · rw [pow_succ]; omega
      · rw [pow_succ]; omega

theorem log2Floor_spec (v : Nat) (h : 0 < v) :
    2 ^ log2Floor v ≤ v ∧ v < 2 ^ (log2Floor v + 1) :=
  log2FloorAux_spec v v h (le_refl v)

theorem log2Ceil_spec (v : Nat) : v ≤ 2 ^ log2Ceil v := by
  unfold log2Ceil
  by_cases h1 : v ≤ 1
  · simp only [h1, if_true]; simpa using h1
  · simp only [h1, if_false]
    have := (log2Floor_spec (v - 1) (by omega)).2
    omega

theorem log2Floor_pow (e : Nat) : log2Floor (2 ^ e) = e := by
  have h := log2Floor_spec (2 ^ e) (Nat.pow_pos (by decide))
  have h1 : log2Floor (2 ^ e) ≤ e := (Nat.pow_le_pow_iff_right (by decide)).1 h.1
  have h2 : e < log2Floor (2 ^ e) + 1 := (Nat.pow_lt_pow_iff_right (by decide)).1 h.2
  omega

/-! ## Bit-level facts about shares -/

theorem mod_two_pow_eq_iff (K a b : Nat) :
    a % 2 ^ K = b % 2 ^ K ↔ ∀ j, j < K → a.testBit j = b.testBit j := by
  constructor
  · intro h j hj
    have h1 := Nat.testBit_mod_two_pow a K j
    have h2 := Nat.testBit_mod_two_pow b K j
    rw [h] at h1
    simp only [hj, decide_True, Bool.true_and] at h1 h2
    rw [← h1, ← h2]
  · intro h
    apply Nat.eq_of_testBit_eq
    intro j
    rw [Nat.testBit_mod_two_pow, Nat.testBit_mod_two_pow]
    by_cases hj : j < K
    · simp [hj, h j hj]
    · simp [hj]

theorem xorBB_length (x y : Shares) (h : x.length = y.length) :
    (xorBB x y).length = x.length := by
  simp [xorBB, h]

theorem lshiftB_length (K : Nat) (x : Shares) (s : Nat) : (lshiftB K x s).length = x.length := by
  simp [lshiftB]

theorem xorAll_xorBB : ∀ (x y : Shares), x.length = y.length →
    xorAll (xorBB x y) = xorAll x ^^^ xorAll y
  | [], [], _ => by simp [xorBB, xorAll]
  | [], _ :: _, h => by simp at h
  | _ :: _, [], h => by simp at h
  | a :: x, b :: y, h => by
    have ih := xorAll_xorBB x y (by simpa using h)
    simp only [xorBB, List.zipWith_cons_cons, xorAll] at ih ⊢
    rw [ih]
    apply Nat.eq_of_testBit_eq
    intro j
    simp only [Nat.testBit_xor]
    cases a.testBit j <;> cases b.testBit j <;> cases (xorAll x).testBit j <;>
      cases (xorAll y).testBit j <;> rfl

theorem xorAll_map_and (d : Nat) : ∀ x : Shares,
    xorAll (x.map (fun v => d &&& v)) = d &&& xorAll x
  | [] => by simp [xorAll]
  | a :: x => by
    simp only [List.map_cons, xorAll, xorAll_map_and d x]
    apply Nat.eq_of_testBit_eq
    intro j
    simp only [Nat.testBit_xor, Nat.testBit_and]
    cases d.testBit j <;> cases a.testBit j <;> cases (xorAll x).testBit j <;> rfl

theorem testBit_lshift (K v s j : Nat) :
    (lshift K v s).testBit j = (decide (j < K) && (decide (s ≤ j) && v.testBit (j - s))) := by
  simp [lshift, Nat.testBit_mod_two_pow, Nat.testBit_shiftLeft]

theorem testBit_xorAll_lshiftB (K s j : Nat) : ∀ x : Shares,
    (xorAll (lshiftB K x s)).testBit j
      = (decide (j < K) && (decide (s ≤ j) && (xorAll x).testBit (j - s)))
  | [] => by simp [lshiftB, xorAll]
  | a :: x => by
    have ih := testBit_xorAll_lshiftB K s j x
    simp only [lshiftB, List.map_cons, xorAll, Nat.testBit_xor, testBit_lshift] at ih ⊢
    rw [ih]
    cases decide (j < K) <;> cases decide (s ≤ j) <;> cases a.testBit (j - s) <;>
      cases (xorAll x).testBit (j - s) <;> rfl

theorem xorAtRank0_length (v : Nat) (z : Shares) : (xorAtRank0 v z).length = z.length := by
  cases z <;> simp [xorAtRank0]

theorem xorAll_xorAtRank0 (v : Nat) (z : Shares) (h : 0 < z.length) :
    xorAll (xorAtRank0 v z) = xorAll z ^^^ v := by
  cases z with
  | nil => simp at h
  | cons z0 zs =>
    simp only [xorAtRank0, xorAll]
    apply Nat.eq_of_testBit_eq
    intro j
    simp only [Nat.testBit_xor]
    cases z0.testBit j <;> cases v.testBit j <;> cases (xorAll zs).testBit j <;> rfl

theorem andGate_length (t : Triple) (x y : Shares) (N : Nat)
    (ha : t.a.length = N) (hb : t.b.length = N) (hc : t.c.length = N) :
    (andGate t x y).length = N := by
  simp [andGate, xorAtRank0_length, xorBB, ha, hb, hc]

theorem xorAll_andGate (t : Triple) (x y : Shares) (N : Nat) (hN : 0 < N)
    (ha : t.a.length = N) (hb : t.b.length = N) (hc : t.c.length = N)
    (hx : x.length = N) (hy : y.length = N) :
    xorAll (andGate t x y)
      = xorAll t.c ^^^ ((xorAll x ^^^ xorAll t.a) &&& xorAll t.b)
          ^^^ ((xorAll y ^^^ xorAll t.b) &&& xorAll t.a)
          ^^^ ((xorAll x ^^^ xorAll t.a) &&& (xorAll y ^^^ xorAll t.b)) := by
  have hd : xorAll (xorBB x t.a) = xorAll x ^^^ xorAll t.a := xorAll_xorBB x t.a (by omega)
  have he : xorAll (xorBB y t.b) = xorAll y ^^^ xorAll t.b := xorAll_xorBB y t.b (by omega)
  unfold andGate
  simp only []
  rw [xorAll_xorAtRank0 _ _ (by simp [xorBB, ha, hb, hc, hN]),
    xorAll_xorBB _ _ (by simp [xorBB, ha, hb, hc]), xorAll_xorBB _ _ (by simp [ha, hb]),
    xorAll_map_and, xorAll_map_and, hd, he]
  apply Nat.eq_of_testBit_eq
  intro j
  simp only [Nat.testBit_xor, Nat.testBit_and]
  cases (xorAll t.c).testBit j <;> cases (xorAll x).testBit j <;>
    cases (xorAll y).testBit j <;> cases (xorAll t.a).testBit j <;>
    cases (xorAll t.b).testBit j <;> rfl

theorem testBit_xorAll_andGate (K N : Nat) (hN : 0 < N) (t : Triple) (x y : Shares)
    (ht : t.Valid K N) (hx : x.length = N) (hy : y.length = N) (j : Nat) (hj : j < K) :
    (xorAll (andGate t x y)).testBit j = ((xorAll x).testBit j && (xorAll y).testBit j) := by
  obtain ⟨ha, hb, hc, hv⟩ := ht
  have hcj := (mod_two_pow_eq_iff K _ _).1 hv j hj
  rw [xorAll_andGate t x y N hN ha hb hc hx hy]
  simp only [Nat.testBit_xor, Nat.testBit_and] at hcj ⊢
  rw [hcj]
  cases (xorAll x).testBit j <;> cases (xorAll y).testBit j <;>
    cases (xorAll t.a).testBit j <;> cases (xorAll t.b).testBit j <;> rfl

/-! ## The carry-lookahead signals -/

theorem gen_prp_excl (a b : Nat → Bool) (lo : Nat) :
    ∀ d, (gen a b lo d && prp a b lo d) = false
  | 0 => by simp [gen]
  | d + 1 => by
    have ih := gen_prp_excl a b lo d
    simp only [gen, prp]
    revert ih
    cases a (lo + d) <;> cases b (lo + d) <;> cases gen a b lo d <;> cases prp a b lo d <;> simp

theorem prp_split (a b : Nat → Bool) (lo d1 : Nat) :
    ∀ d2, prp a b lo (d1 + d2) = (prp a b (lo + d1) d2 && prp a b lo d1)
  | 0 => by simp [prp]
  | d2 + 1 => by
    have ih := prp_split a b lo d1 d2
    rw [← Nat.add_assoc]
    simp only [prp, ih, Nat.add_assoc, Bool.and_assoc]

theorem gen_split (a b : Nat → Bool) (lo d1 : Nat) :
    ∀ d2, gen a b lo (d1 + d2)
      = (gen a b (lo + d1) d2 ^^ (prp a b (lo + d1) d2 && gen a b lo d1))
  | 0 => by simp [gen, prp]
  | d2 + 1 => by
    have ih := gen_split a b lo d1 d2
    have hx := gen_prp_excl a b (lo + d1) d2
    rw [← Nat.add_assoc]
    simp only [gen, prp, ih, Nat.add_assoc]
    revert hx
    cases a (lo + (d1 + d2)) <;> cases b (lo + (d1 + d2)) <;> cases gen a b (lo + d1) d2 <;>
      cases prp a b (lo + d1) d2 <;> cases gen a b lo d1 <;> simp

theorem carry_eq_gen (w x y : Nat) :
    ∀ i, i ≤ w →
      BitVec.carry i (BitVec.ofNat w x) (BitVec.ofNat w y) false
        = gen x.testBit y.testBit 0 i
  | 0, _ => by simp [gen]
  | i + 1, h => by
    have ih := carry_eq_gen w x y i (by omega)
    have hi : i < w := by omega
    rw [BitVec.carry_succ, ih]
    simp only [BitVec.getLsbD_ofNat, hi, decide_True, Bool.true_and, gen, Nat.zero_add,
      Bool.atLeastTwo]
    cases x.testBit i <;> cases y.testBit i <;> cases gen x.testBit y.testBit 0 i <;> rfl

theorem testBit_add_eq_gen (x y i : Nat) :
    (x + y).testBit i = (x.testBit i ^^ (y.testBit i ^^ gen x.testBit y.testBit 0 i)) := by
  have h := BitVec.getLsbD_add (Nat.lt_succ_self i) (BitVec.ofNat (i + 1) x)
    (BitVec.ofNat (i + 1) y)
  rw [carry_eq_gen (i + 1) x y i (by omega)] at h
  rw [← BitVec.testBit_toNat, BitVec.toNat_add] at h
  simp only [BitVec.toNat_ofNat, BitVec.getLsbD_ofNat, Nat.lt_succ_self, decide_True,
    Bool.true_and, ← Nat.add_mod, Nat.testBit_mod_two_pow] at h
  exact h

/-! ## The adder circuit over boolean shares -/

theorem KSInv_init (K N : Nat) (hN : 0 < N) (t : Triple) (x y : Shares)
    (ht : t.Valid K N) (hx : x.length = N) (hy : y.length = N) :
    KSInv K (xorAll x).testBit (xorAll y).testBit 1 (andGate t x y) (xorBB x y) := by
  intro j hj
  have h1 : min 1 (j + 1) = 1 := by omega
  constructor
  · rw [testBit_xorAll_andGate K N hN t x y ht hx hy j hj, h1]
    simp [gen]
  · rw [xorAll_xorBB x y (by omega)]
    simp [prp, Nat.testBit_xor]

theorem KSInv_step (K N : Nat) (hN : 0 < N) (a b : Nat → Bool) (s : Nat) (hs : 0 < s)
    (t1 t2 : Triple) (g p : Shares) (ht1 : t1.Valid K N) (ht2 : t2.Valid K N)
    (hg : g.length = N) (hp : p.length = N) (h : KSInv K a b s g p) :
    KSInv K a b (2 * s) (xorBB g (andGate t1 p (lshiftB K g s)))
      (andGate t2 p (lshiftB K p s)) := by
  intro j hj
  have hgl : (lshiftB K g s).length = N := by rw [lshiftB_length, hg]
  have hpl : (lshiftB K p s).length = N := by rw [lshiftB_length, hp]
  have hal : (andGate t1 p (lshiftB K g s)).length = N :=
    andGate_length t1 _ _ N ht1.1 ht1.2.1 ht1.2.2.1
  obtain ⟨hgj, hpj⟩ := h j hj
  rw [xorAll_xorBB _ _ (by omega), Nat.testBit_xor,
    testBit_xorAll_andGate K N hN t1 p _ ht1 hp hgl j hj,
    testBit_xorAll_andGate K N hN t2 p _ ht2 hp hpl j hj,
    testBit_xorAll_lshiftB, testBit_xorAll_lshiftB, hgj, hpj]
  simp only [hj, decide_True, Bool.true_and]
  by_cases hsj : s ≤ j
  · obtain ⟨hgs, hps⟩ := h (j - s) (by omega)
    rw [hgs, hps]
    have e1 : min s (j + 1) = s := by omega
    have e2 : decide (s ≤ j + 1) = true := by simp; omega
    have e3 : decide (s ≤ j) = true := by simp [hsj]
    have e4 : min (2 * s) (j + 1) = min s (j - s + 1) + s := by omega
    have e5 : j + 1 - s = (j + 1 - (min s (j - s + 1) + s)) + min s (j - s + 1) := by omega
    have e6 : j - s + 1 - min s (j - s + 1) = j + 1 - (min s (j - s + 1) + s) := by omega
    constructor
    · rw [e1, e2, e3, e4, gen_split, e6, ← e5]
      simp
    · simp only [e2, e3, Bool.true_and]
      by_cases h2 : 2 * s ≤ j + 1
      · have e7 : decide (s ≤ j - s + 1) = true := by simp; omega
        have e8 : decide (2 * s ≤ j + 1) = true := by simp [h2]
        have e9 : j + 1 - s = (j + 1 - 2 * s) + s := by omega
        have e10 : j - s + 1 - s = j + 1 - 2 * s := by omega
        rw [e7, e8, Nat.two_mul, prp_split, e10, ← Nat.two_mul, ← e9]
        simp
      · have e7 : decide (s ≤ j - s + 1) = false := by simp; omega
        have e8 : decide (2 * s ≤ j + 1) = false := by simp; omega
        rw [e7, e8]
        simp
  · have e1 : min s (j + 1) = j + 1 := by omega
    have e3 : decide (s ≤ j) = false := by simp; omega
    have e4 : min (2 * s) (j + 1) = j + 1 := by omega
    have e8 : decide (2 * s ≤ j + 1) = false := by simp; omega
    rw [e1, e3, e4, e8]
    simp

theorem ksLoop_correct (K N : Nat) (hN : 0 < N) (a b : Nat → Bool) :
    ∀ (l i : Nat) (bv : Beaver) (g p : Shares),
      (∀ t ∈ bv, t.Valid K N) → 2 * l ≤ bv.length → g.length = N → p.length = N →
      KSInv K a b (2 ^ i) g p →
      ∃ g1 p1, ksLoop K l i bv g p = some (g1, p1, bv.drop (2 * l)) ∧
        g1.length = N ∧ KSInv K a b (2 ^ (i + l)) g1 p1
  | 0, i, bv, g, p, _, _, hg, _, h => ⟨g, p, by simp [ksLoop], hg, by simpa using h⟩
  | l + 1, i, bv, g, p, hbv, hlen, hg, hp, h => by
    match bv, hbv, hlen with
    | [], _, hlen => simp at hlen
    | [_], _, hlen => simp at hlen; omega
    | t1 :: t2 :: rest, hbv, hlen =>
      have ht1 : t1.Valid K N := hbv t1 (by simp)
      have ht2 : t2.Valid K N := hbv t2 (by simp)
      have hstep := KSInv_step K N hN a b (2 ^ i) (Nat.pow_pos (by decide)) t1 t2 g p ht1 ht2
        hg hp h
      have hgl : (xorBB g (andGate t1 p (lshiftB K g (2 ^ i)))).length = N := by
        rw [xorBB_length _ _ (by
          rw [andGate_length t1 _ _ N ht1.1 ht1.2.1 ht1.2.2.1, hg]), hg]
      have hpl : (andGate t2 p (lshiftB K p (2 ^ i))).length = N :=
        andGate_length t2 _ _ N ht2.1 ht2.2.1 ht2.2.2.1
      rw [← pow_succ'] at hstep
      obtain ⟨g1, p1, hrun, hg1, hinv⟩ := ksLoop_correct K N hN a b l (i + 1) rest _ _
        (fun t ht => hbv t (by simp [ht])) (by simp at hlen; omega) hgl hpl hstep
      refine ⟨g1, p1, ?_, hg1, ?_⟩
      · simp only [ksLoop, andBB, hrun]
        have e : 2 * (l + 1) = 2 * l + 1 + 1 := by ring
        rw [e]
        simp
      · have e : i + (l + 1) = i + 1 + l := by ring
        rw [e]
        exact hinv

theorem AddBB_proc_spec (K N : Nat) (hN : 0 < N) (bv : Beaver) (x y : Shares)
    (hx : x.length = N) (hy : y.length = N)
    (hbv : ∀ t ∈ bv, t.Valid K N) (hlen : 2 * log2Ceil K + 1 ≤ bv.length) :
    ∃ out, AddBB.proc K bv x y = some (out, bv.drop (2 * log2Ceil K + 1)) ∧ out.length = N ∧
      reconstructB K out = (reconstructB K x + reconstructB K y) % 2 ^ K := by
  match bv, hbv, hlen with
  | [], _, hlen => simp at hlen
  | t :: rest, hbv, hlen =>
    have ht : t.Valid K N := hbv t (by simp)
    have hinit := KSInv_init K N hN t x y ht hx hy
    have hxy : (xorBB x y).length = N := by rw [xorBB_length _ _ (by omega), hx]
    obtain ⟨g, p, hrun, hg, hinv⟩ := ksLoop_correct K N hN _ _ (log2Ceil K) 0 rest
      (andGate t x y) (xorBB x y) (fun t ht => hbv t (by simp [ht])) (by simp at hlen; omega)
      (andGate_length t x y N ht.1 ht.2.1 ht.2.2.1) hxy (by simpa using hinit)
    refine ⟨xorBB (xorBB x y) (lshiftB K g 1), ?_, ?_, ?_⟩
    · simp [AddBB.proc, andBB, hrun]
    · rw [xorBB_length _ _ (by rw [lshiftB_length, hxy, hg]), hxy]
    · unfold reconstructB
      rw [← Nat.add_mod, mod_two_pow_eq_iff]
      intro j hj
      have hK := log2Ceil_spec K
      rw [xorAll_xorBB _ _ (by rw [lshiftB_length, hxy, hg]), xorAll_xorBB x y (by omega),
        Nat.testBit_xor, Nat.testBit_xor, testBit_xorAll_lshiftB, testBit_add_eq_gen]
      simp only [hj, decide_True, Bool.true_and, Nat.zero_add] at hinv ⊢
      cases j with
      | zero => simp [gen]
      | succ j =>
        have hgj := (hinv j (by omega)).1
        have e1 : min (2 ^ log2Ceil K) (j + 1) = j + 1 := by omega
        rw [e1] at hgj
        simp only [Nat.sub_self] at hgj
        simp [hgj]

/-! ## Arithmetic to boolean -/

theorem xorAll_replicate_zero (n : Nat) : xorAll (List.replicate n 0) = 0 := by
  induction n with
  | zero => rfl
  | succ n ih => simp [List.replicate_succ, xorAll, ih]

theorem xorAll_append (x y : Shares) : xorAll (x ++ y) = xorAll x ^^^ xorAll y := by
  induction x with
  | nil => simp [xorAll]
  | cons a x ih => simp [xorAll, ih, Nat.xor_assoc]

theorem reshare_length (x : Shares) : ∀ before, (reshare before x).length = x.length := by
  induction x with
  | nil => intro before; rfl
  | cons v vs ih => intro before; simp [reshare, ih]

theorem reshare_mem_length (x : Shares) :
    ∀ before, ∀ s ∈ reshare before x, s.length = before + x.length := by
  induction x with
  | nil => intro before s hs; simp [reshare] at hs
  | cons v vs ih =>
    intro before s hs
    simp only [reshare, List.mem_cons] at hs
    rcases hs with rfl | hs
    · simp
    · rw [ih (before + 1) s hs]; simp; omega

theorem sumB_reshare (K : Nat) (x : Shares) :
    ∀ before, sumB K (reshare before x) % 2 ^ K = x.sum % 2 ^ K := by
  induction x with
  | nil => intro before; rfl
  | cons v vs ih =>
    intro before
    have h := ih (before + 1)
    simp only [sumB, reshare, List.map_cons, List.sum_cons, reconstructB, xorAll_append, xorAll,
      xorAll_replicate_zero, Nat.xor_zero, Nat.zero_xor] at h ⊢
    rw [Nat.add_mod, h, ← Nat.add_mod, Nat.add_mod, Nat.mod_mod, ← Nat.add_mod]

theorem reduceLevel_spec (K N : Nat) (hN : 0 < N) :
    ∀ (n : Nat) (xs : List Shares) (bv : Beaver), xs.length ≤ n →
      (∀ s ∈ xs, s.length = N) → (∀ t ∈ bv, t.Valid K N) →
      (xs.length / 2) * andGates K ≤ bv.length →
      ∃ ys, reduceLevel K bv xs = some (ys, bv.drop ((xs.length / 2) * andGates K)) ∧
        ys.length = xs.length - xs.length / 2 ∧ (∀ s ∈ ys, s.length = N) ∧
        sumB K ys % 2 ^ K = sumB K xs % 2 ^ K := by
  intro n
  induction n with
  | zero =>
    intro xs bv hn _ _ _
    have : xs = [] := List.length_eq_zero.1 (by omega)
    subst this
    exact ⟨[], by simp [reduceLevel], by simp, by simp, rfl⟩
  | succ n ih =>
    intro xs bv hn hxs hbv hlen
    match xs, hn, hxs, hlen with
    | [], _, _, _ => exact ⟨[], by simp [reduceLevel], by simp, by simp, rfl⟩
    | [u], _, hxs, _ => exact ⟨[u], by simp [reduceLevel], by simp, hxs, rfl⟩
    | u :: v :: rest, hn, hxs, hlen =>
      have hl2 : (u :: v :: rest).length / 2 = rest.length / 2 + 1 := by
        simp only [List.length_cons]; omega
      rw [hl2] at hlen ⊢
      rw [Nat.add_mul, Nat.one_mul] at hlen
      obtain ⟨s, hrun, hsl, hrec⟩ := AddBB_proc_spec K N hN bv u v (hxs u (by simp))
        (hxs v (by simp)) hbv (by unfold andGates at hlen; omega)
      have hbv1 : ∀ t ∈ bv.drop (andGates K), t.Valid K N :=
        fun t ht => hbv t (List.mem_of_mem_drop ht)
      obtain ⟨ss, hrun2, hssl, hssN, hsum⟩ := ih rest (bv.drop (andGates K))
        (by simp only [List.length_cons] at hn; omega)
        (fun s hs => hxs s (by simp [hs])) hbv1 (by rw [List.length_drop]; omega)
      refine ⟨s :: ss, ?_, ?_, ?_, ?_⟩
      · have hrun1 : AddBB.proc K bv u v = some (s, bv.drop (andGates K)) := hrun
        simp only [reduceLevel, hrun1, hrun2, List.drop_drop]
        rw [Nat.add_mul, Nat.one_mul, Nat.add_comm]
      · simp only [List.length_cons, hssl]; omega
      · intro w hw
        rcases List.mem_cons.1 hw with rfl | hw
        · exact hsl
        · exact hssN w hw
      · simp only [sumB, List.map_cons, List.sum_cons] at hsum ⊢
        rw [Nat.add_mod, hsum, hrec, Nat.mod_mod, ← Nat.add_mod, ← Nat.add_assoc]

theorem treeReduce_spec (K N : Nat) (hN : 0 < N) :
    ∀ (f : Nat) (xs : List Shares) (bv : Beaver), xs.length ≤ 2 ^ f → 0 < xs.length →
      (∀ s ∈ xs, s.length = N) → (∀ t ∈ bv, t.Valid K N) →
      (xs.length - 1) * andGates K ≤ bv.length →
      ∃ out, treeReduce K f bv xs = some ([out], bv.drop ((xs.length - 1) * andGates K)) ∧
        out.length = N ∧ reconstructB K out = sumB K xs % 2 ^ K := by
  intro f
  induction f with
  | zero =>
    intro xs bv h1 h0 hxs _ _
    match xs, h1, h0, hxs with
    | [], _, h0, _ => simp at h0
    | [u], _, _, hxs =>
      refine ⟨u, by simp [treeReduce], hxs u (by simp), ?_⟩
      simp [sumB, reconstructB]
    | _ :: _ :: _, h1, _, _ => simp at h1
  | succ f ih =>
    intro xs bv h1 h0 hxs hbv hlen
    have hsplit : xs.length / 2 + (xs.length - xs.length / 2 - 1) = xs.length - 1 := by omega
    have hmul : xs.length / 2 * andGates K + (xs.length - xs.length / 2 - 1) * andGates K
        = (xs.length - 1) * andGates K := by rw [← Nat.add_mul, hsplit]
    obtain ⟨ys, hrun, hyl, hys, hsum⟩ := reduceLevel_spec K N hN xs.length xs bv (le_refl _)
      hxs hbv (by omega)
    have hbv1 : ∀ t ∈ bv.drop (xs.length / 2 * andGates K), t.Valid K N :=
      fun t ht => hbv t (List.mem_of_mem_drop ht)
    have hpow : 2 ^ (f + 1) = 2 * 2 ^ f := by rw [pow_succ]; ring
    obtain ⟨out, hrun2, hol, hrec⟩ := ih ys (bv.drop (xs.length / 2 * andGates K))
      (by omega) (by omega) hys hbv1 (by rw [List.length_drop, hyl]; omega)
    refine ⟨out, ?_, hol, ?_⟩
    · simp only [treeReduce, hrun, hrun2, List.drop_drop, hyl]
      rw [← hmul, Nat.add_comm]
    · rw [hrec, hsum]

theorem A2B_proc_spec (K N : Nat) (hN : 0 < N) (bv : Beaver) (x : Shares)
    (hx : x.length = N) (hbv : ∀ t ∈ bv, t.Valid K N)
    (hlen : (N - 1) * andGates K ≤ bv.length) :
    ∃ out, A2B.proc K bv x = some (out, bv.drop ((N - 1) * andGates K)) ∧ out.length = N ∧
      reconstructB K out = reconstructA K x := by
  obtain ⟨out, hrun, hol, hrec⟩ := treeReduce_spec K N hN (log2Ceil x.length) (reshare 0 x) bv
    (by rw [reshare_length]; exact log2Ceil_spec _) (by rw [reshare_length]; omega)
    (fun s hs => by rw [reshare_mem_length x 0 s hs]; omega) hbv
    (by rw [reshare_length, hx]; exact hlen)
  refine ⟨out, ?_, hol, ?_⟩
  · rw [reshare_length, hx] at hrun
    rw [← hx] at hrun
    simp only [A2B.proc, hrun]
    rw [hx]
  · rw [hrec, sumB_reshare]; rfl

/-! ## Boolean to arithmetic -/

theorem testBit_zero_add (u v : Nat) : (u + v).testBit 0 = (u.testBit 0 ^^ v.testBit 0) := by
  rw [testBit_add_eq_gen]
  simp [gen]

theorem testBit_xorAll_lsb (j i : Nat) : ∀ r : Shares,
    (xorAll (r.map (fun v => (v % 2) <<< j))).testBit i = (decide (i = j) && r.sum.testBit 0)
  | [] => by simp [xorAll]
  | a :: r => by
    have ih := testBit_xorAll_lsb j i r
    have h2 : (a % 2).testBit (i - j) = (decide (i - j < 1) && a.testBit (i - j)) := by
      have := Nat.testBit_mod_two_pow a 1 (i - j)
      simpa using this
    simp only [List.map_cons, xorAll, Nat.testBit_xor, ih, List.sum_cons, testBit_zero_add,
      Nat.testBit_shiftLeft, h2]
    by_cases hij : i = j
    · subst hij
      simp
    · by_cases hge : j ≤ i
      · have : ¬ (i - j < 1) := by omega
        simp [hij, this]
      · simp [hij, hge]

theorem maskShares_length (N : Nat) : ∀ (rs : RandBits) (j : Nat),
    (∀ s ∈ rs, s.length = N) → (maskShares N j rs).length = N
  | [], _, _ => by simp [maskShares]
  | r :: rs, j, h => by
    have ih := maskShares_length N rs (j + 1) (fun s hs => h s (by simp [hs]))
    simp [maskShares, xorBB, ih, h r (by simp)]

theorem testBit_xorAll_maskShares_low (N : Nat) : ∀ (rs : RandBits) (j i : Nat),
    (∀ s ∈ rs, s.length = N) → i < j → (xorAll (maskShares N j rs)).testBit i = false
  | [], _, _, _, _ => by simp [maskShares, xorAll_replicate_zero]
  | r :: rs, j, i, h, hij => by
    have hl := maskShares_length N rs (j + 1) (fun s hs => h s (by simp [hs]))
    have ih := testBit_xorAll_maskShares_low N rs (j + 1) i (fun s hs => h s (by simp [hs]))
      (by omega)
    have hne : ¬ (i = j) := by omega
    simp only [maskShares]
    rw [xorAll_xorBB _ _ (by simp [hl, h r (by simp)]), Nat.testBit_xor, testBit_xorAll_lsb, ih]
    simp [hne]

theorem sum_addAA (K : Nat) : ∀ (x y : Shares), x.length = y.length →
    (((addAA K x y).sum : Nat) : ZMod (2 ^ K)) = ((x.sum : Nat) : ZMod (2 ^ K)) + (y.sum : Nat)
  | [], [], _ => by simp [addAA]
  | [], _ :: _, h => by simp at h
  | _ :: _, [], h => by simp at h
  | a :: x, b :: y, h => by
    have ih := sum_addAA K x y (by simpa using h)
    simp only [addAA, List.zipWith_cons_cons, List.sum_cons, Nat.cast_add] at ih ⊢
    rw [ih, ZMod.natCast_mod]
    push_cast
    ring

theorem addAA_length (K : Nat) (x y : Shares) (h : x.length = y.length) :
    (addAA K x y).length = x.length := by
  simp [addAA, h]

theorem sum_negA (K : Nat) : ∀ x : Shares,
    (((negA K x).sum : Nat) : ZMod (2 ^ K)) = - ((x.sum : Nat) : ZMod (2 ^ K))
  | [] => by simp [negA]
  | a :: x => by
    have ih := sum_negA K x
    have hlt : a % 2 ^ K ≤ 2 ^ K := le_of_lt (Nat.mod_lt _ (Nat.pow_pos (by decide)))
    simp only [negA, List.map_cons, List.sum_cons, Nat.cast_add] at ih ⊢
    rw [ih, ZMod.natCast_mod, Nat.cast_sub hlt, ZMod.natCast_self, ZMod.natCast_mod]
    ring

theorem negA_length (K : Nat) (x : Shares) : (negA K x).length = x.length := by
  simp [negA]

theorem sum_addAtRank0 (K v : Nat) (z : Shares) (h : 0 < z.length) :
    (((addAtRank0 K v z).sum : Nat) : ZMod (2 ^ K)) = ((z.sum : Nat) : ZMod (2 ^ K)) + v := by
  cases z with
  | nil => simp at h
  | cons z0 zs =>
    simp only [addAtRank0, List.sum_cons, Nat.cast_add, ZMod.natCast_mod]
    ring

theorem addAtRank0_length (K v : Nat) (z : Shares) : (addAtRank0 K v z).length = z.length := by
  cases z <;> simp [addAtRank0]

theorem bitShare_length (K : Nat) (c : Bool) (r : Shares) :
    (bitShare K c r).length = r.length := by
  cases c <;> simp [bitShare, addAtRank0_length, negA_length]

theorem sum_bitShare (K : Nat) (hK : 0 < K) (c : Bool) (r : Shares) (hr : 0 < r.length)
    (hbit : reconstructA K r ≤ 1) :
    (((bitShare K c r).sum : Nat) : ZMod (2 ^ K)) = (((c ^^ r.sum.testBit 0).toNat : Nat)) := by
  have h2 : r.sum % 2 ^ K % 2 = r.sum % 2 :=
    Nat.mod_mod_of_dvd _ (dvd_pow_self 2 (by omega))
  have hs : ((r.sum : Nat) : ZMod (2 ^ K)) = (((r.sum.testBit 0).toNat : Nat)) := by
    rw [← ZMod.natCast_mod r.sum (2 ^ K), Nat.toNat_testBit]
    unfold reconstructA at hbit
    congr 1
    simp only [pow_zero, Nat.div_one]
    omega
  cases c with
  | false => simpa [bitShare] using hs
  | true =>
    simp only [bitShare, if_true, Bool.true_xor]
    rw [sum_addAtRank0 K 1 _ (by rw [negA_length]; exact hr), sum_negA, hs]
    cases r.sum.testBit 0 <;> simp

theorem unmaskBits_spec (K N : Nat) (hK : 0 < K) (hN : 0 < N) (c X : Nat) :
    ∀ (rs : RandBits) (j : Nat), (∀ s ∈ rs, s.length = N ∧ reconstructA K s ≤ 1) →
      (∀ i, j ≤ i → i < j + rs.length →
        c.testBit i = (X.testBit i ^^ (xorAll (maskShares N j rs)).testBit i)) →
      (unmaskBits K N c j rs).length = N ∧
      ((X % 2 ^ j : Nat) : ZMod (2 ^ K)) + (((unmaskBits K N c j rs).sum : Nat) : ZMod (2 ^ K))
        = ((X % 2 ^ (j + rs.length) : Nat) : ZMod (2 ^ K))
  | [], j, _, _ => by simp [unmaskBits]
  | r :: rs, j, hrs, hc => by
    have hr := hrs r (by simp)
    have hrs1 : ∀ s ∈ rs, s.length = N ∧ reconstructA K s ≤ 1 :=
      fun s hs => hrs s (by simp [hs])
    have hml := maskShares_length N rs (j + 1) (fun s hs => (hrs1 s hs).1)
    have hc1 : ∀ i, j + 1 ≤ i → i < j + 1 + rs.length →
        c.testBit i = (X.testBit i ^^ (xorAll (maskShares N (j + 1) rs)).testBit i) := by
      intro i h1 h2
      have h := hc i (by omega) (by simp only [List.length_cons]; omega)
      have hne : ¬ (i = j) := by omega
      simp only [maskShares] at h
      rw [xorAll_xorBB _ _ (by simp [hml, hr.1]), Nat.testBit_xor, testBit_xorAll_lsb] at h
      simpa [hne] using h
    obtain ⟨hl, hsum⟩ := unmaskBits_spec K N hK hN c X rs (j + 1) hrs1 hc1
    have hcj : c.testBit j = (X.testBit j ^^ r.sum.testBit 0) := by
      have h := hc j (le_refl j) (by simp only [List.length_cons]; omega)
      simp only [maskShares] at h
      rw [xorAll_xorBB _ _ (by simp [hml, hr.1]), Nat.testBit_xor, testBit_xorAll_lsb,
        testBit_xorAll_maskShares_low N rs (j + 1) j (fun s hs => (hrs1 s hs).1) (by omega)] at h
      simpa using h
    have hbl : ((bitShare K (c.testBit j) r).map (fun v => 2 ^ j * v)).length
        = (unmaskBits K N c (j + 1) rs).length := by
      rw [List.length_map, bitShare_length, hr.1, hl]
    constructor
    · simp only [unmaskBits]
      rw [addAA_length K _ _ hbl, List.length_map, bitShare_length, hr.1]
    · have hX : X % 2 ^ (j + 1) = X % 2 ^ j + 2 ^ j * (X.testBit j).toNat := by
        rw [Nat.toNat_testBit, Nat.mod_pow_succ]
      have hbs := sum_bitShare K hK (c.testBit j) r (by omega) hr.2
      have hxx : (c.testBit j ^^ r.sum.testBit 0) = X.testBit j := by
        rw [hcj]; cases X.testBit j <;> cases r.sum.testBit 0 <;> rfl
      rw [hxx] at hbs
      have e : j + (r :: rs).length = j + 1 + rs.length := by
        simp only [List.length_cons]; omega
      rw [e, ← hsum, hX]
      simp only [unmaskBits]
      rw [sum_addAA K _ _ hbl, List.sum_map_mul_left]
      simp only [List.map_id', Nat.cast_add, Nat.cast_mul, hbs]
      push_cast
      ring

theorem unmask_reconstruct (K N : Nat) (hN : 0 < N) (c : Nat) (x : Shares) (r : RandBits)
    (hr : RandBits.Valid K N r)
    (hc : c % 2 ^ K = xorAll (xorBB x (maskShares N 0 r)) % 2 ^ K) (hx : x.length = N) :
    (unmaskBits K N c 0 r).length = N ∧
      reconstructA K (unmaskBits K N c 0 r) = reconstructB K x := by
  obtain ⟨hrl, hrs⟩ := hr
  by_cases hK : K = 0
  · subst hK
    have hr0 : r = [] := List.length_eq_zero.1 hrl
    subst hr0
    simp [unmaskBits, reconstructA, reconstructB, Nat.mod_one]
  · have hK0 : 0 < K := Nat.pos_of_ne_zero hK
    have hml := maskShares_length N r 0 (fun s hs => (hrs s hs).1)
    have hbits : ∀ i, 0 ≤ i → i < 0 + r.length →
        c.testBit i = ((xorAll x).testBit i ^^ (xorAll (maskShares N 0 r)).testBit i) := by
      intro i _ hi
      have h := (mod_two_pow_eq_iff K _ _).1 hc i (by omega)
      rw [h, xorAll_xorBB _ _ (by omega), Nat.testBit_xor]
    obtain ⟨hl, hsum⟩ := unmaskBits_spec K N hK0 hN c (xorAll x) r 0 hrs hbits
    refine ⟨hl, ?_⟩
    simp only [pow_zero, Nat.mod_one, Nat.cast_zero, zero_add, hrl] at hsum
    unfold reconstructA reconstructB
    have h := (ZMod.natCast_eq_natCast_iff' _ _ (2 ^ K)).1 hsum
    rw [h, Nat.mod_mod]

theorem B2A_proc_spec (K N : Nat) (hN : 0 < N) (m : B2AMaterial) (x : Shares)
    (hx : x.length = N) (hm : m.Valid K N x) :
    (B2A.proc K m x).length = N ∧ reconstructA K (B2A.proc K m x) = reconstructB K x := by
  unfold B2A.proc
  rw [hx]
  exact unmask_reconstruct K N hN m.opened x m.randbits hm.1 hm.2 hx

theorem B2A_Randbit_proc_spec (K N : Nat) (hN : 0 < N) (r : RandBits) (x : Shares)
    (hx : x.length = N) (hr : RandBits.Valid K N r) :
    (B2A_Randbit.proc K r x).length = N ∧
      reconstructA K (B2A_Randbit.proc K r x) = reconstructB K x := by
  unfold B2A_Randbit.proc
  rw [hx]
  exact unmask_reconstruct K N hN _ x r hr (Nat.mod_mod _ _) hx

/-! ## Cost-model theorems -/

/-- C1: for every bit-width `K`, party count `N` and rounding rule `lg` of the integer `log2`,
`A2B.latency()` evaluates to `(lg K + 1) * lg N`; in particular, under any rule with
`lg 64 = 6`, its value at `K = 64`, `N = 3` is `(lg 64 + 1) * lg 3 = 7 * lg 3` for that same
rule. -/
theorem A2B_latency_eval :
    (∀ (lg : Nat → Nat) (k n : Nat),
        A2B.latency.eval lg k n = ((lg k : Int) + 1) * (lg n : Int)) ∧
    (∀ lg : Nat → Nat, lg 64 = 6 →
        A2B.latency.eval lg 64 3 = ((lg 64 : Int) + 1) * (lg 3 : Int) ∧
        A2B.latency.eval lg 64 3 = 7 * (lg 3 : Int)) := by
  refine ⟨fun lg k n => ?_, fun lg h => ⟨?_, ?_⟩⟩
  · simp [A2B.latency]
  · simp [A2B.latency]
  · simp [A2B.latency, h]

/-- Witness for C1: the floor rule and the ceiling rule both have `log2(64) = 6`, so the value
at `K = 64`, `N = 3` is `7 * log2(3)`, that is `7` when `log2` floors and `14` when it ceils. -/
theorem A2B_latency_eval_witness :
    (log2Floor 64 = 6 ∧ A2B.latency.eval log2Floor 64 3 = 7 * (log2Floor 3 : Int)) ∧
    (log2Ceil 64 = 6 ∧ A2B.latency.eval log2Ceil 64 3 = 7 * (log2Ceil 3 : Int)) ∧
    A2B.latency.eval log2Floor 64 3 = 7 ∧ A2B.latency.eval log2Ceil 64 3 = 14 :=
  ⟨⟨by decide, (A2B_latency_eval.2 log2Floor (by decide)).2⟩,
    ⟨by decide, (A2B_latency_eval.2 log2Ceil (by decide)).2⟩, by decide, by decide⟩

/-- C2: for every `K`, `N` and rounding rule, `A2B.comm()` (the left-to-right C++ product)
evaluates to the spec formula `(2*log2(K)+1) * 2*K*(N-1) * (N-1)`, read either left to right
or with `2*K*(N-1)` grouped as the cost of one AND gate; subtraction is integer subtraction. -/
theorem A2B_comm_eval (lg : Nat → Nat) (k n : Nat) :
    A2B.comm.eval lg k n
        = ((((2 * (lg k : Int) + 1) * 2) * (k : Int)) * ((n : Int) - 1)) * ((n : Int) - 1) ∧
    A2B.comm.eval lg k n
        = (2 * (lg k : Int) + 1) * (2 * (k : Int) * ((n : Int) - 1)) * ((n : Int) - 1) := by
  constructor
  · simp [A2B.comm]
  · simp only [A2B.comm, CExpr.eval_mul, CExpr.eval_add, CExpr.eval_sub, CExpr.eval_two,
      CExpr.eval_one, CExpr.eval_Log, CExpr.eval_K, CExpr.eval_N, Int.toNat_ofNat]
    ring

/-- C3: the `B2A` kernel costs nothing: `latency()` and `comm()` evaluate to `0` for every
`K`, `N` and rounding rule, both expressions being the constant `0`. -/
theorem B2A_cost_zero (lg : Nat → Nat) (k n : Nat) :
    B2A.latency.eval lg k n = 0 ∧ B2A.comm.eval lg k n = 0 ∧
    B2A.latency = CExpr.Const 0 ∧ B2A.comm = CExpr.Const 0 :=
  ⟨rfl, rfl, rfl, rfl⟩

/-- C4: `B2A_Randbit.latency()` evaluates to `1` and `B2A_Randbit.comm()` to `K * (N - 1)`
for every `K`, `N` and rounding rule. -/
theorem B2A_Randbit_cost (lg : Nat → Nat) (k n : Nat) :
    B2A_Randbit.latency.eval lg k n = 1 ∧
    B2A_Randbit.comm.eval lg k n = (k : Int) * ((n : Int) - 1) := by
  constructor
  · rfl
  · simp [B2A_Randbit.comm]

/-- C5: `AddBB.latency()` evaluates to `log2(K) + 1` and `AddBB.comm()` to `log2(K) * K`
for every `K`, `N` and rounding rule, and neither value changes with `N`. -/
theorem AddBB_cost (lg : Nat → Nat) (k n : Nat) :
    AddBB.latency.eval lg k n = (lg k : Int) + 1 ∧
    AddBB.comm.eval lg k n = (lg k : Int) * (k : Int) ∧
    (∀ m : Nat, AddBB.latency.eval lg k m = AddBB.latency.eval lg k n) ∧
    (∀ m : Nat, AddBB.comm.eval lg k m = AddBB.comm.eval lg k n) := by
  refine ⟨?_, ?_, fun m => ?_, fun m => ?_⟩ <;> simp [AddBB.latency, AddBB.comm]

/-- C6: at `K = 4` and any `N`, `AddBB.latency()` evaluates to exactly `3` under the floor rule
and under the ceiling rule, both of which give `log2(4) = 2`. -/
theorem AddBB_latency_K4 (n : Nat) :
    AddBB.latency.eval log2Floor 4 n = 3 ∧ AddBB.latency.eval log2Ceil 4 n = 3 ∧
    log2Floor 4 = 2 ∧ log2Ceil 4 = 2 := by
  have hf : log2Floor 4 = 2 := by decide
  have hc : log2Ceil 4 = 2 := by decide
  refine ⟨?_, ?_, hf, hc⟩ <;> simp [AddBB.latency, hf, hc]

/-- C7 fails as stated: the four kernel names are not pairwise distinct, because
`B2A_Randbit::kName` is the same string as `B2A::kName`. -/
theorem kernelNames_not_pairwise_distinct :
    B2A.kName = B2A_Randbit.kName ∧ ¬ kernelNames.Nodup := by
  constructor
  · rfl
  · decide

/-- C7 amended: the names of `AddBB`, `A2B` and `B2A` are pairwise distinct, and
`B2A_Randbit` carries the name of `B2A` (it is registered in the place of `B2A`), which differs
from the names of `AddBB` and `A2B`. -/
theorem kernelNames_distinct_up_to_B2A :
    [AddBB.kName, A2B.kName, B2A.kName].Nodup ∧
    B2A_Randbit.kName = B2A.kName ∧
    B2A_Randbit.kName ≠ AddBB.kName ∧ B2A_Randbit.kName ≠ A2B.kName := by
  refine ⟨by decide, rfl, by decide, by decide⟩

/-! ## Kernel correctness theorems -/

/-- C8: for every bit-width `K`, every pair of values `vx`, `vy` and every boolean sharing of
them among `N` parties, `AddBB.proc` run with a Beaver source holding enough valid triples
returns output shares that reconstruct by XOR to `(vx + vy) mod 2^K`. -/
theorem AddBB_proc_reconstructs (K N : Nat) (hN : 0 < N) (bv : Beaver) (x y : Shares)
    (vx vy : Nat) (hx : x.length = N) (hy : y.length = N)
    (hvx : reconstructB K x = vx) (hvy : reconstructB K y = vy)
    (hbv : ∀ t ∈ bv, t.Valid K N) (hlen : andGates K ≤ bv.length) :
    ∃ out rest, AddBB.proc K bv x y = some (out, rest) ∧ out.length = N ∧
      reconstructB K out = (vx + vy) % 2 ^ K := by
  obtain ⟨out, hrun, hol, hrec⟩ := AddBB_proc_spec K N hN bv x y hx hy hbv hlen
  exact ⟨out, _, hrun, hol, by rw [hrec, hvx, hvy]⟩

/-- Witness for C8: two parties hold the 4-bit boolean shares `[5, 3]` of `6` and `[1, 2]` of
`3`; `AddBB.proc` returns shares that reconstruct to `9`. -/
theorem AddBB_proc_reconstructs_witness :
    (reconstructB 4 [5, 3] = 6 ∧ reconstructB 4 [1, 2] = 3 ∧ (6 + 3) % 2 ^ 4 = 9) ∧
    ∃ out rest, AddBB.proc 4 beaver4 [5, 3] [1, 2] = some (out, rest) ∧ out.length = 2 ∧
      reconstructB 4 out = (6 + 3) % 2 ^ 4 :=
  ⟨by decide, AddBB_proc_reconstructs 4 2 (by decide) beaver4 [5, 3] [1, 2] 6 3 rfl rfl
    (by decide) (by decide) (by decide) (by decide)⟩

/-- C9: every conversion preserves the reconstructed plaintext. For every `K`, every `N ≥ 1`
(so every `N ≥ 2`) and every sharing `x` among `N` parties: the XOR of the `A2B.proc` outputs is
the sum of the inputs mod `2^K` whenever the Beaver source holds enough valid triples, and the
sum mod `2^K` of the `B2A.proc` outputs and of the `B2A_Randbit.proc` outputs is the XOR of the
inputs whenever the conversion material, respectively the random bits, are well formed. -/
theorem conversions_preserve_plaintext (K N : Nat) (hN : 0 < N) (x : Shares)
    (hx : x.length = N) :
    (∀ bv : Beaver, (∀ t ∈ bv, t.Valid K N) → (N - 1) * andGates K ≤ bv.length →
      ∃ out rest, A2B.proc K bv x = some (out, rest) ∧ out.length = N ∧
        reconstructB K out = reconstructA K x) ∧
    (∀ m : B2AMaterial, m.Valid K N x →
      reconstructA K (B2A.proc K m x) = reconstructB K x) ∧
    (∀ r : RandBits, RandBits.Valid K N r →
      reconstructA K (B2A_Randbit.proc K r x) = reconstructB K x) := by
  refine ⟨fun bv hbv hlen => ?_, fun m hm => ?_, fun r hr => ?_⟩
  · obtain ⟨out, hrun, hol, hrec⟩ := A2B_proc_spec K N hN bv x hx hbv hlen
    exact ⟨out, _, hrun, hol, hrec⟩
  · exact (B2A_proc_spec K N hN m x hx hm).2
  · exact (B2A_Randbit_proc_spec K N hN r x hx hr).2

/-- Witness for C9: two parties, 4-bit ring, shares `[13, 12]`, which are an additive sharing
of `9` and a boolean sharing of `1`. -/
theorem conversions_preserve_plaintext_witness :
    (reconstructA 4 [13, 12] = 9 ∧ reconstructB 4 [13, 12] = 1) ∧
    (∃ out rest, A2B.proc 4 beaver4 [13, 12] = some (out, rest) ∧ out.length = 2 ∧
      reconstructB 4 out = reconstructA 4 [13, 12]) ∧
    reconstructA 4 (B2A.proc 4 ⟨randbits4, 10⟩ [13, 12]) = reconstructB 4 [13, 12] ∧
    reconstructA 4 (B2A_Randbit.proc 4 randbits4 [13, 12]) = reconstructB 4 [13, 12] :=
  have h := conversions_preserve_plaintext 4 2 (by decide) [13, 12] rfl
  ⟨by decide, h.1 beaver4 (by decide) (by decide), h.2.1 ⟨randbits4, 10⟩ (by decide),
    h.2.2 randbits4 (by decide)⟩

/-- C10: for `K` in `{8, 16, 32, 64, 128}` and `N` in `{2, 3, 5}`, with a Beaver source holding
enough valid triples: `A2B.proc` on an additive sharing `x` returns a boolean sharing `b`, and
`B2A.proc` on `b` (with material fitting `b`) reconstructs to the value of `x`; and `B2A.proc`
on a boolean sharing `x` followed by `A2B.proc` reconstructs to the value of `x`. -/
theorem conversion_round_trip (K N : Nat) (_hK : K ∈ [8, 16, 32, 64, 128])
    (hNs : N ∈ [2, 3, 5]) (bv : Beaver) (x : Shares) (hx : x.length = N)
    (hbv : ∀ t ∈ bv, t.Valid K N) (hlen : (N - 1) * andGates K ≤ bv.length) :
    (∃ b rest, A2B.proc K bv x = some (b, rest) ∧
      ∀ m : B2AMaterial, m.Valid K N b →
        reconstructA K (B2A.proc K m b) = reconstructA K x) ∧
    (∀ m : B2AMaterial, m.Valid K N x →
      ∃ out rest, A2B.proc K bv (B2A.proc K m x) = some (out, rest) ∧
        reconstructB K out = reconstructB K x) := by
  have hN : 0 < N := by
    simp only [List.mem_cons, List.mem_singleton, List.not_mem_nil, or_false] at hNs
    omega
  constructor
  · obtain ⟨b, hrun, hbl, hrec⟩ := A2B_proc_spec K N hN bv x hx hbv hlen
    refine ⟨b, _, hrun, fun m hm => ?_⟩
    rw [(B2A_proc_spec K N hN m b hbl hm).2, hrec]
  · intro m hm
    obtain ⟨hal, harec⟩ := B2A_proc_spec K N hN m x hx hm
    obtain ⟨out, hrun, _, hrec⟩ := A2B_proc_spec K N hN bv (B2A.proc K m x) hal hbv hlen
    exact ⟨out, _, hrun, by rw [hrec, harec]⟩

/-- Witness for C10: three parties, 8-bit ring, shares `[200, 100, 77]`; the intermediate
sharings and the material opened for them are evaluated explicitly. -/
theorem conversion_round_trip_witness :
    (A2B.proc 8 beaver8 [200, 100, 77] = some ([80, 126, 87], []) ∧
      B2AMaterial.Valid 8 3 ⟨randbits8, 208⟩ [80, 126, 87] ∧
      reconstructA 8 (B2A.proc 8 ⟨randbits8, 208⟩ [80, 126, 87]) = 121 ∧
      reconstructA 8 [200, 100, 77] = 121) ∧
    ((∃ b rest, A2B.proc 8 beaver8 [200, 100, 77] = some (b, rest) ∧
      ∀ m : B2AMaterial, m.Valid 8 3 b →
        reconstructA 8 (B2A.proc 8 m b) = reconstructA 8 [200, 100, 77]) ∧
    (∀ m : B2AMaterial, m.Valid 8 3 [200, 100, 77] →
      ∃ out rest, A2B.proc 8 beaver8 (B2A.proc 8 m [200, 100, 77]) = some (out, rest) ∧
        reconstructB 8 out = reconstructB 8 [200, 100, 77])) :=
  ⟨by decide, conversion_round_trip 8 3 (by decide) (by decide) beaver8 [200, 100, 77] rfl
    (by decide) (by decide)⟩

/-! ## The protocol state and its Beaver source -/

theorem mulMany_spec {Ctx : Type} (lctx : Ctx) :
    ∀ (ops : List (Shares × Shares)) (supply : Beaver), ops.length ≤ supply.length →
      (Semi2kState.new supply lctx).mulMany ops
        = some (List.zipWith (fun t op => andGate t op.1 op.2) supply ops,
            Semi2kState.new (supply.drop ops.length) lctx)
  | [], supply, _ => by simp [Semi2kState.mulMany]
  | op :: ops, [], h => by simp at h
  | op :: ops, t :: supply, h => by
    have ih := mulMany_spec lctx ops supply (by simpa using h)
    simp only [Semi2kState.new, BeaverTfp.new] at ih ⊢
    simp [Semi2kState.mulMany, Semi2kState.mul, Semi2kState.beaver, andBB, ih]

theorem mulMany_exhausted {Ctx : Type} (lctx : Ctx) :
    ∀ (ops : List (Shares × Shares)) (supply : Beaver), supply.length < ops.length →
      (Semi2kState.new supply lctx).mulMany ops = none
  | [], supply, h => by simp at h
  | op :: ops, [], _ => by
    simp [Semi2kState.mulMany, Semi2kState.mul, Semi2kState.beaver, Semi2kState.new,
      BeaverTfp.new, andBB]
  | op :: ops, t :: supply, h => by
    have ih := mulMany_exhausted lctx ops supply (by simpa using h)
    simp only [Semi2kState.new, BeaverTfp.new] at ih ⊢
    simp [Semi2kState.mulMany, Semi2kState.mul, Semi2kState.beaver, andBB, ih]

theorem beaverCalls_spec {Ctx : Type} (s : Semi2kState Ctx) :
    ∀ n, s.beaverCalls n = (List.replicate n s.beaver_, s)
  | 0 => rfl
  | n + 1 => by
    simp [Semi2kState.beaverCalls, Semi2kState.beaver, beaverCalls_spec s n,
      List.replicate_succ]

/-- C11: the Beaver source held by a state never issues a triple twice. A state built with a
supply of `m` triples serves any run of at most `m` multiplications with the triples in supply
order, one per multiplication, and the triples issued have left the source; a run of more than
`m` multiplications, in particular of `m + 1`, fails instead of reusing or rewinding a triple. -/
theorem beaver_never_reuses {Ctx : Type} (lctx : Ctx) (supply : Beaver)
    (ops : List (Shares × Shares)) :
    (ops.length ≤ supply.length →
      (Semi2kState.new supply lctx).mulMany ops
        = some (List.zipWith (fun t op => andGate t op.1 op.2) supply ops,
            Semi2kState.new (supply.drop ops.length) lctx)) ∧
    (supply.length < ops.length → (Semi2kState.new supply lctx).mulMany ops = none) ∧
    (ops.length = supply.length + 1 → (Semi2kState.new supply lctx).mulMany ops = none) :=
  ⟨mulMany_spec lctx ops supply, mulMany_exhausted lctx ops supply,
    fun h => mulMany_exhausted lctx ops supply (by omega)⟩

/-- Witness for C11: with the five triples of `beaver4`, five multiplications succeed and empty
the source, and six multiplications fail. -/
theorem beaver_never_reuses_witness :
    ((List.replicate 5 (([5, 3], [1, 2]) : Shares × Shares)).length ≤ beaver4.length ∧
      (Semi2kState.new beaver4 ()).mulMany (List.replicate 5 ([5, 3], [1, 2]))
        = some (List.zipWith (fun t op => andGate t op.1 op.2) beaver4
            (List.replicate 5 ([5, 3], [1, 2])),
            Semi2kState.new (beaver4.drop (List.replicate 5
              (([5, 3], [1, 2]) : Shares × Shares)).length) ())) ∧
    ((List.replicate 6 (([5, 3], [1, 2]) : Shares × Shares)).length = beaver4.length + 1 ∧
      (Semi2kState.new beaver4 ()).mulMany (List.replicate 6 ([5, 3], [1, 2])) = none) :=
  ⟨⟨by decide, (beaver_never_reuses () beaver4 (List.replicate 5 ([5, 3], [1, 2]))).1
      (by decide)⟩,
    ⟨by decide, (beaver_never_reuses () beaver4 (List.replicate 6 ([5, 3], [1, 2]))).2.2
      (by decide)⟩⟩

/-- C12: constructing a `Semi2kState` from a communication context creates one Beaver source,
built from that same context and held in the state's owning pointer; afterwards `beaver()`
returns that source (not null), returns it again on every further call, and leaves the state
unchanged. -/
theorem Semi2kState_beaver_stable {Ctx : Type} (supply : Beaver) (lctx : Ctx) (n : Nat) :
    (Semi2kState.new supply lctx).beaver_ = some (BeaverTfp.new supply lctx) ∧
    (BeaverTfp.new supply lctx).lctx = lctx ∧
    (Semi2kState.new supply lctx).beaver.1 = some (BeaverTfp.new supply lctx) ∧
    (Semi2kState.new supply lctx).beaver.1 ≠ none ∧
    (∀ s : Semi2kState Ctx, s.beaver.2 = s ∧ s.beaver.2.beaver.1 = s.beaver.1) ∧
    (Semi2kState.new supply lctx).beaverCalls n
      = (List.replicate n (some (BeaverTfp.new supply lctx)), Semi2kState.new supply lctx) := by
  refine ⟨rfl, rfl, rfl, by simp [Semi2kState.beaver, Semi2kState.new], fun s => ⟨rfl, rfl⟩, ?_⟩
  rw [beaverCalls_spec]
  rfl

/-! ## Scatter -/

theorem chan_send (s d : Nat) (t : String) (net : Net) (m : Message) :
    Net.chan s d t (net.send m)
      = Net.chan s d t net ++ (if m.onChannel s d t then [m.payload] else []) := by
  unfold Net.chan Net.send
  rw [List.filter_append, List.map_append]
  by_cases h : m.onChannel s d t <;> simp [List.filter_cons, h]

theorem chan_scatterSends (root r : Nat) (tag : String) :
    ∀ (bs : List Buffer) (idx : Nat) (net : Net),
      Net.chan root r tag (scatterSends root tag idx bs net)
        = Net.chan root r tag net
            ++ (if r ≠ root ∧ idx ≤ r then (bs[r - idx]?).toList else [])
  | [], idx, net => by simp [scatterSends]
  | b :: bs, idx, net => by
    rw [scatterSends, chan_scatterSends root r tag bs (idx + 1)]
    by_cases hroot : idx = root
    · subst hroot
      simp only [if_true]
      by_cases h1 : r ≠ idx ∧ idx + 1 ≤ r
      · have h2 : r ≠ idx ∧ idx ≤ r := ⟨h1.1, by omega⟩
        have e : r - idx = (r - (idx + 1)) + 1 := by omega
        rw [if_pos h1, if_pos h2, e, List.getElem?_cons_succ]
      · have h2 : ¬ (r ≠ idx ∧ idx ≤ r) := by omega
        rw [if_neg h1, if_neg h2]
    · simp only [hroot, if_false]
      rw [chan_send]
      simp only [Message.onChannel, beq_self_eq_true, Bool.true_and, Bool.and_true,
        beq_iff_eq, List.append_assoc]
      congr 1
      by_cases hr : idx = r
      · subst hr
        have h1 : ¬ (idx ≠ root ∧ idx + 1 ≤ idx) := by omega
        simp [hroot]
      · by_cases h1 : r ≠ root ∧ idx + 1 ≤ r
        · have h2 : r ≠ root ∧ idx ≤ r := ⟨h1.1, by omega⟩
          have e : r - idx = (r - (idx + 1)) + 1 := by omega
          rw [if_neg hr, if_pos h1, if_pos h2, e, List.getElem?_cons_succ]
          rfl
        · have h2 : ¬ (r ≠ root ∧ idx ≤ r) := by omega
          rw [if_neg hr, if_neg h1, if_neg h2]
          rfl

theorem recv_of_chan_nil (src dst : Nat) (tag : String) :
    ∀ net : Net, Net.chan src dst tag net = [] → Net.recv src dst tag net = none
  | [], _ => rfl
  | m :: rest, h => by
    by_cases hm : m.onChannel src dst tag
    · simp [Net.chan, List.filter_cons, hm] at h
    · have h1 : Net.chan src dst tag rest = [] := by
        simpa [Net.chan, List.filter_cons, hm] using h
      simp [Net.recv, hm, recv_of_chan_nil src dst tag rest h1]

theorem recv_of_chan_cons (src dst : Nat) (tag : String) (b : Buffer) (bs : List Buffer) :
    ∀ net : Net, Net.chan src dst tag net = b :: bs →
      ∃ net1, Net.recv src dst tag net = some (b, net1) ∧ Net.chan src dst tag net1 = bs ∧
        ∀ d, d ≠ dst → Net.chan src d tag net1 = Net.chan src d tag net
  | [], h => by simp [Net.chan] at h
  | m :: rest, h => by
    by_cases hm : m.onChannel src dst tag
    · simp only [Net.chan, List.filter_cons, hm, if_true, List.map_cons, List.cons.injEq] at h
      refine ⟨rest, by simp [Net.recv, hm, h.1], h.2, fun d hd => ?_⟩
      have hmd : m.onChannel src d tag = false := by
        simp only [Message.onChannel, Bool.and_eq_true, beq_iff_eq] at hm ⊢
        have : ¬ (m.dst = d) := by rw [hm.1.2]; exact fun e => hd e.symm
        simp [this]
      simp [Net.chan, List.filter_cons, hmd]
    · have h1 : Net.chan src dst tag rest = b :: bs := by
        simpa [Net.chan, List.filter_cons, hm] using h
      obtain ⟨net1, hrun, hc, hother⟩ := recv_of_chan_cons src dst tag b bs rest h1
      refine ⟨m :: net1, by simp [Net.recv, hm, hrun], ?_, fun d hd => ?_⟩
      · simpa [Net.chan, List.filter_cons, hm] using hc
      · have := hother d hd
        simp only [Net.chan, List.filter_cons] at this ⊢
        by_cases hmd : m.onChannel src d tag <;> simp [hmd, this]

theorem scatterCalls_spec (world root : Nat) (tag : String) (f : Nat → Buffer) :
    ∀ (rs : List Nat) (net : Net), rs.Nodup →
      (∀ r ∈ rs, r ≠ root ∧ Net.chan root r tag net = [f r]) →
      ∃ net1, scatterCalls world root tag rs net = some (rs.map f, net1) ∧
        (∀ r ∈ rs, Net.chan root r tag net1 = []) ∧
        ∀ d, d ∉ rs → Net.chan root d tag net1 = Net.chan root d tag net
  | [], net, _, _ => ⟨net, rfl, by simp, fun _ _ => rfl⟩
  | r :: rs, net, hnd, h => by
    obtain ⟨hr, hc⟩ := h r (by simp)
    obtain ⟨net1, hrun, hc1, hother⟩ := recv_of_chan_cons root r tag (f r) [] net hc
    have hnd1 := List.nodup_cons.1 hnd
    obtain ⟨net2, hrun2, hc2, hkeep⟩ := scatterCalls_spec world root tag f rs net1 hnd1.2
      (fun q hq => by
        have hne : q ≠ r := fun e => hnd1.1 (e ▸ hq)
        exact ⟨(h q (by simp [hq])).1, by rw [hother q hne]; exact (h q (by simp [hq])).2⟩)
    refine ⟨net2, ?_, ?_, ?_⟩
    · simp [scatterCalls, Scatter, hr, hrun, hrun2]
    · intro q hq
      rcases List.mem_cons.1 hq with rfl | hq
      · rw [hkeep q hnd1.1, hc1]
      · exact hc2 q hq
    · intro d hd
      have hd1 : d ≠ r := fun e => hd (by simp [e])
      have hd2 : d ∉ rs := fun e => hd (by simp [e])
      rw [hkeep d hd2, hother d hd1]

/-- C13: when the root supplies one buffer per rank on a link with nothing in flight from the
root under `tag`, the root's call returns `inputs[root]`, and the calls of the other ranks, in
whatever order `rs` they are made, return exactly `inputs[r]` for each rank `r`; afterwards
nothing is left in flight for these ranks, so each of them received exactly one buffer and a
further call finds none. -/
theorem Scatter_delivers (world root : Nat) (tag : String) (inputs : List Buffer) (net : Net)
    (rs : List Nat) (hlen : inputs.length = world) (hroot : root < world)
    (hquiet : ∀ r, Net.chan root r tag net = []) (hnd : rs.Nodup)
    (hrs : ∀ r ∈ rs, r < world ∧ r ≠ root) :
    ∃ b net1 bs net2,
      Scatter world root net inputs root tag = some (b, net1) ∧ inputs[root]? = some b ∧
      scatterCalls world root tag rs net1 = some (bs, net2) ∧
      bs.map some = rs.map (fun r => inputs[r]?) ∧
      ∀ r ∈ rs, Scatter world r net2 [] root tag = none := by
  have hb : root < inputs.length := by omega
  have hchan : ∀ r ∈ rs, r ≠ root ∧
      Net.chan root r tag (scatterSends root tag 0 inputs net) = [inputs.getD r []] := by
    intro r hr
    obtain ⟨h1, h2⟩ := hrs r hr
    refine ⟨h2, ?_⟩
    rw [chan_scatterSends, hquiet r]
    have h3 : r < inputs.length := by omega
    simp [h2, List.getD, List.getElem?_eq_getElem h3]
  obtain ⟨net2, hrun, hempty, _⟩ := scatterCalls_spec world root tag
    (fun r => inputs.getD r []) rs _ hnd hchan
  refine ⟨inputs[root], _, _, net2, ?_, List.getElem?_eq_getElem hb, hrun, ?_, ?_⟩
  · simp [Scatter, hlen, List.getElem?_eq_getElem hb]
  · rw [List.map_map]
    apply List.map_congr_left
    intro r hr
    have h3 : r < inputs.length := by have := (hrs r hr).1; omega
    simp [List.getD, List.getElem?_eq_getElem h3]
  · intro r hr
    simp only [Scatter, (hrs r hr).2, if_false]
    exact recv_of_chan_nil root r tag net2 (hempty r hr)

/-- Witness for C13: three parties, root of rank 1; the parties of ranks 2 and 0 call after the
root. -/
theorem Scatter_delivers_witness :
    ∃ b net1 bs net2,
      Scatter 3 1 [] [[1], [2, 2], [3, 3, 3]] 1 "t" = some (b, net1) ∧
      ([[1], [2, 2], [3, 3, 3]] : List Buffer)[1]? = some b ∧
      scatterCalls 3 1 "t" [2, 0] net1 = some (bs, net2) ∧
      bs.map some = [2, 0].map (fun r => ([[1], [2, 2], [3, 3, 3]] : List Buffer)[r]?) ∧
      ∀ r ∈ [2, 0], Scatter 3 r net2 [] 1 "t" = none :=
  Scatter_delivers 3 1 "t" [[1], [2, 2], [3, 3, 3]] [] [2, 0] rfl (by decide)
    (fun _ => rfl) (by decide) (by decide)

/-! ## Enforce macros -/

theorem enforceThat_binary {α β : Type} (c : Comparable α β) (op : α → β → Bool)
    (file : String) (line : Nat) (expr : String) (x : α) (y : β) (extra : String) :
    PPU_ENFORCE_THAT_IMPL file line (binaryCompHelper c op x y) expr extra
      = if op x y then Except.ok ()
        else Except.error (EnforceNotMet.new file line expr
          (c.fmtL x ++ " vs " ++ c.fmtR y ++ (if extra = "" then "" else "." ++ extra))) := by
  by_cases h : op x y
  · simp [PPU_ENFORCE_THAT_IMPL, binaryCompHelper, h, EnforceOK, EnforceFailMessage.Bad]
  · by_cases he : extra = ""
    · simp [PPU_ENFORCE_THAT_IMPL, binaryCompHelper, h, EnforceFailMessage.Bad,
        EnforceFailMessage.GetMessageAndFree, String.isEmpty_iff, he]
    · simp [PPU_ENFORCE_THAT_IMPL, binaryCompHelper, h, EnforceFailMessage.Bad,
        EnforceFailMessage.GetMessageAndFree, String.isEmpty_iff, he, String.append_assoc]

theorem EnforceMacro_run_eq {α β : Type} (c : Comparable α β) (m : EnforceMacro)
    (file : String) (line : Nat) (sx sy : String) (x : α) (y : β) (extra : String) :
    m.run c file line sx sy x y extra
      = if m.op c x y then Except.ok ()
        else Except.error (EnforceNotMet.new file line (m.cond sx sy)
          (c.fmtL x ++ " vs " ++ c.fmtR y ++ (if extra = "" then "" else "." ++ extra))) := by
  cases m <;>
    simp only [EnforceMacro.run, EnforceMacro.op, EnforceMacro.cond, PPU_ENFORCE_EQ,
      PPU_ENFORCE_NE, PPU_ENFORCE_LT, PPU_ENFORCE_LE, PPU_ENFORCE_GT, PPU_ENFORCE_GE, Equals,
      NotEquals, Less, LessEquals, Greater, GreaterEquals, enforceThat_binary]

/-- C14: for operands `x`, `y` with comparison operators and formatters `c`, each of the macros
`PPU_ENFORCE_EQ/NE/LT/LE/GT/GE` throws `EnforceNotMet` if and only if its comparison of `x` and
`y` is false; the message of the exception is then the enforce header with the condition text,
followed by the two values as "x vs y", followed by a dot and the additional message when that
message is not empty. -/
theorem enforce_binary_throws_iff {α β : Type} (c : Comparable α β) (m : EnforceMacro)
    (file : String) (line : Nat) (sx sy : String) (x : α) (y : β) (extra : String) :
    ((∃ e, m.run c file line sx sy x y extra = Except.error e) ↔ m.op c x y = false) ∧
    (m.op c x y = true → m.run c file line sx sy x y extra = Except.ok ()) ∧
    (∀ e, m.run c file line sx sy x y extra = Except.error e →
      e.what = "[Enforce fail at " ++ file ++ ":" ++ toString line ++ "] "
          ++ (m.cond sx sy) ++ ". "
          ++ (c.fmtL x ++ " vs " ++ c.fmtR y ++ (if extra = "" then "" else "." ++ extra)) ∧
      (extra = "" → ∃ pre, e.what = pre ++ (c.fmtL x ++ " vs " ++ c.fmtR y)) ∧
      (extra ≠ "" → ∃ pre, e.what = pre ++ (c.fmtL x ++ " vs " ++ c.fmtR y ++ "." ++ extra))) := by
  rw [EnforceMacro_run_eq]
  by_cases h : m.op c x y
  · simp [h]
  · have hf : m.op c x y = false := by simpa using h
    rw [if_neg h]
    refine ⟨⟨fun _ => hf, fun _ => ⟨_, rfl⟩⟩, fun ht => absurd ht h, ?_⟩
    intro e he
    have he1 := (Except.error.injEq _ _).mp he
    subst he1
    refine ⟨rfl,
      fun h0 => ⟨"[Enforce fail at " ++ file ++ ":" ++ toString line ++ "] "
        ++ m.cond sx sy ++ ". ", ?_⟩,
      fun h1 => ⟨"[Enforce fail at " ++ file ++ ":" ++ toString line ++ "] "
        ++ m.cond sx sy ++ ". ", ?_⟩⟩
    · simp only [EnforceNotMet.what, EnforceNotMet.new, h0, if_true, String.append_empty]
    · simp only [EnforceNotMet.what, EnforceNotMet.new, h1, if_false, String.append_assoc]

/-- Witness for C14: `PPU_ENFORCE_EQ(a, b, ...)` at line 7 of `f.cc` with `a = 3`, `b = 4` and
the additional message "bad" throws with the message shown, and passes when both are `3`. -/
theorem enforce_binary_throws_iff_witness :
    (EnforceMacro.EQ.op intComparable 3 3 = true ∧
      EnforceMacro.EQ.run intComparable "f.cc" 7 "a" "b" 3 3 "bad" = Except.ok ()) ∧
    EnforceMacro.EQ.run intComparable "f.cc" 7 "a" "b" 3 4 "bad"
      = Except.error ⟨"", "[Enforce fail at f.cc:7] a == b. 3 vs 4.bad"⟩ ∧
    EnforceMacro.LT.run intComparable "f.cc" 7 "a" "b" 4 3 ""
      = Except.error ⟨"", "[Enforce fail at f.cc:7] a < b. 4 vs 3"⟩ :=
  ⟨⟨by decide, (enforce_binary_throws_iff intComparable EnforceMacro.EQ "f.cc" 7 "a" "b" 3 3
      "bad").2.1 (by decide)⟩, rfl, rfl⟩

/-- C15: the error types form the tree of `exception.h`: `NetworkError` is an `IoError`,
`IoError` is a `RuntimeError`, `RuntimeError` and `LogicError` are `Exception`s, and
`LogicError`, `NotImplementedError` and `EnforceNotMet` are not `RuntimeError`s. A handler for
`RuntimeError` therefore catches what `PPU_THROW`, `PPU_THROW_IO_ERROR` and
`PPU_THROW_NETWORK_ERROR` raise and does not catch what `PPU_THROW_LOGIC_ERROR` or
`PPU_ENFORCE` raise. -/
theorem error_tree :
    ErrorType.NetworkError.base = some ErrorType.IoError ∧
    ErrorType.IoError.base = some ErrorType.RuntimeError ∧
    ErrorType.RuntimeError.base = some ErrorType.Exception ∧
    ErrorType.LogicError.base = some ErrorType.Exception ∧
    ErrorType.NetworkError.isA ErrorType.IoError = true ∧
    ErrorType.IoError.isA ErrorType.RuntimeError = true ∧
    ErrorType.RuntimeError.isA ErrorType.Exception = true ∧
    ErrorType.LogicError.isA ErrorType.Exception = true ∧
    ErrorType.LogicError.isA ErrorType.RuntimeError = false ∧
    ErrorType.NotImplementedError.isA ErrorType.RuntimeError = false ∧
    ErrorType.EnforceNotMet.isA ErrorType.RuntimeError = false ∧
    (∀ e : ErrorType, e.isA ErrorType.Exception = true) ∧
    (∀ m : ThrowMacro, catches ErrorType.RuntimeError m.raises = true ↔
      m = ThrowMacro.PPU_THROW ∨ m = ThrowMacro.PPU_THROW_IO_ERROR ∨
        m = ThrowMacro.PPU_THROW_NETWORK_ERROR) ∧
    catches ErrorType.RuntimeError ThrowMacro.PPU_THROW_LOGIC_ERROR.raises = false ∧
    catches ErrorType.RuntimeError ThrowMacro.PPU_ENFORCE.raises = false := by
  refine ⟨rfl, rfl, rfl, rfl, by decide, by decide, by decide, by decide, by decide, by decide,
    by decide, ?_, ?_, by decide, by decide⟩
  · intro e; cases e <;> decide
  · intro m; cases m <;> decide

/-! ## Shape utilities -/

theorem copyDimsExcept_eq (skip : Nat) : ∀ (ds : List Int) (i : Nat), i ≤ skip →
    copyDimsExcept skip i ds = ds.eraseIdx (skip - i)
  | [], i, _ => by simp [copyDimsExcept]
  | d :: ds, i, h => by
    by_cases hi : i = skip
    · subst hi
      simp only [copyDimsExcept, if_true, Nat.sub_self, List.eraseIdx_cons_zero]
      have : ∀ (es : List Int) (j : Nat), i < j → copyDimsExcept i j es = es := by
        intro es
        induction es with
        | nil => intro j _; rfl
        | cons e es ih =>
          intro j hj
          have hne : ¬ (j = i) := by omega
          simp only [copyDimsExcept, hne, if_false, ih (j + 1) (by omega)]
      exact this ds (i + 1) (by omega)
    · have e : skip - i = (skip - (i + 1)) + 1 := by omega
      simp only [copyDimsExcept, hi, if_false, e, List.eraseIdx_cons_succ,
        copyDimsExcept_eq skip ds (i + 1) (by omega)]

theorem eraseIdx_last (ds : List Int) : ds.eraseIdx (ds.length - 1) = ds.dropLast := by
  induction ds with
  | nil => rfl
  | cons d ds ih =>
    cases ds with
    | nil => rfl
    | cons e es =>
      simp only [List.length_cons, Nat.add_sub_cancel, List.eraseIdx_cons_succ,
        List.dropLast_cons₂] at ih ⊢
      rw [ih]

theorem DeduceDotShape_general (lhs rhs : List Int) (hl : lhs ≠ []) (hr : rhs ≠ [])
    (hv : ¬ (lhs.length = 1 ∧ rhs.length = 1)) :
    DeduceDotShape lhs rhs
      = lhs.dropLast ++ rhs.eraseIdx (if 2 ≤ rhs.length then rhs.length - 2 else 0) := by
  have h1 : lhs.isEmpty = false := by cases lhs <;> simp at hl ⊢
  have h2 : rhs.isEmpty = false := by cases rhs <;> simp at hr ⊢
  simp only [DeduceDotShape, h1, h2, Bool.false_eq_true, if_false, hv]
  rw [copyDimsExcept_eq _ lhs 0 (Nat.zero_le _), copyDimsExcept_eq _ rhs 0 (Nat.zero_le _),
    Nat.sub_zero, Nat.sub_zero, eraseIdx_last]
  rfl

/-- C16: `DeduceDotShape` follows the N-d dot rule. For every non-scalar `lhs` and `rhs` that
are not both of rank 1, the result is `lhs` without its last dimension followed by `rhs` without
its contracted dimension (the second-to-last when `rhs` has rank at least 2, the only one when
it has rank 1), so the result has rank `rank(lhs) + rank(rhs) - 2`. -/
theorem DeduceDotShape_nd_rule (lhs rhs : List Int) (hl : lhs ≠ []) (hr : rhs ≠ [])
    (hv : ¬ (lhs.length = 1 ∧ rhs.length = 1)) :
    DeduceDotShape lhs rhs
      = lhs.dropLast ++ rhs.eraseIdx (if 2 ≤ rhs.length then rhs.length - 2 else 0) ∧
    (DeduceDotShape lhs rhs).length = lhs.length + rhs.length - 2 := by
  have hg := DeduceDotShape_general lhs rhs hl hr hv
  refine ⟨hg, ?_⟩
  have hl1 : 0 < lhs.length := List.length_pos.2 hl
  have hr1 : 0 < rhs.length := List.length_pos.2 hr
  rw [hg, List.length_append, List.length_dropLast, List.length_eraseIdx]
  split_ifs <;> omega

/-- Witness for C16: the shapes `[2, 3, 4]` and `[3, 4, 5]` give `[2, 3, 3, 5]`, and the model
returns the expected shape on every instance of `shape_util_test.cc`. -/
theorem DeduceDotShape_nd_rule_witness :
    (DeduceDotShape [2, 3, 4] [3, 4, 5]
        = [2, 3, 4].dropLast ++ [3, 4, 5].eraseIdx
            (if 2 ≤ ([3, 4, 5] : List Int).length then ([3, 4, 5] : List Int).length - 2
              else 0) ∧
      (DeduceDotShape [2, 3, 4] [3, 4, 5]).length
        = ([2, 3, 4] : List Int).length + ([3, 4, 5] : List Int).length - 2) ∧
    DeduceDotShape [2, 3, 4] [3, 4, 5] = [2, 3, 3, 5] ∧
    ∀ t ∈ dotShapeInstances, DeduceDotShape t.1 t.2.1 = t.2.2 :=
  ⟨DeduceDotShape_nd_rule [2, 3, 4] [3, 4, 5] (by decide) (by decide) (by decide),
    by decide, by decide⟩

/-- C17: the edge cases of `DeduceDotShape`. If either operand is a scalar (empty shape) the
result is the other operand's shape unchanged, both scalar giving the empty shape, and two
operands of rank 1 give the one-element shape `[1]`, not the empty shape. -/
theorem DeduceDotShape_edge_cases :
    (∀ s : List Int, DeduceDotShape [] s = s) ∧
    (∀ s : List Int, DeduceDotShape s [] = s) ∧
    DeduceDotShape [] [] = [] ∧
    (∀ a b : Int, DeduceDotShape [a] [b] = [1] ∧ DeduceDotShape [a] [b] ≠ []) ∧
    DeduceDotShape [2, 3, 4] [] = [2, 3, 4] ∧ DeduceDotShape [] [2, 3, 4] = [2, 3, 4] ∧
    DeduceDotShape [3] [3] = [1] := by
  refine ⟨fun s => rfl, fun s => ?_, rfl, fun a b => ⟨rfl, by simp [DeduceDotShape]⟩,
    by decide, by decide, by decide⟩
  cases s <;> simp [DeduceDotShape]

theorem flattenIndexLoop_eq : ∀ (is ss : List Int) (stride acc : Int),
    flattenIndexLoop is ss stride acc = acc + stride * hornerRev is ss
  | [], _, _, _ => by simp [flattenIndexLoop, hornerRev]
  | _ :: _, [], _, _ => by simp [flattenIndexLoop, hornerRev]
  | i :: is, s :: ss, stride, acc => by
    rw [flattenIndexLoop, flattenIndexLoop_eq is ss, hornerRev]
    ring

theorem hornerRev_snoc : ∀ (a b : List Int) (i s : Int), a.length = b.length →
    hornerRev (a ++ [i]) (b ++ [s]) = hornerRev a b + b.prod * i
  | [], [], i, s, _ => by simp [hornerRev]
  | [], _ :: _, _, _, h => by simp at h
  | _ :: _, [], _, _, h => by simp at h
  | x :: a, y :: b, i, s, h => by
    have ih := hornerRev_snoc a b i s (by simpa using h)
    rw [List.cons_append, List.cons_append, hornerRev, ih, hornerRev, List.prod_cons]
    ring

theorem hornerRev_reverse : ∀ (idx shape : List Int), idx.length = shape.length →
    hornerRev idx.reverse shape.reverse = rowMajorRec idx shape
  | [], [], _ => by simp [hornerRev, rowMajorRec]
  | [], _ :: _, h => by simp at h
  | _ :: _, [], h => by simp at h
  | i :: is, s :: ss, h => by
    have hl : is.length = ss.length := by simpa using h
    have ih := hornerRev_reverse is ss hl
    rw [List.reverse_cons, List.reverse_cons,
      hornerRev_snoc _ _ i s (by simp [hl]), ih, rowMajorRec, List.prod_reverse]
    ring

theorem rowMajorRec_eq : ∀ (idx shape : List Int), idx.length = shape.length →
    rowMajorRec idx shape = rowMajorOffset idx shape
  | [], [], _ => by simp [rowMajorRec, rowMajorOffset]
  | [], _ :: _, h => by simp at h
  | _ :: _, [], h => by simp at h
  | i :: is, s :: ss, h => by
    have ih := rowMajorRec_eq is ss (by simpa using h)
    simp only [rowMajorRec, ih, rowMajorOffset, List.length_cons, List.range_succ_eq_map,
      List.map_cons, List.sum_cons, List.map_map]
    congr 1

theorem flattenIndex_eq (idx shape : List Int) (h : idx.length = shape.length) :
    flattenIndex idx shape = rowMajorOffset idx shape := by
  rw [flattenIndex, flattenIndexLoop_eq, hornerRev_reverse idx shape h, rowMajorRec_eq idx shape h]
  ring

theorem flattenIndexStridedLoop_eq : ∀ (is sts : List Int) (acc : Int),
    is.length = sts.length →
    flattenIndexStridedLoop is sts acc = acc + stridedOffset is sts
  | [], [], acc, _ => by simp [flattenIndexStridedLoop, stridedOffset]
  | [], _ :: _, _, h => by simp at h
  | _ :: _, [], _, h => by simp at h
  | i :: is, st :: sts, acc, h => by
    have ih := flattenIndexStridedLoop_eq is sts (acc + i * st) (by simpa using h)
    rw [flattenIndexStridedLoop, ih]
    simp only [stridedOffset, List.length_cons, List.range_succ_eq_map, List.map_cons,
      List.sum_cons, List.map_map]
    have e : (List.map ((fun k => (i :: is).getD k 0 * (st :: sts).getD k 0) ∘ Nat.succ)
        (List.range is.length)) = List.map (fun k => is.getD k 0 * sts.getD k 0)
        (List.range is.length) := by
      apply List.map_congr_left
      intro k _
      simp
    rw [e]
    simp
    ring

/-- C18: `flattenIndex(idx, shape)` without strides returns the row-major linear offset: for
every shape and every index of the same rank, the result is the sum over `i` of `idx[i]` times
the product of `shape[j]` for `j > i`. -/
theorem flattenIndex_row_major (idx shape : List Int) (h : idx.length = shape.length) :
    flattenIndex idx shape
      = ((List.range idx.length).map
          (fun i => idx.getD i 0 * (shape.drop (i + 1)).prod)).sum :=
  flattenIndex_eq idx shape h

/-- Witness for C18: the checks of `shape_util_test.cc` without strides: in the shape `[3, 3]`
the indices `[0, 0]`, `[1, 1]`, `[2, 2]` give `0`, `4`, `8`, and in the shape `[10]` the indices
`[0]`, `[5]`, `[9]` give `0`, `5`, `9`. -/
theorem flattenIndex_row_major_witness :
    flattenIndex [1, 1] [3, 3]
      = ((List.range ([1, 1] : List Int).length).map
          (fun i => ([1, 1] : List Int).getD i 0 * (([3, 3] : List Int).drop (i + 1)).prod)).sum ∧
    flattenIndex [0, 0] [3, 3] = 0 ∧ flattenIndex [1, 1] [3, 3] = 4 ∧
    flattenIndex [2, 2] [3, 3] = 8 ∧ flattenIndex [0] [10] = 0 ∧ flattenIndex [5] [10] = 5 ∧
    flattenIndex [9] [10] = 9 :=
  ⟨flattenIndex_row_major [1, 1] [3, 3] rfl, by decide, by decide, by decide, by decide,
    by decide, by decide⟩

/-- C19: `flattenIndex(idx, shape, strides)` returns the sum over `i` of
`idx[i] * strides[i]` for every index, shape and strides of equal rank, and the shape does not
enter the result. -/
theorem flattenIndex_strided (idx shape strides : List Int) (h : idx.length = strides.length)
    (_hs : idx.length = shape.length) :
    flattenIndexStrided idx shape strides
      = ((List.range idx.length).map (fun i => idx.getD i 0 * strides.getD i 0)).sum ∧
    ∀ shape2 : List Int, flattenIndexStrided idx shape2 strides
      = flattenIndexStrided idx shape strides := by
  refine ⟨?_, fun _ => rfl⟩
  rw [flattenIndexStrided, flattenIndexStridedLoop_eq idx strides 0 h]
  simp [stridedOffset]

/-- Witness for C19: the checks of `shape_util_test.cc` with strides: strides `[12, 2]` give
`0`, `14`, `28` for the indices `[0, 0]`, `[1, 1]`, `[2, 2]`, and the stride `[3]` gives `0`,
`15`, `27` for the indices `[0]`, `[5]`, `[9]`. -/
theorem flattenIndex_strided_witness :
    (flattenIndexStrided [1, 1] [3, 3] [12, 2]
        = ((List.range ([1, 1] : List Int).length).map
            (fun i => ([1, 1] : List Int).getD i 0 * ([12, 2] : List Int).getD i 0)).sum ∧
      ∀ shape2 : List Int, flattenIndexStrided [1, 1] shape2 [12, 2]
        = flattenIndexStrided [1, 1] [3, 3] [12, 2]) ∧
    flattenIndexStrided [0, 0] [3, 3] [12, 2] = 0 ∧
    flattenIndexStrided [1, 1] [3, 3] [12, 2] = 14 ∧
    flattenIndexStrided [2, 2] [3, 3] [12, 2] = 28 ∧
    flattenIndexStrided [0] [10] [3] = 0 ∧ flattenIndexStrided [5] [10] [3] = 15 ∧
    flattenIndexStrided [9] [10] [3] = 27 :=
  ⟨flattenIndex_strided [1, 1] [3, 3] [12, 2] rfl rfl, by decide, by decide, by decide,
    by decide, by decide, by decide⟩

/-! ## Byte container views -/

theorem bytesEqual_iff (mem : Memory) : ∀ (n p q : Nat),
    bytesEqual mem p q n = true ↔ ∀ i, i < n → mem (p + i) = mem (q + i)
  | 0, p, q => by simp [bytesEqual]
  | n + 1, p, q => by
    rw [bytesEqual, Bool.and_eq_true, beq_iff_eq, bytesEqual_iff mem n (p + 1) (q + 1)]
    constructor
    · rintro ⟨h0, h⟩ i hi
      cases i with
      | zero => simpa using h0
      | succ i =>
        have := h i (by omega)
        rw [Nat.add_assoc, Nat.add_assoc, Nat.add_comm 1 i] at this
        exact this
    · intro h
      refine ⟨by simpa using h 0 (by omega), fun i hi => ?_⟩
      have := h (i + 1) (by omega)
      rw [Nat.add_assoc, Nat.add_assoc, Nat.add_comm 1 i]
      exact this

theorem bytes_eq_iff (mem : Memory) (v w : ByteContainerView) :
    v.bytes mem = w.bytes mem
      ↔ v.size = w.size ∧ ∀ i, i < v.size → mem (v.data + i) = mem (w.data + i) := by
  constructor
  · intro h
    have hl : v.size = w.size := by
      have := congrArg List.length h
      simpa [ByteContainerView.bytes] using this
    refine ⟨hl, fun i hi => ?_⟩
    have := congrArg (fun l => l[i]?) h
    simp only [ByteContainerView.bytes, List.getElem?_map] at this
    rw [List.getElem?_range hi, List.getElem?_range (by omega)] at this
    simpa using this
  · rintro ⟨hl, h⟩
    unfold ByteContainerView.bytes
    rw [← hl]
    apply List.map_congr_left
    intro i hi
    exact h i (List.mem_range.1 hi)

/-- C20: equality of `ByteContainerView`s is by content. For every two views, `operator==` is
true iff they have the same size and the same bytes in the same order, wherever the two views
point, and `operator!=` is exactly the negation of `operator==`; the views of
`byte_container_view_test.cc` compare as its tests expect. -/
theorem ByteContainerView_equality (mem : Memory) (v w : ByteContainerView) :
    (v.operatorEq mem w = true
      ↔ v.size = w.size ∧ ∀ i, i < v.size → mem (v.data + i) = mem (w.data + i)) ∧
    (v.operatorEq mem w = true ↔ v.bytes mem = w.bytes mem) ∧
    v.operatorNe mem w = !(v.operatorEq mem w) ∧
    ByteContainerView.operatorEq testMemory ⟨0, 52⟩ ⟨0, 52⟩ = true ∧
    ByteContainerView.operatorEq testMemory ⟨0, 52⟩ ⟨53, 40⟩ = false ∧
    ByteContainerView.operatorNe testMemory ⟨0, 52⟩ ⟨0, 52⟩ = false ∧
    ByteContainerView.operatorNe testMemory ⟨0, 52⟩ ⟨53, 40⟩ = true ∧
    ByteContainerView.bytes testMemory ⟨0, 52⟩ = kData1 ∧
    ByteContainerView.bytes testMemory ⟨53, 40⟩ = kData2 := by
  have h1 : v.operatorEq mem w = true
      ↔ v.size = w.size ∧ ∀ i, i < v.size → mem (v.data + i) = mem (w.data + i) := by
    rw [ByteContainerView.operatorEq, Bool.and_eq_true, beq_iff_eq, bytesEqual_iff]
  refine ⟨h1, ?_, rfl, by decide, by decide, by decide, by decide, by decide, by decide⟩
  rw [h1, bytes_eq_iff]

theorem bytes_succ (mem : Memory) (p n : Nat) :
    ByteContainerView.bytes mem ⟨p, n + 1⟩
      = mem p :: ByteContainerView.bytes mem ⟨p + 1, n⟩ := by
  simp only [ByteContainerView.bytes, List.range_succ_eq_map, List.map_cons, List.map_map,
    Nat.add_zero, List.cons.injEq, true_and]
  apply List.map_congr_left
  intro i _
  simp only [Function.comp, Nat.succ_eq_add_one]
  rw [Nat.add_assoc, Nat.add_comm 1 i]

theorem strlen_of_bytes (mem : Memory) : ∀ (bs : List Nat) (limit p : Nat),
    ByteContainerView.bytes mem ⟨p, bs.length⟩ = bs → (∀ b ∈ bs, b ≠ 0) →
    mem (p + bs.length) = 0 → bs.length ≤ limit → strlen mem limit p = bs.length
  | [], limit, p, _, _, h0, _ => by
    cases limit with
    | zero => rfl
    | succ l => simpa [strlen] using h0
  | b :: bs, 0, _, _, _, _, hl => by simp at hl
  | b :: bs, limit + 1, p, hb, hnz, h0, hl => by
    rw [List.length_cons, bytes_succ] at hb
    have hhead : mem p = b := (List.cons.inj hb).1
    have htail := (List.cons.inj hb).2
    have hne : mem p ≠ 0 := by rw [hhead]; exact hnz b (by simp)
    have ih := strlen_of_bytes mem bs limit (p + 1) htail (fun c hc => hnz c (by simp [hc]))
      (by rw [← h0, List.length_cons]; congr 1; omega) (by simpa using hl)
    simp [strlen, hne, ih]

/-- C21: all `ByteContainerView` constructors yield equivalent views of the same bytes. When
the bytes `bs` are stored at address `p`, the views built from `(p, size)`, from a
`string_view`, from a byte container and from a fixed array of those bytes all have size
`bs.length` and the elements `bs` in order; the view built from a C string whose bytes before
the terminating NUL are `bs` is the same view, so its size is `strlen` and the NUL is excluded,
while the view of a fixed array of `n` bytes covers all `n` of them; `empty()` is true iff
`size()` is `0`. -/
theorem ByteContainerView_constructors (mem : Memory) (p : Nat) (bs : List Nat)
    (hstore : ByteContainerView.bytes mem ⟨p, bs.length⟩ = bs) :
    ((ByteContainerView.fromBuffer p bs.length).size = bs.length ∧
      (ByteContainerView.fromBuffer p bs.length).bytes mem = bs) ∧
    ((ByteContainerView.fromStringView ⟨p, bs.length⟩).size = bs.length ∧
      (ByteContainerView.fromStringView ⟨p, bs.length⟩).bytes mem = bs) ∧
    ((ByteContainerView.fromContainer ⟨p, bs.length⟩).size = bs.length ∧
      (ByteContainerView.fromContainer ⟨p, bs.length⟩).bytes mem = bs) ∧
    ((ByteContainerView.fromArray p bs.length).size = bs.length ∧
      (ByteContainerView.fromArray p bs.length).bytes mem = bs) ∧
    (∀ limit, (∀ b ∈ bs, b ≠ 0) → mem (p + bs.length) = 0 → bs.length ≤ limit →
      ByteContainerView.fromCString mem limit p = ByteContainerView.fromBuffer p bs.length ∧
      (ByteContainerView.fromCString mem limit p).size = strlen mem limit p ∧
      (ByteContainerView.fromCString mem limit p).size = bs.length ∧
      (ByteContainerView.fromCString mem limit p).bytes mem = bs) ∧
    (∀ n, (ByteContainerView.fromArray p n).size = n ∧
      ((ByteContainerView.fromArray p n).bytes mem).length = n) ∧
    (∀ v : ByteContainerView, v.empty = true ↔ v.size = 0) := by
  refine ⟨⟨rfl, hstore⟩, ⟨rfl, hstore⟩, ⟨rfl, hstore⟩, ⟨rfl, hstore⟩, ?_, ?_, ?_⟩
  · intro limit hnz h0 hl
    have hs := strlen_of_bytes mem bs limit p hstore hnz h0 hl
    refine ⟨?_, rfl, hs, ?_⟩
    · simp [ByteContainerView.fromCString, ByteContainerView.fromBuffer, hs]
    · simp only [ByteContainerView.fromCString, hs]
      exact hstore
  · intro n
    exact ⟨rfl, by simp [ByteContainerView.fromArray, ByteContainerView.bytes]⟩
  · intro v
    simp [ByteContainerView.empty]

/-- Witness for C21: the constructors of `byte_container_view_test.cc` on `kData1` (52 bytes
and a NUL at address 0 of the test memory): the view from the C string has size 52 and the
bytes of `kData1`, the view of a 15-byte array ending in NUL covers all 15 bytes, and the view
of the empty C string is empty while that of `kData1` is not. -/
theorem ByteContainerView_constructors_witness :
    (ByteContainerView.bytes testMemory ⟨0, kData1.length⟩ = kData1 ∧
      (∀ b ∈ kData1, b ≠ 0) ∧ testMemory (0 + kData1.length) = 0 ∧ kData1.length ≤ 100) ∧
    (ByteContainerView.fromCString testMemory 100 0
        = ByteContainerView.fromBuffer 0 kData1.length ∧
      (ByteContainerView.fromCString testMemory 100 0).size = strlen testMemory 100 0 ∧
      (ByteContainerView.fromCString testMemory 100 0).size = kData1.length ∧
      (ByteContainerView.fromCString testMemory 100 0).bytes testMemory = kData1) ∧
    (ByteContainerView.fromCString testMemory 100 0).size = 52 ∧
    (ByteContainerView.fromArray 0 kDataArray.length).bytes (memOfList kDataArray)
      = kDataArray ∧
    kDataArray.length = 15 ∧
    (ByteContainerView.fromCString (memOfList kDataArray) 100 0).size = 14 ∧
    (ByteContainerView.fromCString (memOfList [0]) 100 0).empty = true ∧
    (ByteContainerView.fromCString testMemory 100 0).empty = false :=
  ⟨⟨by decide, by decide, by decide, by decide⟩,
    (ByteContainerView_constructors testMemory 0 kData1 (by decide)).2.2.2.2.1 100
      (by decide) (by decide) (by decide),
    by decide, by decide, by decide, by decide, by decide, by decide⟩

/-! ## Pseudo-random generator -/

theorem fillLoop_spec (aes : BlockCipher) (type seed iv : Nat) :
    ∀ (fuel count remaining : Nat), remaining ≤ fuel →
      (fillLoop aes type seed iv fuel count remaining).1 = count + (remaining + 15) / 16 ∧
      (fillLoop aes type seed iv fuel count remaining).2.length = remaining
  | 0, count, remaining, h => by
    have : remaining = 0 := by omega
    subst this
    simp [fillLoop]
  | fuel + 1, count, remaining, h => by
    by_cases h0 : remaining = 0
    · subst h0
      simp [fillLoop]
    · obtain ⟨ih1, ih2⟩ := fillLoop_spec aes type seed iv fuel (count + 1)
        (remaining - min 16 remaining) (by omega)
      simp only [fillLoop, h0, if_false, ih1, List.length_append, ih2, blockBytes,
        List.length_map, List.length_range]
      constructor <;> omega

theorem chunkBytes_length (size : Nat) : ∀ (n : Nat) (bytes : List Nat),
    (chunkBytes size n bytes).length = n
  | 0, _ => rfl
  | n + 1, bytes => by simp [chunkBytes, chunkBytes_length size n]

theorem chunkBytes_elem_length (size : Nat) : ∀ (n : Nat) (bytes : List Nat),
    bytes.length = size * n → ∀ e ∈ chunkBytes size n bytes, e.length = size
  | 0, _, _, e, he => by simp [chunkBytes] at he
  | n + 1, bytes, h, e, he => by
    simp only [chunkBytes, List.mem_cons] at he
    have hmul : size * (n + 1) = size * n + size := by ring
    rcases he with rfl | he
    · rw [List.length_take]; omega
    · exact chunkBytes_elem_length size n (bytes.drop size)
        (by rw [List.length_drop]; omega) e he

theorem FillAesRandom_counter (aes : BlockCipher) (sizeofT type seed iv count outSize : Nat) :
    (FillAesRandom aes sizeofT type seed iv count outSize).1
      = count + (sizeofT * outSize + 15) / 16 :=
  (fillLoop_spec aes type seed iv _ count _ (le_refl _)).1

/-- C23: `FillAesRandom(type, seed, iv, count, out)` returns `count` advanced by the number of
128-bit blocks consumed, which is `sizeof(T) * out.size() / 16` rounded up; a second call
chained from the returned counter returns `count` plus twice that number, `out` receives
`out.size()` elements of `sizeof(T)` bytes, and 11 values of 8 bytes from counter 0 give 6 and
then 12. -/
theorem FillAesRandom_returns_counter (aes : BlockCipher)
    (sizeofT type seed iv count outSize : Nat) :
    (FillAesRandom aes sizeofT type seed iv count outSize).1
      = count + (sizeofT * outSize + 15) / 16 ∧
    (sizeofT * outSize ≤ 16 * ((sizeofT * outSize + 15) / 16) ∧
      16 * ((sizeofT * outSize + 15) / 16) < sizeofT * outSize + 16) ∧
    (FillAesRandom aes sizeofT type seed iv
        (FillAesRandom aes sizeofT type seed iv count outSize).1 outSize).1
      = count + 2 * ((sizeofT * outSize + 15) / 16) ∧
    (FillAesRandom aes sizeofT type seed iv count outSize).2.length = outSize ∧
    (∀ e ∈ (FillAesRandom aes sizeofT type seed iv count outSize).2, e.length = sizeofT) ∧
    (FillAesRandom aes 8 type seed iv 0 11).1 = 6 ∧
    (FillAesRandom aes 8 type seed iv (FillAesRandom aes 8 type seed iv 0 11).1 11).1 = 12 := by
  have h1 := FillAesRandom_counter aes sizeofT type seed iv count outSize
  refine ⟨h1, ⟨by omega, by omega⟩, ?_, ?_, ?_, ?_, ?_⟩
  · rw [FillAesRandom_counter, h1]; omega
  · exact chunkBytes_length _ _ _
  · exact chunkBytes_elem_length _ _ _
      (fillLoop_spec aes type seed iv _ count _ (le_refl _)).2
  · rw [FillAesRandom_counter]
  · rw [FillAesRandom_counter, FillAesRandom_counter]

theorem prgElement_eq (cfg : PrgConfig) (seed q s : Nat) (hs : s < cfg.batchSize) :
    prgElement cfg seed (q * cfg.batchSize + s) = (prgBatch cfg seed q).getD s [] := by
  have hB : 0 < cfg.batchSize := by omega
  have hd : (q * cfg.batchSize + s) / cfg.batchSize = q := by
    rw [Nat.add_comm, Nat.add_mul_div_right _ _ hB, Nat.div_eq_of_lt hs, Nat.zero_add]
  have hm : (q * cfg.batchSize + s) % cfg.batchSize = s := by
    rw [Nat.add_comm, Nat.add_mul_mod_self_right, Nat.mod_eq_of_lt hs]
  rw [prgElement, hd, hm, prgBatch]

theorem prg_next_stateAt (cfg : PrgConfig) (seed q s : Nat) (h1 : 1 ≤ s)
    (hs : s ≤ cfg.batchSize) :
    (prgStateAt cfg seed q s).next cfg
      = (prgElement cfg seed (q * cfg.batchSize + s),
          if s = cfg.batchSize then prgStateAt cfg seed (q + 1) 1
          else prgStateAt cfg seed q (s + 1)) := by
  by_cases hfull : s = cfg.batchSize
  · have hidx : q * cfg.batchSize + s = (q + 1) * cfg.batchSize + 0 := by rw [hfull]; ring
    rw [hidx, prgElement_eq cfg seed (q + 1) 0 (by omega)]
    simp only [PseudoRandomGenerator.next, prgStateAt, hfull, if_true, prgBatch,
      FillAesRandom_counter, batchBlocks]
    congr 2
    ring
  · rw [prgElement_eq cfg seed q s (by omega)]
    simp [PseudoRandomGenerator.next, prgStateAt, hfull]

theorem prg_outputs_stateAt (cfg : PrgConfig) (seed : Nat) :
    ∀ (n q s : Nat), 1 ≤ s → s ≤ cfg.batchSize →
      ((prgStateAt cfg seed q s).outputs cfg n).1
        = (List.range n).map (fun k => prgElement cfg seed (q * cfg.batchSize + s + k))
  | 0, _, _, _, _ => rfl
  | n + 1, q, s, h1, hs => by
    simp only [PseudoRandomGenerator.outputs, prg_next_stateAt cfg seed q s h1 hs,
      List.range_succ_eq_map, List.map_cons, List.map_map, Nat.add_zero, List.cons.injEq,
      true_and]
    by_cases hfull : s = cfg.batchSize
    · rw [if_pos hfull, prg_outputs_stateAt cfg seed n (q + 1) 1 (le_refl 1) (by omega)]
      apply List.map_congr_left
      intro k _
      simp only [Function.comp, Nat.succ_eq_add_one]
      congr 1
      rw [hfull]; ring
    · rw [if_neg hfull, prg_outputs_stateAt cfg seed n q (s + 1) (by omega) (by omega)]
      apply List.map_congr_left
      intro k _
      simp only [Function.comp, Nat.succ_eq_add_one]
      congr 1
      ring

theorem prg_next_new (cfg : PrgConfig) (seed : Nat) (hB : 0 < cfg.batchSize) :
    (PseudoRandomGenerator.new cfg seed).next cfg
      = (prgElement cfg seed 0, prgStateAt cfg seed 0 1) := by
  have h0 := prgElement_eq cfg seed 0 0 hB
  simp only [Nat.zero_mul, Nat.add_zero] at h0
  rw [h0]
  simp [PseudoRandomGenerator.next, PseudoRandomGenerator.new, prgStateAt, prgBatch,
    FillAesRandom_counter, batchBlocks]

theorem prg_outputs_new (cfg : PrgConfig) (seed : Nat) (hB : 0 < cfg.batchSize) :
    ∀ n, ((PseudoRandomGenerator.new cfg seed).outputs cfg n).1
      = (List.range n).map (prgElement cfg seed)
  | 0 => rfl
  | n + 1 => by
    simp only [PseudoRandomGenerator.outputs, prg_next_new cfg seed hB,
      prg_outputs_stateAt cfg seed n 0 1 (le_refl 1) hB, List.range_succ_eq_map, List.map_cons,
      List.map_map, List.cons.injEq, true_and]
    apply List.map_congr_left
    intro k _
    simp only [Function.comp, Nat.succ_eq_add_one]
    congr 1
    omega

theorem prgPairs_same (cfg : PrgConfig) : ∀ (n : Nat) (g : PseudoRandomGenerator),
    ∀ p ∈ prgPairs cfg n g g, p.1 = p.2
  | 0, _, p, hp => by simp [prgPairs] at hp
  | n + 1, g, p, hp => by
    simp only [prgPairs, List.mem_cons] at hp
    rcases hp with rfl | hp
    · rfl
    · exact prgPairs_same cfg n _ p hp

/-- C22: `PseudoRandomGenerator` is deterministic in its seed. For every seed, the value a
generator constructed with that seed returns at position `i` is a function of the seed and of
`i` alone, so two generators constructed with the same seed and called in turn return equal
values at every position of their output sequences. -/
theorem prg_deterministic (cfg : PrgConfig) (hB : 0 < cfg.batchSize) (seed n : Nat) :
    ((PseudoRandomGenerator.new cfg seed).outputs cfg n).1
      = (List.range n).map (prgElement cfg seed) ∧
    (∀ g1 g2 : PseudoRandomGenerator, g1 = PseudoRandomGenerator.new cfg seed →
      g2 = PseudoRandomGenerator.new cfg seed →
      (g1.outputs cfg n).1 = (g2.outputs cfg n).1 ∧
      ∀ p ∈ prgPairs cfg n g1 g2, p.1 = p.2) := by
  refine ⟨prg_outputs_new cfg seed hB n, ?_⟩
  intro g1 g2 h1 h2
  subst h1 h2
  exact ⟨rfl, prgPairs_same cfg n _⟩

/-- Witness for C22: two generators of `int` over the toy cipher with seed `1234`, called ten
times each across batch boundaries, return the same values. -/
theorem prg_deterministic_witness :
    0 < toyPrgInt.batchSize ∧
    (((PseudoRandomGenerator.new toyPrgInt 1234).outputs toyPrgInt 10).1
        = (List.range 10).map (prgElement toyPrgInt 1234) ∧
      (∀ g1 g2 : PseudoRandomGenerator, g1 = PseudoRandomGenerator.new toyPrgInt 1234 →
        g2 = PseudoRandomGenerator.new toyPrgInt 1234 →
        (g1.outputs toyPrgInt 10).1 = (g2.outputs toyPrgInt 10).1 ∧
        ∀ p ∈ prgPairs toyPrgInt 10 g1 g2, p.1 = p.2)) ∧
    ((PseudoRandomGenerator.new toyPrgInt 1234).outputs toyPrgInt 5).1
      = [[210, 211, 212, 213], [214, 215, 216, 217], [218, 219, 220, 221],
         [222, 223, 224, 225], [217, 218, 219, 220]] :=
  ⟨by decide, prg_deterministic toyPrgInt (by decide) 1234 10, by decide⟩

/-! ## Thread count configuration -/

theorem get_env_num_threads_eq (stoi : String → Except StdException Int)
    (format : String → List String → String) (getenv : String → Option String)
    (var_name : String) (def_value : Nat) :
    get_env_num_threads stoi format getenv var_name def_value
      = Except.ok
          (match getenv var_name with
           | none => def_value
           | some value =>
             match stoi value with
             | Except.ok n => if 0 < n then n.toNat else def_value
             | Except.error _ => def_value) := by
  unfold get_env_num_threads get_env_num_threads_try
  cases hv : getenv var_name with
  | none => rfl
  | some value =>
    cases hs : stoi value with
    | error e => simp [hs, PPU_ENFORCE, stringLiteralAsCondition]
    | ok n =>
      by_cases hn : 0 < n
      · simp [hs, PPU_ENFORCE, hn]
      · simp [hs, PPU_ENFORCE, stringLiteralAsCondition, hn]

theorem stdStoi_range (v : String) (n : Int) (h : stdStoi v = Except.ok n) :
    -2 ^ 31 ≤ n ∧ n < 2 ^ 31 := by
  unfold stdStoi at h
  cases hp : parseDecimal v with
  | none => simp [hp] at h
  | some w =>
    simp only [hp] at h
    by_cases hr : -2 ^ 31 ≤ w ∧ w < 2 ^ 31
    · rw [if_pos hr] at h
      have : w = n := by injection h
      rw [← this]; exact hr
    · rw [if_neg hr] at h
      exact absurd h (by simp)

/-- C24 on the code: `get_env_num_threads` never fails. When the variable is set to a value
that `std::stoi` rejects or that is zero or negative, the exception raised inside the `try`
block is caught, the `PPU_ENFORCE` of the handler has the message literal as its condition and
does not throw, and the call returns `def_value`; with `OMP_NUM_THREADS` set to "abc", "0" or
"-3" and the default `5` it returns `5`. -/
theorem get_env_num_threads_swallows_invalid (stoi : String → Except StdException Int)
    (format : String → List String → String) (getenv : String → Option String)
    (var_name : String) (def_value : Nat) :
    get_env_num_threads stoi format getenv var_name def_value
      = Except.ok
          (match getenv var_name with
           | none => def_value
           | some value =>
             match stoi value with
             | Except.ok n => if 0 < n then n.toNat else def_value
             | Except.error _ => def_value) ∧
    (∀ e, get_env_num_threads stoi format getenv var_name def_value ≠ Except.error e) ∧
    get_env_num_threads stdStoi joinFormat (envWith "abc") "OMP_NUM_THREADS" 5 = Except.ok 5 ∧
    get_env_num_threads stdStoi joinFormat (envWith "0") "OMP_NUM_THREADS" 5 = Except.ok 5 ∧
    get_env_num_threads stdStoi joinFormat (envWith "-3") "OMP_NUM_THREADS" 5 = Except.ok 5 ∧
    get_env_num_threads stdStoi joinFormat (envWith "12") "OMP_NUM_THREADS" 5
      = Except.ok 12 := by
  refine ⟨get_env_num_threads_eq stoi format getenv var_name def_value, ?_, rfl, rfl, rfl, rfl⟩
  intro e
  rw [get_env_num_threads_eq]
  simp

/-- C25: `intraop_default_num_threads` returns `n` when `OMP_NUM_THREADS` is set to a positive
integer `n` (an `int`, as `std::stoi` returns), returns `ThreadPool::DefaultNumThreads()` when
the variable is unset, and never returns `0` as long as `ThreadPool::DefaultNumThreads()` is
positive; the default is taken to fit the `int` the function returns. -/
theorem intraop_default_num_threads_spec (stoi : String → Except StdException Int)
    (format : String → List String → String) (getenv : String → Option String)
    (defaultNumThreads : Nat)
    (hint : ∀ v n, stoi v = Except.ok n → n < 2 ^ 31)
    (hdef : 0 < defaultNumThreads) (hfit : defaultNumThreads < 2 ^ 31) :
    (∀ value n, getenv "OMP_NUM_THREADS" = some value → stoi value = Except.ok n → 0 < n →
      intraop_default_num_threads stoi format getenv defaultNumThreads = Except.ok n) ∧
    (getenv "OMP_NUM_THREADS" = none →
      intraop_default_num_threads stoi format getenv defaultNumThreads
        = Except.ok (defaultNumThreads : Int)) ∧
    (∃ r, intraop_default_num_threads stoi format getenv defaultNumThreads = Except.ok r ∧
      r ≠ 0) := by
  have hsmall : ∀ m : Nat, 0 < m → m < 2 ^ 31 → sizeToInt m = (m : Int) ∧ sizeToInt m ≠ 0 := by
    intro m h0 h1
    have hm : m % 2 ^ 32 = m := Nat.mod_eq_of_lt (by omega)
    have : sizeToInt m = (m : Int) := by
      unfold sizeToInt
      rw [hm, if_pos h1]
    exact ⟨this, by rw [this]; omega⟩
  have hpos : ∀ value n, stoi value = Except.ok n → 0 < n →
      0 < n.toNat ∧ n.toNat < 2 ^ 31 ∧ ((n.toNat : Nat) : Int) = n := by
    intro value n hs hn
    have := hint value n hs
    omega
  unfold intraop_default_num_threads
  rw [get_env_num_threads_eq]
  refine ⟨?_, ?_, ?_⟩
  · intro value n hv hs hn
    obtain ⟨h1, h2, h3⟩ := hpos value n hs hn
    have hne : ¬ (n.toNat = 0) := by omega
    simp only [hv, hs, hn, if_true, hne, if_false, (hsmall _ h1 h2).1, h3]
  · intro hv
    simp only [hv, if_true, (hsmall _ hdef hfit).1]
  · refine ⟨_, rfl, ?_⟩
    cases hv : getenv "OMP_NUM_THREADS" with
    | none =>
      simp only [if_true]
      exact (hsmall _ hdef hfit).2
    | some value =>
      cases hs : stoi value with
      | error e =>
        simp only [hs, if_true]
        exact (hsmall _ hdef hfit).2
      | ok n =>
        by_cases hn : 0 < n
        · obtain ⟨h1, h2, _⟩ := hpos value n hs hn
          have hne : ¬ (n.toNat = 0) := by omega
          simp only [hs, hn, if_true, hne, if_false]
          exact (hsmall _ h1 h2).2
        · simp only [hs, hn, if_false, if_true]
          exact (hsmall _ hdef hfit).2

/-- Witness for C25: with `std::stoi`, a default of 8 threads and `OMP_NUM_THREADS` set to
"12" the function returns 12; with the variable unset it returns 8. -/
theorem intraop_default_num_threads_spec_witness :
    intraop_default_num_threads stdStoi joinFormat (envWith "12") 8 = Except.ok 12 ∧
    intraop_default_num_threads stdStoi joinFormat envEmpty 8 = Except.ok ((8 : Nat) : Int) ∧
    (∃ r, intraop_default_num_threads stdStoi joinFormat (envWith "12") 8 = Except.ok r ∧
      r ≠ 0) :=
  ⟨(intraop_default_num_threads_spec stdStoi joinFormat (envWith "12") 8
      (fun v n h => (stdStoi_range v n h).2) (by decide) (by decide)).1 "12" 12 rfl rfl
      (by decide),
    (intraop_default_num_threads_spec stdStoi joinFormat envEmpty 8
      (fun v n h => (stdStoi_range v n h).2) (by decide) (by decide)).2.1 rfl,
    (intraop_default_num_threads_spec stdStoi joinFormat (envWith "12") 8
      (fun v n h => (stdStoi_range v n h).2) (by decide) (by decide)).2.2⟩

/-! ## Digital envelope -/

theorem writeSpan_length (n : Nat) (bytes : List Nat) : (writeSpan n bytes).length = n := by
  simp [writeSpan]

theorem writeSpan_self (bytes : List Nat) : writeSpan bytes.length bytes = bytes := by
  apply List.ext_getElem
  · simp [writeSpan]
  · intro i h1 h2
    simp [writeSpan, List.getD, List.getElem?_eq_getElem h2]

theorem prg_outputs_length (cfg : PrgConfig) : ∀ (n : Nat) (g : PseudoRandomGenerator),
    (g.outputs cfg n).1.length = n
  | 0, _ => rfl
  | n + 1, g => by simp [PseudoRandomGenerator.outputs, prg_outputs_length cfg n]

theorem GenRandKey_length (cfg : PrgConfig) (rd n : Nat) : (GenRandKey cfg rd n).length = n := by
  simp [GenRandKey, prg_outputs_length]

theorem RsaEnvSeal_lengths (c : EnvelopeCrypto) (rd : Nat) (pub_key iv p ek ct mac : List Nat)
    (h : RsaEnvSeal c rd pub_key iv p = some (ek, ct, mac)) :
    ct.length = p.length ∧ mac.length = 16 := by
  unfold RsaEnvSeal at h
  cases hg : c.gcmEncrypt (GenRandKey c.prg rd 16) iv p [] with
  | none => simp [hg] at h
  | some out =>
    cases hr : c.rsaEncrypt pub_key (GenRandKey c.prg rd 16) with
    | none => simp [hg, hr] at h
    | some e =>
      simp only [hg, hr, Option.some.injEq, Prod.mk.injEq] at h
      obtain ⟨_, h2, h3⟩ := h
      rw [← h2, ← h3]
      exact ⟨writeSpan_length _ _, writeSpan_length _ _⟩

/-- C26: the digital envelope round trip. Assume that for the matching SM2 (resp. RSA) key
pair encryption succeeds and decryption inverts it, that `Sm4MteDecrypt` inverts
`Sm4MteEncrypt` under the same key and iv, and that AES-128-GCM `Decrypt` inverts `Encrypt`
under the same key and iv, the ciphertext having the plaintext's length and the MAC 16 bytes.
Then `SmEnvOpen` on what `SmEnvSeal` produced for `p` yields `p`, `RsaEnvOpen` on what
`RsaEnvSeal` produced yields `p`, and whatever AES-128-GCM returns, the ciphertext of
`RsaEnvSeal` has exactly the plaintext's length and its MAC exactly 16 bytes. -/
theorem envelope_round_trip (c : EnvelopeCrypto) (rd : Nat)
    (smPub smPri rsaPub rsaPri iv p : List Nat)
    (hsm2 : ∀ k, ∃ ek, c.sm2Encrypt smPub k = some ek ∧ c.sm2Decrypt smPri ek = some k)
    (hsm4 : ∀ k q, ∃ ct, c.sm4MteEncrypt k iv q = some ct ∧ c.sm4MteDecrypt k iv ct = some q)
    (hrsa : ∀ k, ∃ ek, c.rsaEncrypt rsaPub k = some ek ∧ c.rsaDecrypt rsaPri ek = some k)
    (hgcm : ∀ k q, ∃ ct mac, c.gcmEncrypt k iv q [] = some (ct, mac) ∧
      ct.length = q.length ∧ mac.length = 16 ∧ c.gcmDecrypt k iv ct [] mac = some q) :
    (∃ ek ct, SmEnvSeal c rd smPub iv p = some (ek, ct) ∧
      SmEnvOpen c smPri iv ek ct = some p) ∧
    (∃ ek ct mac, RsaEnvSeal c rd rsaPub iv p = some (ek, ct, mac) ∧
      ct.length = p.length ∧ mac.length = 16 ∧
      RsaEnvOpen c rsaPri iv ek ct mac = some p) ∧
    (∀ (pub : List Nat) (ek ct mac : List Nat),
      RsaEnvSeal c rd pub iv p = some (ek, ct, mac) →
        ct.length = p.length ∧ mac.length = 16) := by
  refine ⟨?_, ?_, fun pub ek ct mac h => RsaEnvSeal_lengths c rd pub iv p ek ct mac h⟩
  · obtain ⟨ek, he, hd⟩ := hsm2 (GenRandKey c.prg rd 16)
    obtain ⟨ct, hce, hcd⟩ := hsm4 (GenRandKey c.prg rd 16) p
    exact ⟨ek, ct, by simp [SmEnvSeal, he, hce], by simp [SmEnvOpen, hd, hcd]⟩
  · obtain ⟨ek, he, hd⟩ := hrsa (GenRandKey c.prg rd 16)
    obtain ⟨ct, mac, hge, hcl, hml, hgd⟩ := hgcm (GenRandKey c.prg rd 16) p
    have hct : writeSpan p.length ct = ct := by rw [← hcl]; exact writeSpan_self ct
    have hmac : writeSpan 16 mac = mac := by rw [← hml]; exact writeSpan_self mac
    refine ⟨ek, ct, mac, ?_, hcl, hml, ?_⟩
    · simp [RsaEnvSeal, hge, he, hct, hmac]
    · simp only [RsaEnvOpen, hd, hgd, hcl]
      rw [writeSpan_self]

/-- Witness for C26: with the toy primitives, sealing and opening the plaintext `[10, 20, 30]`
returns it, for SM and for RSA. -/
theorem envelope_round_trip_witness :
    (∃ ek ct, SmEnvSeal toyCrypto 7 [1] [2] [10, 20, 30] = some (ek, ct) ∧
      SmEnvOpen toyCrypto [3] [2] ek ct = some [10, 20, 30]) ∧
    (∃ ek ct mac, RsaEnvSeal toyCrypto 7 [4] [2] [10, 20, 30] = some (ek, ct, mac) ∧
      ct.length = ([10, 20, 30] : List Nat).length ∧ mac.length = 16 ∧
      RsaEnvOpen toyCrypto [5] [2] ek ct mac = some [10, 20, 30]) ∧
    (∀ (pub : List Nat) (ek ct mac : List Nat),
      RsaEnvSeal toyCrypto 7 pub [2] [10, 20, 30] = some (ek, ct, mac) →
        ct.length = ([10, 20, 30] : List Nat).length ∧ mac.length = 16) :=
  envelope_round_trip toyCrypto 7 [1] [3] [4] [5] [2] [10, 20, 30]
    (fun k => ⟨k.reverse, rfl, by simp [toyCrypto]⟩)
    (fun k q => ⟨q.reverse, rfl, by simp [toyCrypto]⟩)
    (fun k => ⟨k.reverse, rfl, by simp [toyCrypto]⟩)
    (fun k q => ⟨q.reverse, List.replicate 16 0, rfl, by simp, by simp, by simp [toyCrypto]⟩)

/-- C27: `GenRandKey(n)` returns exactly `n` bytes, and these are a function only of `n` and of
the value `rd` drawn from `std::random_device`: byte `i` is the first byte of the element at
position `i` of the generator seeded with `rd`, so two calls that draw the same seed return the
same key. The 16-byte keys of `SmEnvSeal` and `RsaEnvSeal` are `GenRandKey` of the drawn value,
which is an `unsigned int`, so they range over at most `2 ^ 32` distinct values. -/
theorem GenRandKey_seed_only (c : EnvelopeCrypto) (hB : 0 < c.prg.batchSize) (n : Nat) :
    (∀ rd, (GenRandKey c.prg rd n).length = n) ∧
    (∀ rd, GenRandKey c.prg rd n
      = (List.range n).map (fun i => (prgElement c.prg rd i).getD 0 0)) ∧
    (∀ rd1 rd2, rd1 = rd2 → GenRandKey c.prg rd1 n = GenRandKey c.prg rd2 n) ∧
    (∀ rd pub iv p, SmEnvSeal c rd pub iv p
      = (c.sm4MteEncrypt (GenRandKey c.prg rd 16) iv p).bind (fun ct =>
          (c.sm2Encrypt pub (GenRandKey c.prg rd 16)).map (fun ek => (ek, ct)))) ∧
    (∀ rd pub iv p, RsaEnvSeal c rd pub iv p
      = (c.gcmEncrypt (GenRandKey c.prg rd 16) iv p []).bind (fun out =>
          (c.rsaEncrypt pub (GenRandKey c.prg rd 16)).map (fun ek =>
            (ek, writeSpan p.length out.1, writeSpan 16 out.2)))) ∧
    (∀ rd, rd < 2 ^ 32 →
      GenRandKey c.prg rd 16 ∈ (Finset.range (2 ^ 32)).image (fun s => GenRandKey c.prg s 16)) ∧
    ((Finset.range (2 ^ 32)).image (fun s => GenRandKey c.prg s 16)).card ≤ 2 ^ 32 := by
  refine ⟨fun rd => GenRandKey_length _ _ _, fun rd => ?_, fun _ _ h => by rw [h], ?_, ?_, ?_, ?_⟩
  · simp only [GenRandKey, prg_outputs_new c.prg rd hB n, List.map_map]
    rfl
  · intro rd pub iv p
    unfold SmEnvSeal
    cases h1 : c.sm4MteEncrypt (GenRandKey c.prg rd 16) iv p with
    | none => simp [h1]
    | some ct => cases h2 : c.sm2Encrypt pub (GenRandKey c.prg rd 16) <;> simp [h1, h2]
  · intro rd pub iv p
    unfold RsaEnvSeal
    cases h1 : c.gcmEncrypt (GenRandKey c.prg rd 16) iv p [] with
    | none => simp [h1]
    | some out => cases h2 : c.rsaEncrypt pub (GenRandKey c.prg rd 16) <;> simp [h1, h2]
  · intro rd hrd
    exact Finset.mem_image.2 ⟨rd, Finset.mem_range.2 hrd, rfl⟩
  · calc ((Finset.range (2 ^ 32)).image (fun s => GenRandKey c.prg s 16)).card
        ≤ (Finset.range (2 ^ 32)).card := Finset.card_image_le
      _ = 2 ^ 32 := Finset.card_range _

/-- Witness for C27: with the toy generator the key drawn from the seed `7` has 16 bytes and is
the same on a second draw of `7`. -/
theorem GenRandKey_seed_only_witness :
    0 < toyCrypto.prg.batchSize ∧
    (GenRandKey toyCrypto.prg 7 16).length = 16 ∧
    GenRandKey toyCrypto.prg 7 16
      = (List.range 16).map (fun i => (prgElement toyCrypto.prg 7 i).getD 0 0) ∧
    GenRandKey toyCrypto.prg 7 16
      = [7, 8, 9, 10, 14, 15, 16, 17, 21, 22, 23, 24, 28, 29, 30, 31] :=
  ⟨by decide, (GenRandKey_seed_only toyCrypto (by decide) 16).1 7,
    (GenRandKey_seed_only toyCrypto (by decide) 16).2.1 7, by decide⟩

/-! ## SM2 signature verification -/

theorem PPU_ENFORCE_GT_int (file : String) (line : Nat) (sx sy : String) (x : Int)
    (extra : String) :
    (PPU_ENFORCE_GT intComparable file line sx sy x 0 extra = Except.ok () ↔ 0 < x) ∧
    (¬ 0 < x → ∃ e, PPU_ENFORCE_GT intComparable file line sx sy x 0 extra = Except.error e) := by
  have h := EnforceMacro_run_eq intComparable EnforceMacro.GT file line sx sy x 0 extra
  have hop : EnforceMacro.GT.op intComparable x 0 = decide (0 < x) := by
    simp [EnforceMacro.op, intComparable]
  simp only [EnforceMacro.run] at h
  rw [h, hop]
  by_cases hx : 0 < x
  · simp [hx]
  · simp [hx]

/-- C28: `Sm2Verifier::Verify` reports failure only by raising. `Verify(message, signature,
id)` returns normally iff both contexts are allocated and `EVP_DigestVerifyInit`,
`EVP_DigestVerifyUpdate` and `EVP_DigestVerifyFinal` each return a value greater than `0`, and
throws `EnforceNotMet` otherwise, in particular when the final check returns `0` or a negative
code; `Verify(message, signature)` is the three-argument form with the default SM2 id. -/
theorem Sm2Verifier_Verify_iff {PKey PCtx MCtx : Type} (ssl : Sm2OpenSSL PKey PCtx MCtx)
    (v : Sm2Verifier PKey) (message signature id : List Nat) :
    (v.Verify ssl message signature id = Except.ok () ↔
      ∃ p m, ssl.EVP_PKEY_CTX_new v.pkey_ = some p ∧ ssl.EVP_MD_CTX_new = some m ∧
        0 < (ssl.EVP_DigestVerifyInit
              (ssl.EVP_MD_CTX_set_pkey_ctx m (ssl.EVP_PKEY_CTX_set1_id p id)) v.pkey_).1 ∧
        0 < (ssl.EVP_DigestVerifyUpdate (ssl.EVP_DigestVerifyInit
              (ssl.EVP_MD_CTX_set_pkey_ctx m (ssl.EVP_PKEY_CTX_set1_id p id)) v.pkey_).2
              message).1 ∧
        0 < ssl.EVP_DigestVerifyFinal (ssl.EVP_DigestVerifyUpdate (ssl.EVP_DigestVerifyInit
              (ssl.EVP_MD_CTX_set_pkey_ctx m (ssl.EVP_PKEY_CTX_set1_id p id)) v.pkey_).2
              message).2 signature) ∧
    (v.Verify ssl message signature id ≠ Except.ok () →
      ∃ e : EnforceNotMet, v.Verify ssl message signature id = Except.error e) ∧
    v.VerifyDefaultId ssl message signature
      = v.Verify ssl message signature ssl.SM2_ID_DEFAULT ∧
    (Sm2Verifier.mk ()).Verify toySsl [1, 2, 3] [3, 2, 1] [7] = Except.ok () ∧
    (∃ e : EnforceNotMet, (Sm2Verifier.mk ()).Verify toySsl [1, 2, 3] [9, 9, 9] [7]
      = Except.error e) := by
  refine ⟨?_, ?_, rfl, rfl, ⟨_, rfl⟩⟩
  · unfold Sm2Verifier.Verify
    cases hp : ssl.EVP_PKEY_CTX_new v.pkey_ with
    | none => simp [PPU_ENFORCE]
    | some p =>
      cases hm : ssl.EVP_MD_CTX_new with
      | none => simp [PPU_ENFORCE]
      | some m =>
        simp only [Option.some.injEq, exists_and_left, exists_eq_left']
        generalize ssl.EVP_DigestVerifyInit
          (ssl.EVP_MD_CTX_set_pkey_ctx m (ssl.EVP_PKEY_CTX_set1_id p id)) v.pkey_ = r1
        generalize hr2 : ssl.EVP_DigestVerifyUpdate r1.2 message = r2
        generalize hr3 : ssl.EVP_DigestVerifyFinal r2.2 signature = r3
        by_cases h1 : 0 < r1.1
        · rw [((PPU_ENFORCE_GT_int _ _ _ _ r1.1 "").1).2 h1]
          by_cases h2 : 0 < r2.1
          · simp only [hr2]
            rw [((PPU_ENFORCE_GT_int _ _ _ _ r2.1 "").1).2 h2]
            simp only [hr3]
            rw [(PPU_ENFORCE_GT_int _ _ _ _ r3 "").1]
            simp [h1, h2]
          · obtain ⟨e, he⟩ := (PPU_ENFORCE_GT_int "ppu/crypto/sm2_signing.cc" 154
              "EVP_DigestVerifyUpdate(m_ctx, message.data(), message.size())" "0" r2.1 "").2 h2
            simp only [hr2, he]
            simp [h2]
        · obtain ⟨e, he⟩ := (PPU_ENFORCE_GT_int "ppu/crypto/sm2_signing.cc" 152
            "EVP_DigestVerifyInit(m_ctx, nullptr, EVP_sm3(), nullptr, pkey_.get())" "0"
            r1.1 "").2 h1
          simp only [he]
          simp [h1]
  · intro h
    cases hv : v.Verify ssl message signature id with
    | error e => exact ⟨e, rfl⟩
    | ok u => exact absurd hv h

/-- C29: `CheetahPrimitives` maps every rank to a party: the party is `ALICE` iff the rank of
the link context is `0`, and `BOB` for every other rank, so for every rank `≥ 1` and not only
for rank `1`; the silent OT pack is set up with the same party. -/
theorem cheetah_party_of_rank (rank : Nat) :
    ((CheetahPrimitives.new rank).cheetah_party_ = emp.ALICE ↔ rank = 0) ∧
    ((CheetahPrimitives.new rank).cheetah_party_ = emp.BOB ↔ rank ≠ 0) ∧
    (1 ≤ rank → (CheetahPrimitives.new rank).cheetah_party_ = emp.BOB) ∧
    ((CheetahPrimitives.new rank).cheetah_party_ = emp.ALICE ∨
      (CheetahPrimitives.new rank).cheetah_party_ = emp.BOB) ∧
    (CheetahPrimitives.new rank).silent_ot_party = (CheetahPrimitives.new rank).cheetah_party_ ∧
    (CheetahPrimitives.new 0).cheetah_party_ = emp.ALICE ∧
    (CheetahPrimitives.new 1).cheetah_party_ = emp.BOB ∧
    (CheetahPrimitives.new 2).cheetah_party_ = emp.BOB := by
  have hne : emp.ALICE ≠ emp.BOB := by decide
  by_cases h : rank = 0
  · subst h
    simp [CheetahPrimitives.new, hne]
  · have h1 : 1 ≤ rank := by omega
    simp [CheetahPrimitives.new, h, hne.symm]

/-- C30: for two parties the arithmetic-to-boolean conversion costs exactly one adder in
rounds. Under every rounding rule `lg` of the integer `log2` with `lg 2 = 1` and `lg 1 = 0`,
`A2B.latency()` at `N = 2` equals `AddBB.latency()` at the same `K` for every `K`, and at
`N = 1` both `A2B.latency()` and `A2B.comm()` evaluate to `0`; `A2B.comm()` is `0` at `N = 1`
under any rule. -/
theorem A2B_two_party_latency (lg : Nat → Nat) (h2 : lg 2 = 1) (h1 : lg 1 = 0) (k : Nat) :
    (∀ n : Nat, A2B.latency.eval lg k 2 = AddBB.latency.eval lg k n) ∧
    A2B.latency.eval lg k 1 = 0 ∧ A2B.comm.eval lg k 1 = 0 ∧
    (∀ lg2 : Nat → Nat, A2B.comm.eval lg2 k 1 = 0) := by
  refine ⟨fun n => ?_, ?_, ?_, fun lg2 => ?_⟩
  · simp [A2B.latency, AddBB.latency, h2]
  · simp [A2B.latency, h1]
  · simp [A2B.comm]
  · simp [A2B.comm]

/-- Witness for C30: the floor rule and the ceiling rule both have `log2(2) = 1` and
`log2(1) = 0`; at `K = 64` the latency of `A2B` for two parties and of `AddBB` is `7`. -/
theorem A2B_two_party_latency_witness :
    ((log2Floor 2 = 1 ∧ log2Floor 1 = 0) ∧
      (∀ n : Nat, A2B.latency.eval log2Floor 64 2 = AddBB.latency.eval log2Floor 64 n) ∧
      A2B.latency.eval log2Floor 64 1 = 0 ∧ A2B.comm.eval log2Floor 64 1 = 0 ∧
      (∀ lg2 : Nat → Nat, A2B.comm.eval lg2 64 1 = 0)) ∧
    ((log2Ceil 2 = 1 ∧ log2Ceil 1 = 0) ∧
      (∀ n : Nat, A2B.latency.eval log2Ceil 64 2 = AddBB.latency.eval log2Ceil 64 n) ∧
      A2B.latency.eval log2Ceil 64 1 = 0 ∧ A2B.comm.eval log2Ceil 64 1 = 0 ∧
      (∀ lg2 : Nat → Nat, A2B.comm.eval lg2 64 1 = 0)) ∧
    A2B.latency.eval log2Floor 64 2 = 7 ∧ AddBB.latency.eval log2Floor 64 2 = 7 :=
  ⟨⟨⟨by decide, by decide⟩, A2B_two_party_latency log2Floor (by decide) (by decide) 64⟩,
    ⟨⟨by decide, by decide⟩, A2B_two_party_latency log2Ceil (by decide) (by decide) 64⟩,
    by decide, by decide⟩

end PPU
